import Mathlib

/-!
# mcdef: term extraction and split computation

A shallow embedding of `mcdef.go` and proofs about it.

* Go strings are modelled as lists of Unicode code points (`Str`); the text is assumed to be
  valid UTF-8, so byte offsets and code point offsets cut the same substrings and
  `len(x) > 0` is `0 < x.length`.
* The `regexp` patterns are written in a small abstract syntax (`Regex`) and run by a
  backtracking matcher with Go's leftmost-first priorities; the searching and splitting
  loops follow `regexp.allMatches` and `regexp.Split` on match indices. None of the
  patterns has an anchor, so a search from a position only reads the text after it.
* A Go `map[string]bool` used as a set is the duplicate-free list of its keys; the order in
  which a `range` statement visits the keys is unspecified in Go and is supplied by
  `RangeOrder`.
* A Go `map[string]string` is an association list whose newest binding comes first.
* The loops of the program are written as recursive functions over the list they range
  over, the loop variables becoming arguments.
-/

namespace Mcdef

/-- Go `string`: a sequence of code points. -/
abbrev Str := List Char

/-- Go slice expression `s[b:e]` (code point offsets). -/
def slice (s : Str) (b e : Nat) : Str := (s.drop b).take (e - b)

/-! ## The `regexp` fragment used by the program -/

/-- Capture registers: group number with the start and end offset of its last match. -/
abbrev Caps := List (Nat × Nat × Nat)

/-- Abstract syntax of the RE2 constructs occurring in the patterns of `mcdef.go`:
one character of a class, a greedy counted repetition of a class, concatenation,
alternation, a greedy optional part and a capture group. -/
inductive Regex where
  | eps : Regex
  | cls (p : Char → Bool) : Regex
  | rep (p : Char → Bool) (lo : Nat) (hi : Option Nat) : Regex
  | seq (a b : Regex) : Regex
  | alt (a b : Regex) : Regex
  | opt (a : Regex) : Regex
  | group (i : Nat) (a : Regex) : Regex

/-- Greedy repetition `[p]{lo,hi}` followed by the continuation `k`: take as many
characters as allowed, give them back one at a time while `k` fails. -/
def repRun {α : Type} (p : Char → Bool) (k : Str → Nat → Option α) :
    Nat → Option Nat → Str → Nat → Option α
  | lo, _, [], n => if lo = 0 then k [] n else none
  | lo, hi, ch :: t, n =>
    if p ch = true ∧ hi ≠ some 0 then
      match repRun p k (lo - 1) (hi.map (· - 1)) t (n + 1) with
      | some r => some r
      | none => if lo = 0 then k (ch :: t) n else none
    else if lo = 0 then k (ch :: t) n else none

/-- Backtracking matcher anchored at the head of the remaining input `s`, which starts at
offset `n` of the whole text. Alternatives are tried in priority order (left branch of
`alt` first, longer repetition first), so the first success is Go's leftmost-first match. -/
def Regex.run {α : Type} : Regex → Str → Nat → Caps → (Str → Nat → Caps → Option α) → Option α
  | .eps, s, n, c, k => k s n c
  | .cls p, s, n, c, k =>
    match s with
    | ch :: t => if p ch = true then k t (n + 1) c else none
    | [] => none
  | .rep p lo hi, s, n, c, k => repRun p (fun s1 n1 => k s1 n1 c) lo hi s n
  | .seq a b, s, n, c, k => a.run s n c (fun s1 n1 c1 => b.run s1 n1 c1 k)
  | .alt a b, s, n, c, k =>
    match a.run s n c k with
    | some r => some r
    | none => b.run s n c k
  | .opt a, s, n, c, k =>
    match a.run s n c k with
    | some r => some r
    | none => k s n c
  | .group i a, s, n, c, k => a.run s n c (fun s1 n1 c1 => k s1 n1 ((i, n, n1) :: c1))

/-- Concatenation of a list of sub-patterns. -/
def Regex.cat : List Regex → Regex
  | [] => .eps
  | [a] => a
  | a :: l => .seq a (Regex.cat l)

/-- One literal character. -/
def Regex.chr (c : Char) : Regex := .cls (fun x => x == c)

/-- A literal string, as produced by compiling `regexp.QuoteMeta(s)`. -/
def Regex.lit : Str → Regex
  | [] => .eps
  | c :: s => .seq (.chr c) (Regex.lit s)

/-- The alternation `r|r1|...|rn` of a non-empty list of branches. -/
def Regex.altOf : Regex → List Regex → Regex
  | r, [] => r
  | r, r1 :: rs => .alt r (Regex.altOf r1 rs)

/-- Leftmost match in `s`, where `s` is the part of the text from offset `pos` on:
the result is the start offset, the end offset and the capture registers. -/
def search (re : Regex) : Str → Nat → Option (Nat × Nat × Caps)
  | [], pos =>
    match re.run [] pos [] (fun _ n c => some (n, c)) with
    | some (e, c) => some (pos, e, c)
    | none => none
  | ch :: t, pos =>
    match re.run (ch :: t) pos [] (fun _ n c => some (n, c)) with
    | some (e, c) => some (pos, e, c)
    | none => search re t (pos + 1)

/-- The loop of `regexp.allMatches` with no limit on the number of matches: successive
leftmost matches, each search starting where the previous match ended; an empty match
directly after the previous match is skipped. -/
def allMatchesLoop (re : Regex) (s : Str) : Nat → Nat → Option Nat → List (Nat × Nat × Caps)
  | 0, _, _ => []
  | fuel + 1, pos, prevMatchEnd =>
    if pos ≤ s.length then
      match search re (s.drop pos) pos with
      | none => []
      | some (b, e, c) =>
        if e = pos then
          if some b = prevMatchEnd then allMatchesLoop re s fuel (pos + 1) (some e)
          else (b, e, c) :: allMatchesLoop re s fuel (pos + 1) (some e)
        else (b, e, c) :: allMatchesLoop re s fuel e (some e)
    else []

/-- All successive matches of `re` in `s` (`regexp.allMatches` with `n = -1`). Every turn of
the loop moves the position forward, so `s.length + 2` turns are enough. -/
def allMatches (re : Regex) (s : Str) : List (Nat × Nat × Caps) :=
  allMatchesLoop re s (s.length + 2) 0 none

/-- The loop of `regexp.Split` over the match indices. -/
def splitLoop (s : Str) : List (Nat × Nat × Caps) → Nat → Nat → List Str
  | [], beg, en => if en ≠ s.length then [s.drop beg] else []
  | (b, e, _) :: ms, beg, _ =>
    if e ≠ 0 then slice s beg b :: splitLoop s ms e b else splitLoop s ms e b

/-- Go `(*Regexp).Split(s, -1)`; `exprEmpty` says whether the source text of the pattern
is the empty string (`len(re.expr) > 0` is its negation). -/
def Regex.Split (re : Regex) (exprEmpty : Bool) (s : Str) : List Str :=
  if exprEmpty = false ∧ s.length = 0 then [[]] else splitLoop s (allMatches re s) 0 0

/-- Text of capture group `i`: the empty string when the group did not take part. -/
def capture (s : Str) (c : Caps) (i : Nat) : Str :=
  match c.lookup i with
  | some (b, e) => slice s b e
  | none => []

/-- The slice of strings returned by `FindStringSubmatch` for a pattern with three
groups: index 0 is the whole match, indexes 1 to 3 are the groups. -/
structure Submatch where
  m0 : Str
  m1 : Str
  m2 : Str
  m3 : Str
deriving DecidableEq, Repr

/-- The strings of one match, cut from the searched text `s`. -/
def submatch (s : Str) (m : Nat × Nat × Caps) : Submatch :=
  { m0 := slice s m.1 m.2.1, m1 := capture s m.2.2 1, m2 := capture s m.2.2 2,
    m3 := capture s m.2.2 3 }

/-- Go `(*Regexp).FindStringSubmatch`: `none` is the nil slice. -/
def Regex.FindStringSubmatch (re : Regex) (s : Str) : Option Submatch :=
  (search re s 0).map (submatch s)

/-- Go `(*Regexp).FindAllStringSubmatch(s, -1)`. -/
def Regex.FindAllStringSubmatch (re : Regex) (s : Str) : List Submatch :=
  (allMatches re s).map (submatch s)

/-- Go `(*Regexp).FindAllString(s, -1)`. -/
def Regex.FindAllString (re : Regex) (s : Str) : List Str :=
  (allMatches re s).map (fun m => slice s m.1 m.2.1)

/-! ## The `strings` and `unicode` functions used by the program -/

/-- Go `unicode.IsSpace`. -/
def isSpace (c : Char) : Bool :=
  let n := c.toNat
  n = 0x09 ∨ n = 0x0a ∨ n = 0x0b ∨ n = 0x0c ∨ n = 0x0d ∨ n = 0x20 ∨ n = 0x85 ∨ n = 0xa0 ∨
  n = 0x1680 ∨ (0x2000 ≤ n ∧ n ≤ 0x200a) ∨ n = 0x2028 ∨ n = 0x2029 ∨ n = 0x202f ∨
  n = 0x205f ∨ n = 0x3000

/-- Go `strings.TrimSpace`. -/
def TrimSpace (s : Str) : Str :=
  ((s.dropWhile isSpace).reverse.dropWhile isSpace).reverse

/-- Go `strings.Split(s, sep)` for a separator of one character. -/
def stringsSplit (sep : Char) : Str → List Str
  | [] => [[]]
  | c :: s =>
    if c = sep then [] :: stringsSplit sep s
    else
      match stringsSplit sep s with
      | [] => [[c]]
      | p :: ps => (c :: p) :: ps

/-- Go `strings.Join(elems, sep)`. -/
def stringsJoin (sep : Str) : List Str → Str
  | [] => []
  | [a] => a
  | a :: b :: l => a ++ sep ++ stringsJoin sep (b :: l)

/-! ## Go maps -/

/-- A `map[string]bool` all of whose values are `true`: the list of its keys, without
repetition. -/
abbrev StrSet := List Str

/-- The assignment `m[k] = true`. -/
def StrSet.add (m : StrSet) (k : Str) : StrSet := if k ∈ m then m else m ++ [k]

/-- A `map[string]string`: the newest binding of a key comes first. -/
abbrev RefMap := List (Str × Str)

/-- The order in which the two order-sensitive `range` statements over a map visit its
keys. Go leaves the order unspecified, so every permutation of the keys can occur. -/
structure RangeOrder where
  /-- order of `range manualSplits` in `unsplitParts` -/
  manualOrder : List Str → List Str
  /-- order of `range splits` in `matchedTermDefinitions` -/
  splitsOrder : List Str → List Str
  manualOrder_perm : ∀ l, (manualOrder l).Perm l
  splitsOrder_perm : ∀ l, (splitsOrder l).Perm l

/-- Keys visited in insertion order. -/
def RangeOrder.insertion : RangeOrder :=
  { manualOrder := id, splitsOrder := id,
    manualOrder_perm := fun _ => List.Perm.refl _,
    splitsOrder_perm := fun _ => List.Perm.refl _ }

/-- Keys of `manualSplits` visited in reverse insertion order. -/
def RangeOrder.reversed : RangeOrder :=
  { manualOrder := List.reverse, splitsOrder := id,
    manualOrder_perm := fun l => List.reverse_perm l,
    splitsOrder_perm := fun _ => List.Perm.refl _ }

/-! ## The program -/

/-- Go `\s` (RE2 Perl class): tab, newline, form feed, carriage return, space. -/
def reSpace (c : Char) : Bool :=
  c = '\t' ∨ c = '\n' ∨ c = '\x0c' ∨ c = '\r' ∨ c = ' '

/-- Pattern `\[([^\]]+)\](\[([^\]]*)\])?`. -/
def termReferenceDefinitionPattern : Regex :=
  Regex.cat [.chr '[', .group 1 (.rep (fun c => c != ']') 1 none), .chr ']',
    .opt (.group 2 (Regex.cat [.chr '[', .group 3 (.rep (fun c => c != ']') 0 none),
      .chr ']']))]

/-- Pattern `\s*\n\s*\n`. -/
def paragraphSplittingPattern : Regex :=
  Regex.cat [.rep reSpace 0 none, .chr '\n', .rep reSpace 0 none, .chr '\n']

/-- Pattern `(?s)\[(\S+)\]:\s*\/([^\s]*)\s*\n?(.*)`. -/
def termDefinitionPattern : Regex :=
  Regex.cat [.chr '[', .group 1 (.rep (fun c => !reSpace c) 1 none), .chr ']', .chr ':',
    .rep reSpace 0 none, .chr '/', .group 2 (.rep (fun c => !reSpace c) 0 none),
    .rep reSpace 0 none, .opt (.chr '\n'), .group 3 (.rep (fun _ => true) 0 none)]

structure Term where
  Text : Str
  Reference : Str
  Definition : Str
  Splits : List Str
deriving DecidableEq, Repr

/-- Interface `WordSplitter`: its one method `SplitWord`. -/
abbrev WordSplitter := Str → List Str

/-- Go `splitBySeparator`, the loop body: trim the piece and keep it when non-empty. -/
def splitBySeparatorStep (result : StrSet) (piece : Str) : StrSet :=
  let piece := TrimSpace piece
  if 0 < piece.length then result.add piece else result

def splitBySeparator (t : Str) : StrSet :=
  (stringsSplit '/' t).foldl splitBySeparatorStep []

/-- Go `unsplitParts`: `regexp.QuoteMeta` followed by compilation gives the literal
`Regex.lit`; the joined source text is empty only for the single key `""`. -/
def unsplitParts (ro : RangeOrder) (t : Str) (manualSplits : StrSet) : List Str :=
  match ro.manualOrder manualSplits with
  | [] => [t]
  | q :: qs =>
    (Regex.altOf (Regex.lit q) (qs.map Regex.lit)).Split (decide (q :: qs = [[]])) t

/-- The inner loop of `matchedTermDefinitions` over the pieces returned by the splitter. -/
def addSplits (splits : StrSet) (pieces : List Str) : StrSet :=
  pieces.foldl (fun splits split => if 0 < split.length then splits.add split else splits)
    splits

/-- The loop of `matchedTermDefinitions` over the unsplit parts. -/
def addUnsplit (splitter : WordSplitter) (splits : StrSet) (parts : List Str) : StrSet :=
  parts.foldl (fun splits unsplitPiece =>
    if 0 < unsplitPiece.length then addSplits splits (splitter unsplitPiece) else splits)
    splits

/-- The map `splits` of one turn of the loop of `matchedTermDefinitions`: a copy of
`manualSplits`, then the splitter's pieces of the unsplit parts. -/
def termSplits (ro : RangeOrder) (splitter : WordSplitter) (text : Str)
    (manualSplits : StrSet) : StrSet :=
  addUnsplit splitter manualSplits (unsplitParts ro text manualSplits)

/-- The loop of `matchedTermDefinitions`; `seenReferences` is the set of references that
already produced a term, the result is the list of terms appended from here on. -/
def matchedLoop (ro : RangeOrder) (termTexts : RefMap) (splitter : WordSplitter) :
    List Submatch → StrSet → List Term
  | [], _ => []
  | definition :: rest, seenReferences =>
    let reference := definition.m1
    let manualSplits := splitBySeparator definition.m2
    let body := TrimSpace definition.m3
    match termTexts.lookup reference with
    | none => matchedLoop ro termTexts splitter rest seenReferences
    | some text =>
      let splits := termSplits ro splitter text manualSplits
      if reference ∈ seenReferences then
        matchedLoop ro termTexts splitter rest seenReferences
      else
        { Text := text, Definition := body, Reference := reference,
          Splits := ro.splitsOrder splits } ::
          matchedLoop ro termTexts splitter rest (seenReferences.add reference)

def matchedTermDefinitions (ro : RangeOrder) (termTexts : RefMap)
    (termDefinitions : List Submatch) (splitter : WordSplitter) : List Term :=
  matchedLoop ro termTexts splitter termDefinitions []

/-- The effective reference name of an inline reference: the explicit name when it is
non-empty, else the display text; trimmed. -/
def termName (referenceDefinition : Submatch) : Str :=
  TrimSpace (if referenceDefinition.m3.length = 0 then referenceDefinition.m1
    else referenceDefinition.m3)

/-- The loop of `termTexts` over the inline references found, starting from the map
`references`. -/
def addReferences (references : RefMap) : List Submatch → RefMap
  | [] => references
  | referenceDefinition :: rest =>
    addReferences ((termName referenceDefinition, referenceDefinition.m1) :: references) rest

def termTexts (text : Str) : RefMap :=
  addReferences [] (termReferenceDefinitionPattern.FindAllStringSubmatch text)

/-- The loop of `FindTerms` over the paragraphs: the definition matches and the other
paragraphs, both in the order of the text. -/
def classify : List Str → List Submatch × List Str
  | [] => ([], [])
  | paragraph :: rest =>
    match termDefinitionPattern.FindStringSubmatch paragraph with
    | some m => (m :: (classify rest).1, (classify rest).2)
    | none => ((classify rest).1, paragraph :: (classify rest).2)

def FindTerms (ro : RangeOrder) (text : Str) (splitter : WordSplitter) : List Term × Str :=
  let paragraphs := paragraphSplittingPattern.Split false text
  let termDefinitions := (classify paragraphs).1
  let nonDefinitionParagraphs := (classify paragraphs).2
  let nonDefinitionText := stringsJoin ['\n', '\n'] nonDefinitionParagraphs
  (matchedTermDefinitions ro (termTexts nonDefinitionText) termDefinitions splitter,
    nonDefinitionText)

/-! ## The default splitter -/

/-- Go `NewRegexWordSplitter`: the pieces are all successive matches of the pattern. -/
def NewRegexWordSplitter (regex : Regex) : WordSplitter :=
  fun word => regex.FindAllString word

/-- Class `[一-龥]`. -/
def isHan (c : Char) : Bool := 0x4e00 ≤ c.toNat ∧ c.toNat ≤ 0x9fa5

/-- Class `[ぁ-ゖ゙゙゙ゝ-ヾ･-ﾝ]`: U+3041 to U+3096, U+3099, U+309D to U+30FE, U+FF65 to U+FF9D. -/
def isKana (c : Char) : Bool :=
  let n := c.toNat
  (0x3041 ≤ n ∧ n ≤ 0x3096) ∨ n = 0x3099 ∨ (0x309d ≤ n ∧ n ≤ 0x30fe) ∨
    (0xff65 ≤ n ∧ n ≤ 0xff9d)

/-- Class `[^\s一-龥ぁ-ヾ　]`: not `\s`, not U+4E00 to U+9FA5, not U+3041 to U+30FE, not
U+3000. -/
def isOther (c : Char) : Bool :=
  let n := c.toNat
  !(reSpace c || decide (0x4e00 ≤ n ∧ n ≤ 0x9fa5) || decide (0x3041 ≤ n ∧ n ≤ 0x30fe) ||
    decide (n = 0x3000))

/-- Pattern `[一-龥]|[ぁ-ゖ゙゙゙ゝ-ヾ･-ﾝ]{1,2}|[^\s一-龥ぁ-ヾ　]{1,5}`. -/
def japanesePattern : Regex :=
  .alt (.cls isHan) (.alt (.rep isKana 1 (some 2)) (.rep isOther 1 (some 5)))

def JapaneseWordSplitter : WordSplitter := NewRegexWordSplitter japanesePattern

/-! ## Notions used to state the properties -/

/-- The term the loop builds from the definition match `d` whose reference resolves to
the display text `text`. -/
def termOf (ro : RangeOrder) (splitter : WordSplitter) (text : Str) (d : Submatch) : Term :=
  { Text := text, Definition := TrimSpace d.m3, Reference := d.m1,
    Splits := ro.splitsOrder (termSplits ro splitter text (splitBySeparator d.m2)) }

/-- The reference names of a list with every repeat after the first removed. -/
def firstOccurrences : List Str → List Str
  | [] => []
  | a :: l => a :: (firstOccurrences l).filter (fun b => b ≠ a)

/-- Two terms that agree except for the order of their splits. -/
def Term.sameUpToSplitsOrder (t1 t2 : Term) : Prop :=
  t1.Text = t2.Text ∧ t1.Reference = t2.Reference ∧ t1.Definition = t2.Definition ∧
    t1.Splits.Perm t2.Splits

/-! ## Fixtures -/

/-- The submatch of the definition paragraph `[w]: /<manual>` with body `defn text`. -/
def fixtureDefinition (manual : String) : Submatch :=
  { m0 := "[w]: /".toList ++ manual.toList ++ "\ndefn text".toList, m1 := "w".toList,
    m2 := manual.toList, m3 := "defn text".toList }

/-- The splitter that returns the word itself as its only piece. -/
def wholeWord : WordSplitter := fun w => [w]

/-- A document with one inline reference `[abcdxy][w]` and the definition paragraph
`[w]: /ab/cd/`. -/
def fixtureText : Str :=
  String.toList "Read [abcdxy][w] here.\n\n[w]: /ab/cd/\ndefn text"

/-- The term `FindTerms` returns for `fixtureText`, given the pieces of "xy". -/
def fixtureTerm (pieces : List Str) : Term :=
  { Text := "abcdxy".toList, Reference := "w".toList, Definition := "defn text".toList,
    Splits := ["ab".toList, "cd".toList] ++ pieces }

/-- A document whose only use of the reference `r` is inside the definition paragraph of
`r` itself. -/
def selfReferenceText : Str :=
  String.toList "Intro.\n\n[r]: /\nsee [r] here"

/-- A splitter that returns an empty piece besides the word. -/
def emptyAndWord : WordSplitter := fun w => [[], w]

/-- A splitter that returns the word twice and the piece "ab". -/
def repeating : WordSplitter := fun w => [w, w, "ab".toList]

/-- A document whose definition paragraph declares the manual split "zzz", which does not
occur in the display text "foo". -/
def undeclaredSplitText : Str :=
  String.toList "See [foo][r].\n\n[r]: /zzz\ndefn"

/-- The term `FindTerms` returns for `undeclaredSplitText` with the splitter `wholeWord`. -/
def undeclaredSplitTerm : Term :=
  { Text := "foo".toList, Reference := "r".toList, Definition := "defn".toList,
    Splits := ["zzz".toList, "foo".toList] }

/-- A document whose definition paragraph declares the manual splits "a" and "ab" for the
display text "abc". -/
def overlapText : Str :=
  String.toList "Say [abc][r].\n\n[r]: /a/ab\nd"

/-- A document with two inline references to `r` that disagree on the display text. -/
def twoDisplaysText : Str :=
  String.toList "[x][r] [y][r]\n\n[r]: /\nd"

/-- The term `FindTerms` returns for `twoDisplaysText` with the splitter `wholeWord`. -/
def twoDisplaysTerm : Term :=
  { Text := "y".toList, Reference := "r".toList, Definition := "d".toList,
    Splits := ["y".toList] }

/-- The inline reference tokens of the prose that `FindTerms` returns for `text`. -/
def proseTokens (text : Str) : List Submatch :=
  termReferenceDefinitionPattern.FindAllStringSubmatch
    (stringsJoin ['\n', '\n'] (classify (paragraphSplittingPattern.Split false text)).2)

/-! ## The documents of `mcdef_test.go` -/

def otherTestText : Str :=
  String.toList "\n Here's some [completely](abc) different thing. \n\n [abc]: /completely \n Ho ho. \n\n\n And something [else] for testing. \n\n\n\n [else]: /else \n For testing, yo.\n "

def testText : Str :=
  String.toList " This text [will]: be included. \n\t\n[密林]: /密/林\nみつ‐りん【密林】\n樹木などがすきまのないほど生い茂っている林。\n\t\n\t\nThis will be included\n\t\n[link refs]: won't result in terms, not referenced\n* This list is con sumed by the above\n\t\n* Bullet points should render\n* Like you expect them\n* *This* is still mark down.\n\t\n[c]: /え\n伝えられ =>　伝える\n\t\n[a]: /\nひ‐ぶん【碑文】 \n石碑に彫りつけた文章。碑銘。\n\t\n筑波大などの国際研究チームは、カンボジアの北西 部の[密林][]に、古代クメール王朝が９世紀ごろに築いた[最初]の首都\n「[マヘンドラパルバタ][b]」の遺跡を 見つけた、と発表した。１２世紀前半に建設された[アンコールワット]より\n３００年ほど古い。これまで、[碑文][a][伝えられ][c]、寺院の一部が見つかっていたが、都市の全容はわかっていなかった。\n\t\n[アンコールワット]: /アンコー/ルワ/\n《「寺院町」の意》アンコールにある石造寺院遺跡。12世紀初め、クメール王朝スールヤバルマン2世の治下に建立。1992年、アンコールの他の遺跡とともに世界遺産（文化遺産）に登録された。 \n\t\n[b]: /\nマヘンドラパルバタ\n\t\n[unreferenced resource]: /\n\t\n"

def expectedText : Str :=
  String.toList " This text [will]: be included.\n\nThis will be included\n\n[link refs]: won't result in terms, not referenced\n* This list is con sumed by the above\n\n* Bullet points should render\n* Like you expect them\n* *This* is still mark down.\n\n筑波大などの国際研究チームは、カンボジアの北西 部の[密林][]に、古代クメール王朝が９世紀ごろに築いた[最初]の首都\n「[マヘンドラパルバタ][b]」の遺跡を 見つけた、と発表した。１２世紀前半に建設された[アンコールワット]より\n３００年ほど古い。これまで、[碑文][a][伝えられ][c]、寺院の一部が見つかっていたが、都市の全容はわかっていなかった。\n\n[unreferenced resource]: /\n\n"

/-- The terms `TestFindTerms` expects for `testText`. -/
def expectedTerms : List Term :=
  [{ Text := String.toList "伝えられ",
      Reference := String.toList "c",
      Definition := String.toList "伝えられ =>　伝える",
      Splits := [String.toList "られ", String.toList "伝", String.toList "え"] },
    { Text := String.toList "マヘンドラパルバタ",
      Reference := String.toList "b",
      Definition := String.toList "マヘンドラパルバタ",
      Splits := [String.toList "マヘ", String.toList "ラパ", String.toList "タ", String.toList "ルバ", String.toList "ンド"] },
    { Text := String.toList "アンコールワット",
      Reference := String.toList "アンコールワット",
      Definition := String.toList "《「寺院町」の意》アンコールにある石造寺院遺跡。12世紀初め、クメール王朝スールヤバルマン2世の治下に建立。1992年、アンコールの他の遺跡とともに世界遺産（文化遺産）に登録された。",
      Splits := [String.toList "ット", String.toList "ルワ", String.toList "アンコー"] },
    { Text := String.toList "密林",
      Reference := String.toList "密林",
      Definition := String.toList "みつ‐りん【密林】\n樹木などがすきまのないほど生い茂っている林。",
      Splits := [String.toList "密", String.toList "林"] },
    { Text := String.toList "碑文",
      Reference := String.toList "a",
      Definition := String.toList "ひ‐ぶん【碑文】 \n石碑に彫りつけた文章。碑銘。",
      Splits := [String.toList "碑", String.toList "文"] }]

/-! ## Fixtures for the later properties -/

/-- A document whose definition paragraph `[orphan]: /` has no inline reference. -/
def orphanText : Str :=
  String.toList "Some prose.\n\n[orphan]: /\ntext"

/-- A document whose definition paragraph for `r` has an empty body. -/
def emptyBodyText : Str :=
  String.toList "See [foo][r].\n\n[r]: /"

/-- A document whose definition body has two lines and trailing blanks. -/
def twoLineBodyText : Str :=
  String.toList "See [foo][r].\n\n[r]: /\nline one\n  line two \n"

/-- The zero value `Term{}`. -/
def zeroTerm : Term := { Text := [], Reference := [], Definition := [], Splits := [] }

/-- The one term `FindTerms` returns for `otherTestText`. -/
def elseTerm : Term :=
  { Text := "else".toList, Reference := "else".toList,
    Definition := "For testing, yo.".toList, Splits := ["else".toList] }

/-- A paragraph with no separator-only content: the definition submatch of a paragraph with
reference `r`, manual splits `manual` and body `body`. -/
def recordOf (r manual body : String) : Submatch :=
  { m0 := "[".toList ++ r.toList ++ "]: /".toList ++ manual.toList ++ "\n".toList ++ body.toList,
    m1 := r.toList, m2 := manual.toList, m3 := body.toList }

/-- The definition matches of the two definition paragraphs of `otherTestText`. -/
def otherDefinitions : List Submatch :=
  [{ m0 := "[abc]: /completely \n Ho ho.".toList, m1 := "abc".toList,
     m2 := "completely".toList, m3 := "Ho ho.".toList },
   { m0 := "[else]: /else \n For testing, yo.\n ".toList, m1 := "else".toList,
     m2 := "else".toList, m3 := "For testing, yo.\n ".toList }]

/-- The part of a term that does not depend on the splitter: text, reference and
definition. -/
def Term.header (t : Term) : Str × Str × Str := (t.Text, t.Reference, t.Definition)

/-! ## Matching, stated without the matcher's registers -/

/-- Length of the leftmost-first match of `re` anchored at the head of `s`, if there is
one. -/
def matchLen (re : Regex) (s : Str) : Option Nat := re.run s 0 [] (fun _ n _ => some n)

/-- The first position of `s` at which `re` matches, with the length of the match there. -/
def findFirst (re : Regex) : Str → Option (Nat × Nat)
  | [] => (matchLen re []).map (fun l => (0, l))
  | c :: t =>
    match matchLen re (c :: t) with
    | some l => some (0, l)
    | none => (findFirst re t).map (fun p => (p.1 + 1, p.2))

/-- The strings a pattern can match. -/
def Regex.lang : Regex → Str → Prop
  | .eps, u => u = []
  | .cls p, u => ∃ c, u = [c] ∧ p c = true
  | .rep p lo hi, u => (∀ c ∈ u, p c = true) ∧ lo ≤ u.length ∧ ∀ h, hi = some h → u.length ≤ h
  | .seq a b, u => ∃ u1 u2, u = u1 ++ u2 ∧ a.lang u1 ∧ b.lang u2
  | .alt a b, u => a.lang u ∨ b.lang u
  | .opt a, u => u = [] ∨ a.lang u
  | .group _ a, u => a.lang u

/-- A pattern that never matches the empty string. -/
def NoEmptyMatch (re : Regex) : Prop := ∀ s, matchLen re s ≠ some 0

/-- Start and end offsets of a list of matches. -/
def spans (ms : List (Nat × Nat × Caps)) : List (Nat × Nat) := ms.map (fun m => (m.1, m.2.1))

/-- Number of characters a greedy repetition of the class `p` with upper bound `hi` takes at
the head of a string. -/
def greedyLen (p : Char → Bool) : Option Nat → Str → Nat
  | _, [] => 0
  | hi, c :: t => if p c = true ∧ hi ≠ some 0 then greedyLen p (hi.map (· - 1)) t + 1 else 0

/-- A continuation whose result does not depend on the capture registers. -/
def CapsFree {α : Type} (k : Str → Nat → Caps → Option α) : Prop :=
  ∀ s n c1 c2, k s n c1 = k s n c2

/-! ## Notions used to state the later properties -/

/-- The text `t` is the fragments `fs` with an element of `M` between each two neighbours:
`t = f0 m1 f1 ... mk fk`. -/
inductive Interleaves (M : List Str) : Str → List Str → Prop
  | last (t : Str) : Interleaves M t [t]
  | cons (f m rest : Str) (fs : List Str) :
      m ∈ M → Interleaves M rest fs → Interleaves M (f ++ m ++ rest) (f :: fs)

/-- The paragraph `p` contains `[name]:`, optional white space and `/`, where `name` is
non-empty and has no white space. -/
def hasDefinitionHead (p : Str) : Prop :=
  ∃ pre name ws rest, p = pre ++ '[' :: name ++ ']' :: ':' :: ws ++ '/' :: rest ∧
    name ≠ [] ∧ (∀ c ∈ name, reSpace c = false) ∧ (∀ c ∈ ws, reSpace c = true)

/-- The line begins, after optional blanks, with `[name]:`. -/
def lineBeginsDefinition (line : Str) : Prop :=
  ∃ blanks name rest, line = blanks ++ '[' :: name ++ ']' :: ':' :: rest ∧
    ∀ c ∈ blanks, reSpace c = true

/-- A document whose first paragraph has `[x]: /a` in the middle of its only line. -/
def midLineText : Str :=
  String.toList "see [x]: /a here\n\nUse [y][x]."

/-- `p` is the piece the rules of the default pattern cut at the head of `p ++ rest`: one Han
character; or one or two kana characters, two unless a character that is no kana follows;
or one to five characters of the catch-all class, the first of them no kana, five unless a
character outside the class follows. -/
def IsGreedyPiece (p rest : Str) : Prop :=
  (∃ c, p = [c] ∧ isHan c = true) ∨
  (p ≠ [] ∧ (∀ c ∈ p, isKana c = true) ∧ p.length ≤ 2 ∧
    (p.length = 2 ∨ ∀ c r, rest = c :: r → isKana c = false)) ∨
  (p ≠ [] ∧ (∀ c ∈ p, isOther c = true) ∧ (∀ c r, p = c :: r → isKana c = false) ∧
    p.length ≤ 5 ∧ (p.length = 5 ∨ ∀ c r, rest = c :: r → isOther c = false))

/-- The left-to-right greedy tokenization: a character of no class is dropped, otherwise the
greedy piece at the head is cut off and the rest is tokenized. -/
inductive Tokenizes : Str → List Str → Prop
  | done : Tokenizes [] []
  | skip (c : Char) (t : Str) (ps : List Str) :
      isHan c = false → isKana c = false → isOther c = false → Tokenizes t ps →
      Tokenizes (c :: t) ps
  | piece (p rest : Str) (ps : List Str) :
      IsGreedyPiece p rest → Tokenizes rest ps → Tokenizes (p ++ rest) (p :: ps)

/-- Some ASCII punctuation characters. -/
def asciiPunctuation : List Char := [',', '.', '!', '?', ';', ':']

/-- No newline of `x` stands before the first character of `x` that is no white space. -/
def GoodStart (x : Str) : Prop := ∀ w r, x = w ++ '\n' :: r → ∃ c ∈ w, reSpace c = false

/-- The string `x` does not end with white space. -/
def Sealed (x : Str) : Prop := ∀ init c, x = init ++ [c] → reSpace c = false

/-- The paragraph separator matches nowhere in `x`. -/
def NoSeparator (x : Str) : Prop := findFirst paragraphSplittingPattern x = none

/-- What holds of the paragraphs cut by the paragraph separator, and of every selection of
them: no paragraph contains a separator; a paragraph that is not the last does not end with
white space; a paragraph that is not the first has no newline before its first visible
character, and is not empty unless it is the last. `first` says whether the head of the
list may be the first paragraph of a text. -/
def PiecesOK : Bool → List Str → Prop
  | _, [] => True
  | first, x :: rest =>
    NoSeparator x ∧ (first = false → GoodStart x) ∧
      (rest ≠ [] → Sealed x ∧ (first = false → x ≠ [])) ∧ PiecesOK false rest

/-- The continuation of a literal newline: the text must begin with a newline, after which
`k` runs. -/
def newlineThen {α : Type} (k : Str → Nat → Option α) (s : Str) (n : Nat) : Option α :=
  match s with
  | ch :: t => if (ch == '\n') = true then k t (n + 1) else none
  | [] => none

/-! ## The matcher only moves forward -/

theorem repRun_forward {α : Type} (p : Char → Bool) (k : Str → Nat → Option α) (s : Str) :
    ∀ (lo : Nat) (hi : Option Nat) (n : Nat) (r : α), repRun p k lo hi s n = some r →
      ∃ s1 n1, n ≤ n1 ∧ n1 + s1.length = n + s.length ∧ k s1 n1 = some r := by
  induction s with
  | nil =>
    intro lo hi n r h
    unfold repRun at h
    split at h
    · exact ⟨[], n, Nat.le_refl _, rfl, h⟩
    · exact Option.noConfusion h
  | cons ch t ih =>
    intro lo hi n r h
    unfold repRun at h
    split at h
    · split at h
      · rename_i r1 h1
        have hr : r1 = r := Option.some.inj h
        obtain ⟨s1, n1, hle, hlen, hk⟩ := ih _ _ _ _ h1
        refine ⟨s1, n1, by omega, ?_, hr ▸ hk⟩
        simp only [List.length_cons]
        omega
      · split at h
        · exact ⟨ch :: t, n, Nat.le_refl _, rfl, h⟩
        · exact Option.noConfusion h
    · split at h
      · exact ⟨ch :: t, n, Nat.le_refl _, rfl, h⟩
      · exact Option.noConfusion h

theorem run_forward {α : Type} (re : Regex) :
    ∀ (s : Str) (n : Nat) (c : Caps) (k : Str → Nat → Caps → Option α) (r : α),
      re.run s n c k = some r →
      ∃ s1 n1 c1, n ≤ n1 ∧ n1 + s1.length = n + s.length ∧ k s1 n1 c1 = some r := by
  induction re with
  | eps =>
    intro s n c k r h
    exact ⟨s, n, c, Nat.le_refl _, rfl, h⟩
  | cls p =>
    intro s n c k r h
    unfold Regex.run at h
    cases s with
    | nil => exact Option.noConfusion h
    | cons ch t =>
      simp only at h
      split at h
      · refine ⟨t, n + 1, c, Nat.le_succ _, ?_, h⟩
        simp only [List.length_cons]
        omega
      · exact Option.noConfusion h
  | rep p lo hi =>
    intro s n c k r h
    unfold Regex.run at h
    obtain ⟨s1, n1, hle, hlen, hk⟩ := repRun_forward p _ s lo hi n r h
    exact ⟨s1, n1, c, hle, hlen, hk⟩
  | seq a b iha ihb =>
    intro s n c k r h
    unfold Regex.run at h
    obtain ⟨s1, n1, c1, hle1, hlen1, hk1⟩ := iha s n c _ r h
    obtain ⟨s2, n2, c2, hle2, hlen2, hk2⟩ := ihb s1 n1 c1 k r hk1
    exact ⟨s2, n2, c2, by omega, by omega, hk2⟩
  | alt a b iha ihb =>
    intro s n c k r h
    unfold Regex.run at h
    split at h
    · rename_i r1 h1
      exact iha s n c k r (h1.trans h)
    · exact ihb s n c k r h
  | opt a iha =>
    intro s n c k r h
    unfold Regex.run at h
    split at h
    · rename_i r1 h1
      exact iha s n c k r (h1.trans h)
    · exact ⟨s, n, c, Nat.le_refl _, rfl, h⟩
  | group i a iha =>
    intro s n c k r h
    unfold Regex.run at h
    obtain ⟨s1, n1, c1, hle1, hlen1, hk1⟩ := iha s n c _ r h
    exact ⟨s1, n1, _, hle1, hlen1, hk1⟩

/-- A match found by `search` lies inside the searched text. -/
theorem search_bounds (re : Regex) (s : Str) :
    ∀ (pos b e : Nat) (c : Caps), search re s pos = some (b, e, c) →
      pos ≤ b ∧ b ≤ e ∧ e ≤ pos + s.length := by
  induction s with
  | nil =>
    intro pos b e c h
    unfold search at h
    split at h
    · rename_i e1 c1 h1
      obtain ⟨s1, n1, c2, hle, hlen, hk⟩ := run_forward re _ _ _ _ _ h1
      simp only [Option.some.injEq, Prod.mk.injEq] at h hk
      obtain ⟨hb, he, _⟩ := h
      simp only [List.length_nil] at hlen ⊢
      omega
    · exact Option.noConfusion h
  | cons ch t ih =>
    intro pos b e c h
    unfold search at h
    split at h
    · rename_i e1 c1 h1
      obtain ⟨s1, n1, c2, hle, hlen, hk⟩ := run_forward re _ _ _ _ _ h1
      simp only [Option.some.injEq, Prod.mk.injEq] at h hk
      obtain ⟨hb, he, _⟩ := h
      omega
    · obtain ⟨h1, h2, h3⟩ := ih _ _ _ _ h
      simp only [List.length_cons]
      omega

/-- The loop of `allMatches` does not depend on its fuel once the fuel exceeds the number of
positions left, so `allMatches` never stops for lack of fuel. -/
theorem allMatchesLoop_fuel (re : Regex) (s : Str) :
    ∀ (fuel1 fuel2 pos : Nat) (prev : Option Nat),
      s.length + 1 - pos < fuel1 → s.length + 1 - pos < fuel2 →
      allMatchesLoop re s fuel1 pos prev = allMatchesLoop re s fuel2 pos prev := by
  intro fuel1
  induction fuel1 with
  | zero => intro fuel2 pos prev h1; omega
  | succ f1 ih =>
    intro fuel2 pos prev h1 h2
    cases fuel2 with
    | zero => omega
    | succ f2 =>
      unfold allMatchesLoop
      by_cases hpos : pos ≤ s.length
      · simp only [hpos, if_true]
        cases hsr : search re (s.drop pos) pos with
        | none => rfl
        | some m =>
          obtain ⟨b, e, c⟩ := m
          obtain ⟨hb1, hb2, _⟩ := search_bounds re _ _ _ _ _ hsr
          simp only
          by_cases he : e = pos
          · simp only [he, if_true]
            rw [ih f2 (pos + 1) (some pos) (by omega) (by omega)]
          · simp only [he, if_false]
            rw [ih f2 e (some e) (by omega) (by omega)]
      · simp only [hpos, if_false]

theorem allMatches_fuel (re : Regex) (s : Str) (extra : Nat) :
    allMatches re s = allMatchesLoop re s (s.length + 2 + extra) 0 none :=
  allMatchesLoop_fuel re s _ _ 0 none (by omega) (by omega)

/-! ## The model on the repository's test -/

set_option maxRecDepth 1000000 in
set_option maxHeartbeats 4000000 in
/-- The assertions of `TestFindTerms` hold in the model: the returned text is
`expectedText`, and each expected term is found by its reference with the expected text,
definition, number of splits and splits. -/
theorem testFindTerms_passes :
    (FindTerms RangeOrder.insertion testText JapaneseWordSplitter).1.length
      = expectedTerms.length ∧
    (FindTerms RangeOrder.insertion testText JapaneseWordSplitter).2 = expectedText ∧
    ∀ e ∈ expectedTerms,
      ∃ a ∈ (FindTerms RangeOrder.insertion testText JapaneseWordSplitter).1,
        a.Reference = e.Reference ∧ a.Text = e.Text ∧ a.Definition = e.Definition ∧
        a.Splits.length = e.Splits.length ∧ ∀ s ∈ e.Splits, s ∈ a.Splits := by
  decide

/-! ## Sets of strings -/

theorem StrSet.mem_add (m : StrSet) (k x : Str) : x ∈ StrSet.add m k ↔ x ∈ m ∨ x = k := by
  unfold StrSet.add
  by_cases h : k ∈ m
  · simp only [h, if_true]
    constructor
    · exact Or.inl
    · rintro (h1 | h1)
      · exact h1
      · exact h1 ▸ h
  · simp [h]

theorem StrSet.nodup_add (m : StrSet) (k : Str) (h : m.Nodup) : (StrSet.add m k).Nodup := by
  unfold StrSet.add
  by_cases hk : k ∈ m
  · simpa [hk] using h
  · simp only [hk, if_false]
    exact List.Nodup.append h (List.nodup_singleton k) (by simpa using hk)

theorem mem_addSplits (pieces : List Str) (splits : StrSet) (x : Str) :
    x ∈ addSplits splits pieces ↔ x ∈ splits ∨ (x ∈ pieces ∧ x ≠ []) := by
  induction pieces generalizing splits with
  | nil => simp [addSplits]
  | cons p ps ih =>
    have hstep : addSplits splits (p :: ps)
        = addSplits (if 0 < p.length then StrSet.add splits p else splits) ps := rfl
    rw [hstep, ih]
    by_cases hp : 0 < p.length
    · have hne : p ≠ [] := List.length_pos.mp hp
      simp only [hp, if_true, StrSet.mem_add, List.mem_cons]
      constructor
      · rintro ((h | h) | h)
        · exact Or.inl h
        · exact Or.inr ⟨Or.inl h, h ▸ hne⟩
        · exact Or.inr ⟨Or.inr h.1, h.2⟩
      · rintro (h | ⟨h | h, h2⟩)
        · exact Or.inl (Or.inl h)
        · exact Or.inl (Or.inr h)
        · exact Or.inr ⟨h, h2⟩
    · have he : p = [] := by
        cases p with
        | nil => rfl
        | cons a t => exact absurd (Nat.succ_pos _) hp
      simp only [hp, if_false, List.mem_cons]
      constructor
      · rintro (h | h)
        · exact Or.inl h
        · exact Or.inr ⟨Or.inr h.1, h.2⟩
      · rintro (h | ⟨h | h, h2⟩)
        · exact Or.inl h
        · exact absurd (h.trans he) h2
        · exact Or.inr ⟨h, h2⟩

theorem nodup_addSplits (pieces : List Str) (splits : StrSet) (h : splits.Nodup) :
    (addSplits splits pieces).Nodup := by
  induction pieces generalizing splits with
  | nil => simpa [addSplits] using h
  | cons p ps ih =>
    have hstep : addSplits splits (p :: ps)
        = addSplits (if 0 < p.length then StrSet.add splits p else splits) ps := rfl
    rw [hstep]
    apply ih
    by_cases hp : 0 < p.length
    · simpa [hp] using StrSet.nodup_add splits p h
    · simpa [hp] using h

theorem mem_addUnsplit (splitter : WordSplitter) (parts : List Str) (splits : StrSet)
    (x : Str) :
    x ∈ addUnsplit splitter splits parts ↔
      x ∈ splits ∨ ∃ piece ∈ parts, piece ≠ [] ∧ x ∈ splitter piece ∧ x ≠ [] := by
  induction parts generalizing splits with
  | nil => simp [addUnsplit]
  | cons p ps ih =>
    have hstep : addUnsplit splitter splits (p :: ps)
        = addUnsplit splitter
            (if 0 < p.length then addSplits splits (splitter p) else splits) ps := rfl
    rw [hstep, ih]
    by_cases hp : 0 < p.length
    · have hne : p ≠ [] := List.length_pos.mp hp
      simp only [hp, if_true, mem_addSplits, List.mem_cons]
      constructor
      · rintro ((h | h) | ⟨q, hq, h⟩)
        · exact Or.inl h
        · exact Or.inr ⟨p, Or.inl rfl, hne, h⟩
        · exact Or.inr ⟨q, Or.inr hq, h⟩
      · rintro (h | ⟨q, hq | hq, h⟩)
        · exact Or.inl (Or.inl h)
        · subst hq
          exact Or.inl (Or.inr h.2)
        · exact Or.inr ⟨q, hq, h⟩
    · have he : p = [] := by
        cases p with
        | nil => rfl
        | cons a t => exact absurd (Nat.succ_pos _) hp
      simp only [hp, if_false, List.mem_cons]
      constructor
      · rintro (h | ⟨q, hq, h⟩)
        · exact Or.inl h
        · exact Or.inr ⟨q, Or.inr hq, h⟩
      · rintro (h | ⟨q, hq | hq, h⟩)
        · exact Or.inl h
        · exact absurd (hq.trans he) h.1
        · exact Or.inr ⟨q, hq, h⟩

theorem nodup_addUnsplit (splitter : WordSplitter) (parts : List Str) (splits : StrSet)
    (h : splits.Nodup) : (addUnsplit splitter splits parts).Nodup := by
  induction parts generalizing splits with
  | nil => simpa [addUnsplit] using h
  | cons p ps ih =>
    have hstep : addUnsplit splitter splits (p :: ps)
        = addUnsplit splitter
            (if 0 < p.length then addSplits splits (splitter p) else splits) ps := rfl
    rw [hstep]
    apply ih
    by_cases hp : 0 < p.length
    · simpa [hp] using nodup_addSplits (splitter p) splits h
    · simpa [hp] using h

/-! ## `splitBySeparator` -/

theorem foldl_splitBySeparatorStep_spec (pieces : List Str) (result : StrSet) :
    (result.Nodup → (pieces.foldl splitBySeparatorStep result).Nodup) ∧
    ∀ x, x ∈ pieces.foldl splitBySeparatorStep result ↔
      x ∈ result ∨ (x ≠ [] ∧ ∃ piece ∈ pieces, x = TrimSpace piece) := by
  induction pieces generalizing result with
  | nil => simp
  | cons p ps ih =>
    rw [List.foldl_cons]
    obtain ⟨ih1, ih2⟩ := ih (splitBySeparatorStep result p)
    by_cases hp : 0 < (TrimSpace p).length
    · have hstep : splitBySeparatorStep result p = StrSet.add result (TrimSpace p) := by
        simp [splitBySeparatorStep, hp]
      have hne : TrimSpace p ≠ [] := List.length_pos.mp hp
      rw [hstep] at ih1 ih2 ⊢
      refine ⟨fun h => ih1 (StrSet.nodup_add _ _ h), fun x => ?_⟩
      rw [ih2, StrSet.mem_add]
      constructor
      · rintro ((h | h) | ⟨h1, q, hq, h⟩)
        · exact Or.inl h
        · exact Or.inr ⟨h ▸ hne, p, List.mem_cons_self _ _, h⟩
        · exact Or.inr ⟨h1, q, List.mem_cons_of_mem _ hq, h⟩
      · rintro (h | ⟨h1, q, hq, h⟩)
        · exact Or.inl (Or.inl h)
        · rcases List.mem_cons.mp hq with hq | hq
          · exact Or.inl (Or.inr (hq ▸ h))
          · exact Or.inr ⟨h1, q, hq, h⟩
    · have hstep : splitBySeparatorStep result p = result := by
        simp [splitBySeparatorStep, hp]
      have he : TrimSpace p = [] := by
        cases h : TrimSpace p with
        | nil => rfl
        | cons a t => rw [h] at hp; exact absurd (Nat.succ_pos _) hp
      rw [hstep] at ih1 ih2 ⊢
      refine ⟨ih1, fun x => ?_⟩
      rw [ih2]
      constructor
      · rintro (h | ⟨h1, q, hq, h⟩)
        · exact Or.inl h
        · exact Or.inr ⟨h1, q, List.mem_cons_of_mem _ hq, h⟩
      · rintro (h | ⟨h1, q, hq, h⟩)
        · exact Or.inl h
        · rcases List.mem_cons.mp hq with hq | hq
          · exact absurd (h.trans (hq ▸ he)) h1
          · exact Or.inr ⟨h1, q, hq, h⟩

theorem mem_splitBySeparator (t x : Str) :
    x ∈ splitBySeparator t ↔ x ≠ [] ∧ ∃ piece ∈ stringsSplit '/' t, x = TrimSpace piece := by
  unfold splitBySeparator
  rw [(foldl_splitBySeparatorStep_spec _ []).2]
  simp

theorem nodup_splitBySeparator (t : Str) : (splitBySeparator t).Nodup :=
  (foldl_splitBySeparatorStep_spec _ []).1 List.nodup_nil

theorem ne_nil_of_mem_splitBySeparator {t x : Str} (h : x ∈ splitBySeparator t) : x ≠ [] :=
  ((mem_splitBySeparator t x).mp h).1

/-! ## The splits of one term -/

theorem mem_termSplits (ro : RangeOrder) (splitter : WordSplitter) (text : Str)
    (manualSplits : StrSet) (x : Str) :
    x ∈ termSplits ro splitter text manualSplits ↔
      x ∈ manualSplits ∨
        ∃ piece ∈ unsplitParts ro text manualSplits,
          piece ≠ [] ∧ x ∈ splitter piece ∧ x ≠ [] :=
  mem_addUnsplit splitter _ manualSplits x

theorem nodup_termSplits (ro : RangeOrder) (splitter : WordSplitter) (text : Str)
    (manualSplits : StrSet) (h : manualSplits.Nodup) :
    (termSplits ro splitter text manualSplits).Nodup :=
  nodup_addUnsplit splitter _ manualSplits h

/-! ## The loop of `matchedTermDefinitions` -/

theorem matchedLoop_cons_unresolved (ro : RangeOrder) (m : RefMap) (sp : WordSplitter)
    (d : Submatch) (rest : List Submatch) (seen : StrSet) (h : m.lookup d.m1 = none) :
    matchedLoop ro m sp (d :: rest) seen = matchedLoop ro m sp rest seen := by
  simp only [matchedLoop, h]

theorem matchedLoop_cons_seen (ro : RangeOrder) (m : RefMap) (sp : WordSplitter)
    (d : Submatch) (rest : List Submatch) (seen : StrSet) (h : d.m1 ∈ seen) :
    matchedLoop ro m sp (d :: rest) seen = matchedLoop ro m sp rest seen := by
  cases hl : m.lookup d.m1 with
  | none => exact matchedLoop_cons_unresolved ro m sp d rest seen hl
  | some text => simp only [matchedLoop, hl, h, if_true]

theorem matchedLoop_cons_new (ro : RangeOrder) (m : RefMap) (sp : WordSplitter)
    (d : Submatch) (rest : List Submatch) (seen : StrSet) (text : Str)
    (hl : m.lookup d.m1 = some text) (h : d.m1 ∉ seen) :
    matchedLoop ro m sp (d :: rest) seen =
      termOf ro sp text d :: matchedLoop ro m sp rest (StrSet.add seen d.m1) := by
  simp only [matchedLoop, hl, h, if_false, termOf]

/-- Every term of the output comes from a definition match whose reference resolves in
the reference map and was not seen before. -/
theorem matchedLoop_mem (ro : RangeOrder) (m : RefMap) (sp : WordSplitter)
    (defs : List Submatch) (seen : StrSet) (t : Term)
    (ht : t ∈ matchedLoop ro m sp defs seen) :
    ∃ d ∈ defs, ∃ text, m.lookup d.m1 = some text ∧ d.m1 ∉ seen ∧ t = termOf ro sp text d := by
  induction defs generalizing seen with
  | nil => simp [matchedLoop] at ht
  | cons d rest ih =>
    cases hl : m.lookup d.m1 with
    | none =>
      rw [matchedLoop_cons_unresolved ro m sp d rest seen hl] at ht
      obtain ⟨e, he, h⟩ := ih seen ht
      exact ⟨e, List.mem_cons_of_mem _ he, h⟩
    | some text =>
      by_cases hs : d.m1 ∈ seen
      · rw [matchedLoop_cons_seen ro m sp d rest seen hs] at ht
        obtain ⟨e, he, h⟩ := ih seen ht
        exact ⟨e, List.mem_cons_of_mem _ he, h⟩
      · rw [matchedLoop_cons_new ro m sp d rest seen text hl hs] at ht
        rcases List.mem_cons.mp ht with ht | ht
        · exact ⟨d, List.mem_cons_self _ _, text, hl, hs, ht⟩
        · obtain ⟨e, he, tx, h1, h2, h3⟩ := ih _ ht
          refine ⟨e, List.mem_cons_of_mem _ he, tx, h1, ?_, h3⟩
          intro hmem
          exact h2 ((StrSet.mem_add seen d.m1 e.m1).mpr (Or.inl hmem))

theorem mem_firstOccurrences (l : List Str) (x : Str) : x ∈ firstOccurrences l ↔ x ∈ l := by
  induction l with
  | nil => simp [firstOccurrences]
  | cons a l ih =>
    simp only [firstOccurrences, List.mem_cons, List.mem_filter, ih, decide_eq_true_eq]
    constructor
    · rintro (h | h)
      · exact Or.inl h
      · exact Or.inr h.1
    · rintro (h | h)
      · exact Or.inl h
      · by_cases hx : x = a
        · exact Or.inl hx
        · exact Or.inr ⟨h, hx⟩

theorem nodup_firstOccurrences (l : List Str) : (firstOccurrences l).Nodup := by
  induction l with
  | nil => simp [firstOccurrences]
  | cons a l ih =>
    simp only [firstOccurrences, List.nodup_cons, List.mem_filter, decide_eq_true_eq]
    exact ⟨fun h => h.2 rfl, ih.filter _⟩

theorem length_firstOccurrences (l : List Str) :
    (firstOccurrences l).length = l.toFinset.card := by
  rw [← List.toFinset_card_of_nodup (nodup_firstOccurrences l)]
  congr 1
  ext x
  simp [mem_firstOccurrences]

/-- The references of the terms produced by the loop, when `seen` have been seen. -/
theorem matchedLoop_references (ro : RangeOrder) (m : RefMap) (sp : WordSplitter)
    (defs : List Submatch) (seen : StrSet) :
    (matchedLoop ro m sp defs seen).map Term.Reference =
      (firstOccurrences ((defs.map Submatch.m1).filter (fun n => (m.lookup n).isSome))).filter
        (fun n => n ∉ seen) := by
  induction defs generalizing seen with
  | nil => simp [matchedLoop, firstOccurrences]
  | cons d rest ih =>
    cases hl : m.lookup d.m1 with
    | none =>
      rw [matchedLoop_cons_unresolved ro m sp d rest seen hl, ih]
      simp [hl]
    | some text =>
      have hf : ((d :: rest).map Submatch.m1).filter (fun n => (m.lookup n).isSome)
          = d.m1 :: (rest.map Submatch.m1).filter (fun n => (m.lookup n).isSome) := by
        simp [hl]
      rw [hf]
      by_cases hs : d.m1 ∈ seen
      · rw [matchedLoop_cons_seen ro m sp d rest seen hs, ih]
        simp only [firstOccurrences, List.filter_cons, hs, not_true_eq_false, decide_False,
          Bool.false_eq_true, if_false, List.filter_filter]
        apply List.filter_congr
        intro x _
        by_cases hx : x = d.m1
        · subst hx; simp [hs]
        · simp [hx]
      · rw [matchedLoop_cons_new ro m sp d rest seen text hl hs, List.map_cons, ih]
        simp only [firstOccurrences, List.filter_cons, hs, not_false_eq_true, decide_True,
          if_true, List.filter_filter, termOf]
        congr 1
        apply List.filter_congr
        intro x _
        simp only [StrSet.mem_add, not_or, ne_eq, Bool.decide_and, Bool.and_comm]

theorem matchedLoop_nodup_references (ro : RangeOrder) (m : RefMap) (sp : WordSplitter)
    (defs : List Submatch) (seen : StrSet) :
    ((matchedLoop ro m sp defs seen).map Term.Reference).Nodup := by
  rw [matchedLoop_references]
  exact (nodup_firstOccurrences _).filter _

/-- The first definition match for a resolvable reference that was not seen before
produces its term. -/
theorem matchedLoop_first_mem (ro : RangeOrder) (m : RefMap) (sp : WordSplitter)
    (pre post : List Submatch) (d : Submatch) (text : Str) (seen : StrSet)
    (hfirst : ∀ e ∈ pre, e.m1 ≠ d.m1) (hl : m.lookup d.m1 = some text) (hs : d.m1 ∉ seen) :
    termOf ro sp text d ∈ matchedLoop ro m sp (pre ++ d :: post) seen := by
  induction pre generalizing seen with
  | nil =>
    rw [List.nil_append, matchedLoop_cons_new ro m sp d post seen text hl hs]
    exact List.mem_cons_self _ _
  | cons e pre ih =>
    have hpre : ∀ e1 ∈ pre, e1.m1 ≠ d.m1 := fun e1 h => hfirst e1 (List.mem_cons_of_mem _ h)
    have hne : e.m1 ≠ d.m1 := hfirst e (List.mem_cons_self _ _)
    rw [List.cons_append]
    cases hle : m.lookup e.m1 with
    | none =>
      rw [matchedLoop_cons_unresolved ro m sp e _ seen hle]
      exact ih seen hpre hs
    | some tx =>
      by_cases hse : e.m1 ∈ seen
      · rw [matchedLoop_cons_seen ro m sp e _ seen hse]
        exact ih seen hpre hs
      · rw [matchedLoop_cons_new ro m sp e _ seen tx hle hse]
        apply List.mem_cons_of_mem
        apply ih _ hpre
        intro hmem
        rcases (StrSet.mem_add seen e.m1 d.m1).mp hmem with h | h
        · exact hs h
        · exact hne h.symm

/-- Two terms of the output with the same reference are the same term. -/
theorem matchedLoop_unique (ro : RangeOrder) (m : RefMap) (sp : WordSplitter)
    (defs : List Submatch) (seen : StrSet) (t1 t2 : Term)
    (h1 : t1 ∈ matchedLoop ro m sp defs seen) (h2 : t2 ∈ matchedLoop ro m sp defs seen)
    (h : t1.Reference = t2.Reference) : t1 = t2 :=
  List.inj_on_of_nodup_map (matchedLoop_nodup_references ro m sp defs seen) h1 h2 h

/-- Definition matches for a reference that was already seen change nothing. -/
theorem matchedLoop_filter_seen (ro : RangeOrder) (m : RefMap) (sp : WordSplitter)
    (post : List Submatch) (name : Str) (seen : StrSet) (hs : name ∈ seen) :
    matchedLoop ro m sp (post.filter (fun e => e.m1 ≠ name)) seen =
      matchedLoop ro m sp post seen := by
  induction post generalizing seen with
  | nil => simp
  | cons e post ih =>
    by_cases he : e.m1 = name
    · have hse : e.m1 ∈ seen := he ▸ hs
      rw [matchedLoop_cons_seen ro m sp e post seen hse]
      simp only [List.filter_cons, he, ne_eq, not_true_eq_false, decide_False,
        Bool.false_eq_true, if_false]
      exact ih seen hs
    · have hf : (e :: post).filter (fun e => e.m1 ≠ name)
          = e :: post.filter (fun e => e.m1 ≠ name) := by
        simp [he]
      rw [hf]
      cases hle : m.lookup e.m1 with
      | none =>
        rw [matchedLoop_cons_unresolved ro m sp e _ seen hle,
          matchedLoop_cons_unresolved ro m sp e _ seen hle]
        exact ih seen hs
      | some tx =>
        by_cases hse : e.m1 ∈ seen
        · rw [matchedLoop_cons_seen ro m sp e _ seen hse,
            matchedLoop_cons_seen ro m sp e _ seen hse]
          exact ih seen hs
        · rw [matchedLoop_cons_new ro m sp e _ seen tx hle hse,
            matchedLoop_cons_new ro m sp e _ seen tx hle hse]
          congr 1
          exact ih _ ((StrSet.mem_add seen e.m1 name).mpr (Or.inl hs))

/-- Deleting the later definition matches that share the reference of a resolvable match
leaves the output of the loop unchanged. -/
theorem matchedLoop_delete_later (ro : RangeOrder) (m : RefMap) (sp : WordSplitter)
    (pre post : List Submatch) (d : Submatch) (text : Str) (seen : StrSet)
    (hl : m.lookup d.m1 = some text) :
    matchedLoop ro m sp (pre ++ d :: post.filter (fun e => e.m1 ≠ d.m1)) seen =
      matchedLoop ro m sp (pre ++ d :: post) seen := by
  induction pre generalizing seen with
  | nil =>
    rw [List.nil_append, List.nil_append]
    by_cases hs : d.m1 ∈ seen
    · rw [matchedLoop_cons_seen ro m sp d _ seen hs, matchedLoop_cons_seen ro m sp d _ seen hs]
      exact matchedLoop_filter_seen ro m sp post d.m1 seen hs
    · rw [matchedLoop_cons_new ro m sp d _ seen text hl hs,
        matchedLoop_cons_new ro m sp d _ seen text hl hs]
      congr 1
      exact matchedLoop_filter_seen ro m sp post d.m1 _
        ((StrSet.mem_add seen d.m1 d.m1).mpr (Or.inr rfl))
  | cons e pre ih =>
    rw [List.cons_append, List.cons_append]
    cases hle : m.lookup e.m1 with
    | none =>
      rw [matchedLoop_cons_unresolved ro m sp e _ seen hle,
        matchedLoop_cons_unresolved ro m sp e _ seen hle]
      exact ih seen
    | some tx =>
      by_cases hse : e.m1 ∈ seen
      · rw [matchedLoop_cons_seen ro m sp e _ seen hse,
          matchedLoop_cons_seen ro m sp e _ seen hse]
        exact ih seen
      · rw [matchedLoop_cons_new ro m sp e _ seen tx hle hse,
          matchedLoop_cons_new ro m sp e _ seen tx hle hse]
        congr 1
        exact ih _

theorem unsplitParts_congr (ro1 ro2 : RangeOrder) (h : ro1.manualOrder = ro2.manualOrder)
    (t : Str) (manualSplits : StrSet) :
    unsplitParts ro1 t manualSplits = unsplitParts ro2 t manualSplits := by
  simp only [unsplitParts, h]

theorem termOf_sameUpToSplitsOrder (ro1 ro2 : RangeOrder)
    (h : ro1.manualOrder = ro2.manualOrder) (sp : WordSplitter) (text : Str) (d : Submatch) :
    (termOf ro1 sp text d).sameUpToSplitsOrder (termOf ro2 sp text d) := by
  refine ⟨rfl, rfl, rfl, ?_⟩
  have hts : termSplits ro1 sp text (splitBySeparator d.m2)
      = termSplits ro2 sp text (splitBySeparator d.m2) := by
    simp only [termSplits, unsplitParts_congr ro1 ro2 h]
  simp only [termOf, hts]
  exact (ro1.splitsOrder_perm _).trans (ro2.splitsOrder_perm _).symm

/-- When the manual splits are enumerated in the same order, two runs of the loop agree up
to the order of the splits of each term. -/
theorem matchedLoop_sameUpToSplitsOrder (ro1 ro2 : RangeOrder)
    (h : ro1.manualOrder = ro2.manualOrder) (m : RefMap) (sp : WordSplitter)
    (defs : List Submatch) (seen : StrSet) :
    List.Forall₂ Term.sameUpToSplitsOrder (matchedLoop ro1 m sp defs seen)
      (matchedLoop ro2 m sp defs seen) := by
  induction defs generalizing seen with
  | nil => simp [matchedLoop]
  | cons e rest ih =>
    cases hle : m.lookup e.m1 with
    | none =>
      rw [matchedLoop_cons_unresolved ro1 m sp e _ seen hle,
        matchedLoop_cons_unresolved ro2 m sp e _ seen hle]
      exact ih seen
    | some tx =>
      by_cases hse : e.m1 ∈ seen
      · rw [matchedLoop_cons_seen ro1 m sp e _ seen hse,
          matchedLoop_cons_seen ro2 m sp e _ seen hse]
        exact ih seen
      · rw [matchedLoop_cons_new ro1 m sp e _ seen tx hle hse,
          matchedLoop_cons_new ro2 m sp e _ seen tx hle hse]
        exact List.Forall₂.cons (termOf_sameUpToSplitsOrder ro1 ro2 h sp tx e) (ih _)

/-! ## Fragments are substrings -/

theorem slice_isInfix (s : Str) (b e : Nat) : slice s b e <:+: s :=
  (List.take_prefix _ _).isInfix.trans (List.drop_suffix _ _).isInfix

theorem splitLoop_isInfix (s : Str) (ms : List (Nat × Nat × Caps)) (beg en : Nat) :
    ∀ piece ∈ splitLoop s ms beg en, piece <:+: s := by
  induction ms generalizing beg en with
  | nil =>
    intro piece hp
    unfold splitLoop at hp
    split at hp
    · rw [List.mem_singleton] at hp
      exact hp ▸ (List.drop_suffix _ _).isInfix
    · simp at hp
  | cons mt ms ih =>
    obtain ⟨b, e, c⟩ := mt
    intro piece hp
    unfold splitLoop at hp
    split at hp
    · rcases List.mem_cons.mp hp with hp | hp
      · exact hp ▸ slice_isInfix s beg b
      · exact ih _ _ piece hp
    · exact ih _ _ piece hp

theorem Split_isInfix (re : Regex) (exprEmpty : Bool) (s : Str) :
    ∀ piece ∈ re.Split exprEmpty s, piece <:+: s := by
  intro piece hp
  unfold Regex.Split at hp
  split at hp
  · rw [List.mem_singleton] at hp
    exact hp ▸ List.nil_infix
  · exact splitLoop_isInfix s _ _ _ piece hp

theorem unsplitParts_isInfix (ro : RangeOrder) (t : Str) (manualSplits : StrSet) :
    ∀ piece ∈ unsplitParts ro t manualSplits, piece <:+: t := by
  intro piece hp
  unfold unsplitParts at hp
  cases h : ro.manualOrder manualSplits with
  | nil =>
    rw [h] at hp
    rw [List.mem_singleton] at hp
    exact hp ▸ List.infix_refl t
  | cons q qs =>
    rw [h] at hp
    exact Split_isInfix _ _ t piece hp

/-! ## The reference map -/

theorem lookup_addReferences (tokens : List Submatch) (references : RefMap) (n : Str) :
    (addReferences references tokens).lookup n =
      match tokens.reverse.find? (fun tok => termName tok == n) with
      | some tok => some tok.m1
      | none => references.lookup n := by
  induction tokens generalizing references with
  | nil => simp [addReferences]
  | cons tok rest ih =>
    rw [addReferences, ih, List.reverse_cons, List.find?_append]
    cases hf : rest.reverse.find? (fun tok => termName tok == n) with
    | some t1 => simp
    | none =>
      by_cases hn : termName tok = n
      · simp [List.lookup, hn]
      · have hn2 : (n == termName tok) = false := by
          simpa using fun h => hn h.symm
        simp [List.lookup, hn, hn2]

/-! ## `FindTerms` -/

theorem FindTerms_fst (ro : RangeOrder) (text : Str) (sp : WordSplitter) :
    (FindTerms ro text sp).1 =
      matchedLoop ro (termTexts (FindTerms ro text sp).2) sp
        (classify (paragraphSplittingPattern.Split false text)).1 [] := rfl

theorem FindTerms_snd (ro : RangeOrder) (text : Str) (sp : WordSplitter) :
    (FindTerms ro text sp).2 =
      stringsJoin ['\n', '\n'] (classify (paragraphSplittingPattern.Split false text)).2 := rfl

/-- Every term returned by `FindTerms` is built from a definition paragraph of the text
whose reference resolves in the reference map of the returned prose. -/
theorem FindTerms_mem (ro : RangeOrder) (text : Str) (sp : WordSplitter) (t : Term)
    (ht : t ∈ (FindTerms ro text sp).1) :
    ∃ d ∈ (classify (paragraphSplittingPattern.Split false text)).1, ∃ tx,
      (termTexts (FindTerms ro text sp).2).lookup d.m1 = some tx ∧ t = termOf ro sp tx d := by
  rw [FindTerms_fst] at ht
  obtain ⟨d, hd, tx, h1, _, h3⟩ := matchedLoop_mem ro _ sp _ _ t ht
  exact ⟨d, hd, tx, h1, h3⟩

theorem mem_splits_termOf (ro : RangeOrder) (sp : WordSplitter) (tx : Str) (d : Submatch)
    (s : Str) :
    s ∈ (termOf ro sp tx d).Splits ↔
      s ∈ splitBySeparator d.m2 ∨
        ∃ piece ∈ unsplitParts ro tx (splitBySeparator d.m2),
          piece ≠ [] ∧ s ∈ sp piece ∧ s ≠ [] := by
  rw [← mem_termSplits]
  exact (ro.splitsOrder_perm _).mem_iff

theorem perm_pair {a b : Str} (hab : a ≠ b) {l : List Str} (h : l.Perm [a, b]) :
    l = [a, b] ∨ l = [b, a] := by
  have hlen := h.length_eq
  match l, hlen with
  | [x, y], _ =>
    have hx : x ∈ [a, b] := h.subset (List.mem_cons_self _ _)
    have hb : b ∈ [x, y] := h.symm.subset (by simp)
    have ha : a ∈ [x, y] := h.symm.subset (by simp)
    simp only [List.mem_cons, List.mem_singleton, List.not_mem_nil, or_false] at hx hb ha
    rcases hx with hx | hx
    · subst hx
      rcases hb with hb | hb
      · exact absurd hb.symm hab
      · subst hb; exact Or.inl rfl
    · subst hx
      rcases ha with ha | ha
      · exact absurd ha hab
      · subst ha; exact Or.inr rfl

set_option maxRecDepth 100000 in
theorem unsplitParts_xaybz (ro : RangeOrder) :
    unsplitParts ro ("xaybz".toList) (splitBySeparator "a/b/".toList) =
      ["x".toList, "y".toList, "z".toList] := by
  have hs : splitBySeparator "a/b/".toList = ["a".toList, "b".toList] := by decide
  rw [hs]
  unfold unsplitParts
  rcases perm_pair (by decide) (ro.manualOrder_perm ["a".toList, "b".toList]) with h | h <;>
    rw [h] <;> decide

set_option maxRecDepth 100000 in
theorem unsplitParts_abcdxy (ro : RangeOrder) :
    unsplitParts ro ("abcdxy".toList) (splitBySeparator "ab/cd/".toList) =
      [[], [], "xy".toList] := by
  have hs : splitBySeparator "ab/cd/".toList = ["ab".toList, "cd".toList] := by decide
  rw [hs]
  unfold unsplitParts
  rcases perm_pair (by decide) (ro.manualOrder_perm ["ab".toList, "cd".toList]) with h | h <;>
    rw [h] <;> decide

theorem matchedTermDefinitions_single (ro : RangeOrder) (m : RefMap) (sp : WordSplitter)
    (d : Submatch) (text : Str) (hl : m.lookup d.m1 = some text) :
    matchedTermDefinitions ro m [d] sp = [termOf ro sp text d] := by
  unfold matchedTermDefinitions
  rw [matchedLoop_cons_new ro m sp d [] [] text hl (List.not_mem_nil _)]
  simp [matchedLoop]

theorem matchedLoop_empty_map (ro : RangeOrder) (sp : WordSplitter) (defs : List Submatch)
    (seen : StrSet) : matchedLoop ro [] sp defs seen = [] := by
  induction defs with
  | nil => rfl
  | cons d rest ih => rw [matchedLoop_cons_unresolved ro [] sp d rest seen rfl, ih]

theorem length_filter_reference (l : List Term) (hn : (l.map Term.Reference).Nodup)
    (t : Term) (ht : t ∈ l) :
    (l.filter (fun x => x.Reference = t.Reference)).length = 1 := by
  induction l with
  | nil => simp at ht
  | cons x xs ih =>
    rw [List.map_cons, List.nodup_cons] at hn
    rcases List.mem_cons.mp ht with h | h
    · subst h
      have hnil : xs.filter (fun x => x.Reference = t.Reference) = [] := by
        rw [List.filter_eq_nil_iff]
        intro y hy hyt
        exact hn.1 (List.mem_map.mpr ⟨y, hy, by simpa using hyt⟩)
      simp [List.filter_cons, hnil]
    · have hne : x.Reference ≠ t.Reference := by
        intro he
        exact hn.1 (List.mem_map.mpr ⟨t, h, he.symm⟩)
      simp only [List.filter_cons, hne, decide_False, Bool.false_eq_true, if_false]
      exact ih hn.2 h

set_option maxRecDepth 1000000 in
set_option maxHeartbeats 4000000 in
theorem references_testText :
    firstOccurrences
      (((classify (paragraphSplittingPattern.Split false testText)).1.map Submatch.m1).filter
        (fun n => ((termTexts (stringsJoin ['\n', '\n']
          (classify (paragraphSplittingPattern.Split false testText)).2)).lookup n).isSome))
      = ["密林".toList, "c".toList, "a".toList, "アンコールワット".toList, "b".toList] := by
  decide

theorem lookup_addReferences_nil (tokens : List Submatch) (n : Str) :
    (addReferences [] tokens).lookup n =
      (tokens.reverse.find? (fun tok => termName tok == n)).map Submatch.m1 := by
  rw [lookup_addReferences]
  cases tokens.reverse.find? (fun tok => termName tok == n) <;> rfl

theorem termTexts_eq (text : Str) :
    termTexts text =
      addReferences [] (termReferenceDefinitionPattern.FindAllStringSubmatch text) := rfl

/-- The display text of every term is that of the last inline reference token of the prose
whose effective name is the term's reference. -/
theorem FindTerms_text_last (ro : RangeOrder) (text : Str) (sp : WordSplitter) (t : Term)
    (ht : t ∈ (FindTerms ro text sp).1) :
    ((proseTokens text).reverse.find? (fun tok => termName tok == t.Reference)).map
      Submatch.m1 = some t.Text := by
  obtain ⟨d, _, tx, h1, h2⟩ := FindTerms_mem ro text sp t ht
  rw [FindTerms_snd, termTexts_eq, lookup_addReferences_nil] at h1
  rw [h2]
  exact h1

/-! ## The properties C1 to C10 -/

/-- C1: in `matchedTermDefinitions`, the first definition record for a reference name that is
a key of the reference map produces a Term (the only one with that reference, with the
map's text) whose Splits hold exactly the record's manual splits and every non-empty string
the splitter returns for a non-empty fragment of `unsplitParts(Text, manualSplits)`; for
display text "xaybz" with manual splits a, b these are a, b and the non-empty outputs of the
splitter on "x", "y" and "z", and for "abcdxy" with ab, cd they are ab, cd and the non-empty
outputs of the splitter on "xy". -/
theorem C1_splits_are_manual_and_splitter_pieces (ro : RangeOrder) (termTexts : RefMap)
    (splitter : WordSplitter) (pre post : List Submatch) (d : Submatch) (text : Str)
    (hfirst : ∀ e ∈ pre, e.m1 ≠ d.m1) (hmap : termTexts.lookup d.m1 = some text) :
    (∃ t ∈ matchedTermDefinitions ro termTexts (pre ++ d :: post) splitter,
      t.Reference = d.m1 ∧ t.Text = text ∧
      (∀ t1 ∈ matchedTermDefinitions ro termTexts (pre ++ d :: post) splitter,
        t1.Reference = d.m1 → t1 = t) ∧
      ∀ s, s ∈ t.Splits ↔
        s ∈ splitBySeparator d.m2 ∨
          ∃ piece ∈ unsplitParts ro text (splitBySeparator d.m2),
            piece ≠ [] ∧ s ∈ splitter piece ∧ s ≠ []) ∧
    (∃ t, matchedTermDefinitions ro [("w".toList, "xaybz".toList)]
        [fixtureDefinition "a/b/"] splitter = [t] ∧
      ∀ s, s ∈ t.Splits ↔
        (s = "a".toList ∨ s = "b".toList) ∨
          (s ≠ [] ∧ (s ∈ splitter "x".toList ∨ s ∈ splitter "y".toList ∨
            s ∈ splitter "z".toList))) ∧
    (∃ t, matchedTermDefinitions ro [("w".toList, "abcdxy".toList)]
        [fixtureDefinition "ab/cd/"] splitter = [t] ∧
      ∀ s, s ∈ t.Splits ↔
        (s = "ab".toList ∨ s = "cd".toList) ∨ (s ≠ [] ∧ s ∈ splitter "xy".toList)) := by
  refine ⟨⟨termOf ro splitter text d, ?_, rfl, rfl, ?_, ?_⟩,
    ⟨termOf ro splitter "xaybz".toList (fixtureDefinition "a/b/"), ?_, ?_⟩,
    ⟨termOf ro splitter "abcdxy".toList (fixtureDefinition "ab/cd/"), ?_, ?_⟩⟩
  · exact matchedLoop_first_mem ro termTexts splitter pre post d text [] hfirst hmap
      (List.not_mem_nil _)
  · intro t1 ht1 href
    exact matchedLoop_unique ro termTexts splitter _ [] t1 _ ht1
      (matchedLoop_first_mem ro termTexts splitter pre post d text [] hfirst hmap
        (List.not_mem_nil _)) href
  · exact mem_splits_termOf ro splitter text d
  · exact matchedTermDefinitions_single ro _ splitter _ "xaybz".toList (by decide)
  · intro s
    have hs : splitBySeparator "a/b/".toList = ["a".toList, "b".toList] := by decide
    have hm : (fixtureDefinition "a/b/").m2 = "a/b/".toList := rfl
    rw [mem_splits_termOf, hm, unsplitParts_xaybz ro, hs]
    have h1 : ("x".toList : Str) ≠ [] := by decide
    have h2 : ("y".toList : Str) ≠ [] := by decide
    have h3 : ("z".toList : Str) ≠ [] := by decide
    simp only [List.mem_cons, List.mem_singleton, List.not_mem_nil, or_false, exists_eq_or_imp,
      exists_eq_left, ne_eq, h1, h2, h3, not_false_eq_true, true_and]
    tauto
  · exact matchedTermDefinitions_single ro _ splitter _ "abcdxy".toList (by decide)
  · intro s
    have hs : splitBySeparator "ab/cd/".toList = ["ab".toList, "cd".toList] := by decide
    have hm : (fixtureDefinition "ab/cd/").m2 = "ab/cd/".toList := rfl
    rw [mem_splits_termOf, hm, unsplitParts_abcdxy ro, hs]
    have h1 : ("xy".toList : Str) ≠ [] := by decide
    simp only [List.mem_cons, List.mem_singleton, List.not_mem_nil, or_false, exists_eq_or_imp,
      exists_eq_left, ne_eq, h1, not_false_eq_true, true_and, not_true_eq_false, false_and,
      false_or]
    tauto

/-- Witness of C1: the record `[w]: /ab/cd/` resolved against the map w ↦ "abcdxy". -/
theorem C1_witness :
    (∀ e ∈ ([] : List Submatch), e.m1 ≠ (fixtureDefinition "ab/cd/").m1) ∧
    List.lookup (fixtureDefinition "ab/cd/").m1 [("w".toList, "abcdxy".toList)]
      = some "abcdxy".toList ∧
    ∃ t ∈ matchedTermDefinitions RangeOrder.insertion [("w".toList, "abcdxy".toList)]
        ([] ++ fixtureDefinition "ab/cd/" :: []) wholeWord,
      t.Reference = (fixtureDefinition "ab/cd/").m1 ∧ t.Text = "abcdxy".toList ∧
      (∀ t1 ∈ matchedTermDefinitions RangeOrder.insertion [("w".toList, "abcdxy".toList)]
          ([] ++ fixtureDefinition "ab/cd/" :: []) wholeWord,
        t1.Reference = (fixtureDefinition "ab/cd/").m1 → t1 = t) ∧
      ∀ s, s ∈ t.Splits ↔
        s ∈ splitBySeparator (fixtureDefinition "ab/cd/").m2 ∨
          ∃ piece ∈ unsplitParts RangeOrder.insertion "abcdxy".toList
              (splitBySeparator (fixtureDefinition "ab/cd/").m2),
            piece ≠ [] ∧ s ∈ wholeWord piece ∧ s ≠ [] :=
  ⟨by simp, by decide,
    (C1_splits_are_manual_and_splitter_pieces RangeOrder.insertion
      [("w".toList, "abcdxy".toList)] wholeWord [] [] (fixtureDefinition "ab/cd/")
      "abcdxy".toList (by simp) (by decide)).1⟩

/-- C2: every Term returned by `FindTerms` has a Reference that is a key of the reference map
built from the returned non-definition text, and its Text is the map's entry for that key;
so a name that is no key of this map is the Reference of no Term. An inline reference that
occurs only inside a definition paragraph does not count: the document `selfReferenceText`
yields no Term. -/
theorem C2_terms_resolve_in_prose_map (ro : RangeOrder) (text : Str)
    (splitter : WordSplitter) :
    (∀ t ∈ (FindTerms ro text splitter).1,
      (termTexts (FindTerms ro text splitter).2).lookup t.Reference = some t.Text) ∧
    (∀ name, (termTexts (FindTerms ro text splitter).2).lookup name = none →
      ∀ t ∈ (FindTerms ro text splitter).1, t.Reference ≠ name) ∧
    FindTerms ro selfReferenceText splitter = ([], "Intro.".toList) := by
  have key : ∀ t ∈ (FindTerms ro text splitter).1,
      (termTexts (FindTerms ro text splitter).2).lookup t.Reference = some t.Text := by
    intro t ht
    obtain ⟨d, _, tx, h1, h2⟩ := FindTerms_mem ro text splitter t ht
    rw [h2]
    exact h1
  refine ⟨key, ?_, ?_⟩
  · intro name hnone t ht hname
    have h := key t ht
    rw [hname, hnone] at h
    exact Option.noConfusion h
  · have h2 : (FindTerms ro selfReferenceText splitter).2 = "Intro.".toList := by
      rw [FindTerms_snd]; decide
    have h1 : (FindTerms ro selfReferenceText splitter).1 = [] := by
      rw [FindTerms_fst, h2]
      have hm : termTexts "Intro.".toList = [] := by decide
      rw [hm]
      exact matchedLoop_empty_map ro splitter _ _
    exact Prod.ext h1 h2

set_option maxRecDepth 100000 in
/-- Witness of C2: the term of `fixtureText` resolves to the display text "abcdxy". -/
theorem C2_witness :
    fixtureTerm ["xy".toList] ∈ (FindTerms RangeOrder.insertion fixtureText wholeWord).1 ∧
    (termTexts (FindTerms RangeOrder.insertion fixtureText wholeWord).2).lookup
      (fixtureTerm ["xy".toList]).Reference = some (fixtureTerm ["xy".toList]).Text :=
  ⟨by decide,
    (C2_terms_resolve_in_prose_map RangeOrder.insertion fixtureText wholeWord).1
      (fixtureTerm ["xy".toList]) (by decide)⟩

/-- C3: when the first definition record for a reference name of the reference map is
followed by further records with the same name, `matchedTermDefinitions` returns exactly one
Term with that Reference; its Definition is the trimmed body of the first record and its
Splits are those computed from the first record's manual splits. Deleting the later records
with that name leaves the output unchanged, and also unchanged up to the order of each
Term's Splits when the output map is enumerated in another order. -/
theorem C3_first_definition_wins (ro : RangeOrder) (termTexts : RefMap)
    (splitter : WordSplitter) (pre post : List Submatch) (d : Submatch) (text : Str)
    (hfirst : ∀ e ∈ pre, e.m1 ≠ d.m1) (hmap : termTexts.lookup d.m1 = some text) :
    (∃ t ∈ matchedTermDefinitions ro termTexts (pre ++ d :: post) splitter,
      t.Reference = d.m1 ∧ t.Definition = TrimSpace d.m3 ∧
      t.Splits = ro.splitsOrder (termSplits ro splitter text (splitBySeparator d.m2)) ∧
      ∀ t1 ∈ matchedTermDefinitions ro termTexts (pre ++ d :: post) splitter,
        t1.Reference = d.m1 → t1 = t) ∧
    ((matchedTermDefinitions ro termTexts (pre ++ d :: post) splitter).filter
      (fun t => t.Reference = d.m1)).length = 1 ∧
    matchedTermDefinitions ro termTexts
        (pre ++ d :: post.filter (fun e => e.m1 ≠ d.m1)) splitter =
      matchedTermDefinitions ro termTexts (pre ++ d :: post) splitter ∧
    ∀ ro2 : RangeOrder, ro2.manualOrder = ro.manualOrder →
      List.Forall₂ Term.sameUpToSplitsOrder
        (matchedTermDefinitions ro2 termTexts
          (pre ++ d :: post.filter (fun e => e.m1 ≠ d.m1)) splitter)
        (matchedTermDefinitions ro termTexts (pre ++ d :: post) splitter) := by
  have hmem := matchedLoop_first_mem ro termTexts splitter pre post d text [] hfirst hmap
    (List.not_mem_nil _)
  have hdel := matchedLoop_delete_later ro termTexts splitter pre post d text [] hmap
  refine ⟨⟨termOf ro splitter text d, hmem, rfl, rfl, rfl, ?_⟩, ?_, hdel, ?_⟩
  · intro t1 ht1 href
    exact matchedLoop_unique ro termTexts splitter _ [] t1 _ ht1 hmem href
  · exact length_filter_reference _ (matchedLoop_nodup_references ro termTexts splitter _ [])
      (termOf ro splitter text d) hmem
  · intro ro2 h2
    have h := matchedLoop_sameUpToSplitsOrder ro2 ro h2 termTexts splitter
      (pre ++ d :: post.filter (fun e => e.m1 ≠ d.m1)) []
    unfold matchedTermDefinitions
    rw [hdel] at h
    exact h

/-- Witness of C3: two records for `w`, the first with manual splits ab, cd and the second
with manual split x. -/
theorem C3_witness :
    (∀ e ∈ ([] : List Submatch), e.m1 ≠ (fixtureDefinition "ab/cd/").m1) ∧
    List.lookup (fixtureDefinition "ab/cd/").m1 [("w".toList, "abcdxy".toList)]
      = some "abcdxy".toList ∧
    matchedTermDefinitions RangeOrder.insertion [("w".toList, "abcdxy".toList)]
        ([] ++ fixtureDefinition "ab/cd/" ::
          [fixtureDefinition "x/"].filter
            (fun e => e.m1 ≠ (fixtureDefinition "ab/cd/").m1)) wholeWord =
      matchedTermDefinitions RangeOrder.insertion [("w".toList, "abcdxy".toList)]
        ([] ++ fixtureDefinition "ab/cd/" :: [fixtureDefinition "x/"]) wholeWord :=
  ⟨by simp, by decide,
    (C3_first_definition_wins RangeOrder.insertion [("w".toList, "abcdxy".toList)] wholeWord
      [] [fixtureDefinition "x/"] (fixtureDefinition "ab/cd/") "abcdxy".toList (by simp)
      (by decide)).2.2.1⟩

/-- C4: the References of the Terms returned by `matchedTermDefinitions` are the reference
names of the definition records that are keys of the reference map, every repeat after the
first removed, in the order of the records; so the number of Terms is the number of distinct
resolvable reference names. For the test document these are the 5 references 密林, c, a,
アンコールワット, b. -/
theorem C4_references_in_first_seen_order (ro : RangeOrder) (termTexts : RefMap)
    (splitter : WordSplitter) (termDefinitions : List Submatch) :
    (matchedTermDefinitions ro termTexts termDefinitions splitter).map Term.Reference =
      firstOccurrences ((termDefinitions.map Submatch.m1).filter
        (fun n => (termTexts.lookup n).isSome)) ∧
    (matchedTermDefinitions ro termTexts termDefinitions splitter).length =
      ((termDefinitions.map Submatch.m1).filter
        (fun n => (termTexts.lookup n).isSome)).toFinset.card ∧
    (FindTerms ro testText splitter).1.map Term.Reference =
      ["密林".toList, "c".toList, "a".toList, "アンコールワット".toList, "b".toList] ∧
    (FindTerms ro testText splitter).1.length = 5 := by
  have key : ∀ (m : RefMap) (defs : List Submatch),
      (matchedLoop ro m splitter defs []).map Term.Reference =
        firstOccurrences ((defs.map Submatch.m1).filter (fun n => (m.lookup n).isSome)) := by
    intro m defs
    rw [matchedLoop_references]
    simp
  have htest : (FindTerms ro testText splitter).1.map Term.Reference =
      ["密林".toList, "c".toList, "a".toList, "アンコールワット".toList, "b".toList] := by
    rw [FindTerms_fst, key, FindTerms_snd]
    exact references_testText
  refine ⟨key termTexts termDefinitions, ?_, htest, ?_⟩
  · rw [← length_firstOccurrences, ← key termTexts termDefinitions, List.length_map]
    rfl
  · rw [← List.length_map, htest]
    rfl

/-- C5: no Term returned by `FindTerms` has the empty string among its Splits, whatever the
splitter returns. -/
theorem C5_no_empty_split (ro : RangeOrder) (text : Str) (splitter : WordSplitter)
    (t : Term) (ht : t ∈ (FindTerms ro text splitter).1) : ([] : Str) ∉ t.Splits := by
  obtain ⟨d, _, tx, _, h2⟩ := FindTerms_mem ro text splitter t ht
  rw [h2, mem_splits_termOf]
  rintro (h | ⟨_, _, _, _, h⟩)
  · exact ne_nil_of_mem_splitBySeparator h rfl
  · exact h rfl

set_option maxRecDepth 100000 in
/-- Witness of C5: with a splitter that returns an empty piece, the term of `fixtureText`
has the splits ab, cd, xy. -/
theorem C5_witness :
    fixtureTerm ["xy".toList] ∈ (FindTerms RangeOrder.insertion fixtureText emptyAndWord).1 ∧
    ([] : Str) ∉ (fixtureTerm ["xy".toList]).Splits :=
  ⟨by decide,
    C5_no_empty_split RangeOrder.insertion fixtureText emptyAndWord
      (fixtureTerm ["xy".toList]) (by decide)⟩

set_option maxRecDepth 100000 in
/-- C6 as stated fails: with a splitter that returns the word itself, the Term of
`undeclaredSplitText` has the manual split "zzz" among its Splits, and "zzz" is no
substring of its Text "foo". -/
theorem C6_counterexample :
    ¬ ∀ (ro : RangeOrder) (text : Str) (splitter : WordSplitter),
      (∀ w s, s ∈ splitter w → s <:+: w) →
      ∀ t ∈ (FindTerms ro text splitter).1, ∀ s ∈ t.Splits, s <:+: t.Text := by
  intro h
  have hsp : ∀ w s, s ∈ wholeWord w → s <:+: w := by
    intro w s hs
    rw [wholeWord, List.mem_singleton] at hs
    exact hs ▸ List.infix_refl w
  have ht : undeclaredSplitTerm
      ∈ (FindTerms RangeOrder.insertion undeclaredSplitText wholeWord).1 := by decide
  have hz : "zzz".toList <:+: "foo".toList :=
    h RangeOrder.insertion undeclaredSplitText wholeWord hsp _ ht "zzz".toList (by decide)
  have hmem : 'z' ∈ "foo".toList := hz.subset (by decide)
  exact absurd hmem (by decide)

/-- C6, amended: when the splitter returns only contiguous substrings of its word, every
string in the Splits of a Term returned by `FindTerms` is a contiguous substring of the
Term's Text or one of the manual splits declared by a definition paragraph for the Term's
Reference (with the Term's Definition as its trimmed body). -/
theorem C6_splits_are_substrings_or_manual (ro : RangeOrder) (text : Str)
    (splitter : WordSplitter) (hsub : ∀ w s, s ∈ splitter w → s <:+: w)
    (t : Term) (ht : t ∈ (FindTerms ro text splitter).1) (s : Str) (hs : s ∈ t.Splits) :
    s <:+: t.Text ∨
      ∃ d ∈ (classify (paragraphSplittingPattern.Split false text)).1,
        d.m1 = t.Reference ∧ TrimSpace d.m3 = t.Definition ∧ s ∈ splitBySeparator d.m2 := by
  obtain ⟨d, hd, tx, _, h2⟩ := FindTerms_mem ro text splitter t ht
  subst h2
  rcases (mem_splits_termOf ro splitter tx d s).mp hs with h | ⟨piece, hp, _, hsp, _⟩
  · exact Or.inr ⟨d, hd, rfl, rfl, h⟩
  · exact Or.inl ((hsub piece s hsp).trans (unsplitParts_isInfix ro tx _ piece hp))

set_option maxRecDepth 100000 in
/-- Witness of C6 (amended): the split "xy" of the term of `fixtureText`. -/
theorem C6_witness :
    (∀ w s, s ∈ wholeWord w → s <:+: w) ∧
    fixtureTerm ["xy".toList] ∈ (FindTerms RangeOrder.insertion fixtureText wholeWord).1 ∧
    "xy".toList ∈ (fixtureTerm ["xy".toList]).Splits ∧
    ("xy".toList <:+: (fixtureTerm ["xy".toList]).Text ∨
      ∃ d ∈ (classify (paragraphSplittingPattern.Split false fixtureText)).1,
        d.m1 = (fixtureTerm ["xy".toList]).Reference ∧
        TrimSpace d.m3 = (fixtureTerm ["xy".toList]).Definition ∧
        "xy".toList ∈ splitBySeparator d.m2) :=
  have hsp : ∀ w s, s ∈ wholeWord w → s <:+: w := by
    intro w s hs
    rw [wholeWord, List.mem_singleton] at hs
    exact hs ▸ List.infix_refl w
  ⟨hsp, by decide, by decide,
    C6_splits_are_substrings_or_manual RangeOrder.insertion fixtureText wholeWord hsp
      (fixtureTerm ["xy".toList]) (by decide) "xy".toList (by decide)⟩

/-- C7: the Splits of a Term returned by `FindTerms` contain no string twice, also when the
splitter repeats a piece or returns a manual split. -/
theorem C7_splits_have_no_duplicates (ro : RangeOrder) (text : Str) (splitter : WordSplitter)
    (t : Term) (ht : t ∈ (FindTerms ro text splitter).1) : t.Splits.Nodup := by
  obtain ⟨d, _, tx, _, h2⟩ := FindTerms_mem ro text splitter t ht
  rw [h2]
  exact (ro.splitsOrder_perm _).nodup_iff.mpr
    (nodup_termSplits ro splitter tx _ (nodup_splitBySeparator d.m2))

set_option maxRecDepth 100000 in
/-- Witness of C7: with a splitter that returns "xy", "xy", "ab" for "xy", the term of
`fixtureText` has the splits ab, cd, xy, each once. -/
theorem C7_witness :
    fixtureTerm ["xy".toList] ∈ (FindTerms RangeOrder.insertion fixtureText repeating).1 ∧
    (fixtureTerm ["xy".toList]).Splits.Nodup :=
  ⟨by decide,
    C7_splits_have_no_duplicates RangeOrder.insertion fixtureText repeating
      (fixtureTerm ["xy".toList]) (by decide)⟩

set_option maxRecDepth 100000 in
/-- C8 fails on the code: for the display text "abc" with manual splits a, ab, the unsplit
parts are "", "bc" when `unsplitParts` enumerates a before ab and "", "c" when it
enumerates ab before a, so with a splitter that returns the word itself the Splits of the
Term are a, ab, bc in one case and a, ab, c in the other. -/
theorem C8_splits_depend_on_enumeration_order :
    unsplitParts RangeOrder.insertion "abc".toList ["a".toList, "ab".toList]
      = [[], "bc".toList] ∧
    unsplitParts RangeOrder.reversed "abc".toList ["a".toList, "ab".toList]
      = [[], "c".toList] ∧
    (FindTerms RangeOrder.insertion overlapText wholeWord).1 =
      [{ Text := "abc".toList, Reference := "r".toList, Definition := "d".toList,
         Splits := ["a".toList, "ab".toList, "bc".toList] }] ∧
    (FindTerms RangeOrder.reversed overlapText wholeWord).1 =
      [{ Text := "abc".toList, Reference := "r".toList, Definition := "d".toList,
         Splits := ["a".toList, "ab".toList, "c".toList] }] := by
  refine ⟨?_, ?_, ?_, ?_⟩ <;> decide

set_option maxRecDepth 100000 in
/-- C9: for every sequence of inline reference tokens, the map built by `termTexts` has for
a name `n` the display text of the last token whose effective name is `n`, and no entry when
no token has the effective name `n`; the effective name is the trimmed explicit name when
that is non-empty and the trimmed display text otherwise, and `[foo]` and `[foo][]` give
the same map. -/
theorem C9_reference_map_last_token_wins (tokens : List Submatch) (n : Str) :
    (addReferences [] tokens).lookup n =
      (tokens.reverse.find? (fun tok => termName tok == n)).map Submatch.m1 ∧
    (∀ pre tok post, tokens = pre ++ tok :: post → termName tok = n →
      (∀ later ∈ post, termName later ≠ n) →
      (addReferences [] tokens).lookup n = some tok.m1) ∧
    ((∀ tok ∈ tokens, termName tok ≠ n) → (addReferences [] tokens).lookup n = none) ∧
    (∀ tok : Submatch, tok.m3 ≠ [] → termName tok = TrimSpace tok.m3) ∧
    (∀ tok : Submatch, tok.m3 = [] → termName tok = TrimSpace tok.m1) ∧
    (∀ text, termTexts text =
      addReferences [] (termReferenceDefinitionPattern.FindAllStringSubmatch text)) ∧
    termTexts "[foo]".toList = [("foo".toList, "foo".toList)] ∧
    termTexts "[foo][]".toList = [("foo".toList, "foo".toList)] := by
  refine ⟨lookup_addReferences_nil tokens n, ?_, ?_, ?_, ?_, fun _ => rfl, by decide,
    by decide⟩
  · intro pre tok post htok hname hlater
    rw [lookup_addReferences_nil, htok, List.reverse_append, List.reverse_cons,
      List.find?_append, List.find?_append]
    have hnone : post.reverse.find? (fun tok => termName tok == n) = none := by
      rw [List.find?_eq_none]
      intro x hx
      simpa using hlater x (List.mem_reverse.mp hx)
    rw [hnone]
    simp [hname]
  · intro hall
    rw [lookup_addReferences_nil]
    have hnone : tokens.reverse.find? (fun tok => termName tok == n) = none := by
      rw [List.find?_eq_none]
      intro x hx
      simpa using hall x (List.mem_reverse.mp hx)
    rw [hnone]
    rfl
  · intro tok h
    have : tok.m3.length ≠ 0 := fun h0 => h (List.length_eq_zero.mp h0)
    simp [termName, this]
  · intro tok h
    simp [termName, h]

set_option maxRecDepth 100000 in
/-- C10 as stated fails: in `twoDisplaysText` the reference `r` occurs first with display
text "x" and then with display text "y", and the Term for `r` has Text "y". -/
theorem C10_counterexample :
    ¬ ∀ (ro : RangeOrder) (text : Str) (splitter : WordSplitter),
      ∀ t ∈ (FindTerms ro text splitter).1, ∀ tok,
        2 ≤ ((proseTokens text).filter (fun tok => termName tok == t.Reference)).length →
        (proseTokens text).find? (fun tok => termName tok == t.Reference) = some tok →
        t.Text = tok.m1 := by
  intro h
  have ht : twoDisplaysTerm
      ∈ (FindTerms RangeOrder.insertion twoDisplaysText wholeWord).1 := by decide
  have hx : "y".toList = "x".toList := h RangeOrder.insertion twoDisplaysText wholeWord _ ht
    { m0 := "[x][r]".toList, m1 := "x".toList, m2 := "[r]".toList, m3 := "r".toList }
    (by decide) (by decide)
  exact absurd hx (by decide)

/-- C10, amended: the Text of every Term returned by `FindTerms` is the display text of the
last inline reference in the returned prose whose effective name is the Term's Reference. -/
theorem C10_text_is_last_inline_occurrence (ro : RangeOrder) (text : Str)
    (splitter : WordSplitter) (t : Term) (ht : t ∈ (FindTerms ro text splitter).1) :
    ((proseTokens text).reverse.find? (fun tok => termName tok == t.Reference)).map
      Submatch.m1 = some t.Text ∧
    ∃ pre tok post, proseTokens text = pre ++ tok :: post ∧ termName tok = t.Reference ∧
      tok.m1 = t.Text ∧ ∀ later ∈ post, termName later ≠ t.Reference := by
  have h := FindTerms_text_last ro text splitter t ht
  refine ⟨h, ?_⟩
  cases hf : (proseTokens text).reverse.find? (fun tok => termName tok == t.Reference) with
  | none => rw [hf] at h; exact Option.noConfusion h
  | some tok =>
    rw [hf] at h
    have htext : tok.m1 = t.Text := Option.some.inj h
    obtain ⟨hp, as, bs, hab, hbs⟩ := List.find?_eq_some.mp hf
    refine ⟨bs.reverse, tok, as.reverse, ?_, by simpa using hp, htext, ?_⟩
    · have := congrArg List.reverse hab
      simpa using this
    · intro later hl
      have := hbs later (List.mem_reverse.mp hl)
      simpa using this

set_option maxRecDepth 100000 in
/-- Witness of C10 (amended): the Term of `twoDisplaysText` has the Text "y" of the last
inline reference to `r`. -/
theorem C10_witness :
    twoDisplaysTerm ∈ (FindTerms RangeOrder.insertion twoDisplaysText wholeWord).1 ∧
    ((proseTokens twoDisplaysText).reverse.find?
      (fun tok => termName tok == "r".toList)).map Submatch.m1 = some "y".toList :=
  ⟨by decide,
    (C10_text_is_last_inline_occurrence RangeOrder.insertion twoDisplaysText wholeWord
      twoDisplaysTerm (by decide)).1⟩

/-! ## The paragraph loop -/

theorem classify_snd (ps : List Str) :
    (classify ps).2 =
      ps.filter (fun p => (termDefinitionPattern.FindStringSubmatch p).isNone) := by
  induction ps with
  | nil => rfl
  | cons p rest ih =>
    unfold classify
    cases h : termDefinitionPattern.FindStringSubmatch p with
    | none => simp [h, ih]
    | some m => simp [h, ih]

theorem classify_fst (ps : List Str) :
    (classify ps).1 = ps.filterMap (fun p => termDefinitionPattern.FindStringSubmatch p) := by
  induction ps with
  | nil => rfl
  | cons p rest ih =>
    unfold classify
    cases h : termDefinitionPattern.FindStringSubmatch p with
    | none => simp [h, ih]
    | some m => simp [h, ih]

theorem classify_fst_nil (ps : List Str)
    (h : ∀ p ∈ ps, termDefinitionPattern.FindStringSubmatch p = none) :
    (classify ps).1 = [] := by
  rw [classify_fst, List.filterMap_eq_nil_iff]
  exact h

theorem classify_snd_all (ps : List Str)
    (h : ∀ p ∈ ps, termDefinitionPattern.FindStringSubmatch p = none) :
    (classify ps).2 = ps := by
  rw [classify_snd, List.filter_eq_self]
  intro p hp
  simp [h p hp]

/-! ## `strings.TrimSpace` -/

theorem TrimSpace_eq_nil (s : Str) (h : ∀ c ∈ s, isSpace c = true) : TrimSpace s = [] := by
  have h1 : s.dropWhile isSpace = [] := List.dropWhile_eq_nil_iff.mpr h
  simp [TrimSpace, h1]

theorem TrimSpace_decompose (s : Str) :
    ∃ l r, s = l ++ TrimSpace s ++ r ∧ (∀ c ∈ l, isSpace c = true) ∧
      (∀ c ∈ r, isSpace c = true) := by
  refine ⟨s.takeWhile isSpace, ((s.dropWhile isSpace).reverse.takeWhile isSpace).reverse,
    ?_, ?_, ?_⟩
  · have h1 : (s.dropWhile isSpace)
        = TrimSpace s ++ ((s.dropWhile isSpace).reverse.takeWhile isSpace).reverse := by
      unfold TrimSpace
      rw [← List.reverse_append, List.takeWhile_append_dropWhile, List.reverse_reverse]
    rw [List.append_assoc, ← h1, List.takeWhile_append_dropWhile]
  · intro c hc
    exact List.mem_takeWhile_imp hc
  · intro c hc
    exact List.mem_takeWhile_imp (List.mem_reverse.mp hc)

theorem TrimSpace_isInfix (s : Str) : TrimSpace s <:+: s := by
  obtain ⟨l, r, h, _⟩ := TrimSpace_decompose s
  exact ⟨l, r, h.symm⟩

theorem dropWhile_head_not {p : Char → Bool} (s : Str) (c : Char) (t : Str)
    (h : s.dropWhile p = c :: t) : p c = false := by
  induction s with
  | nil => simp at h
  | cons a s ih =>
    rw [List.dropWhile_cons] at h
    split at h
    · exact ih h
    · rename_i hp
      have := (List.cons.inj h).1
      subst this
      simpa using hp

/-- The trimmed string does not begin with white space. -/
theorem TrimSpace_head (s : Str) (c : Char) (t : Str) (h : TrimSpace s = c :: t) :
    isSpace c = false := by
  obtain ⟨l, r, hdec, _⟩ := TrimSpace_decompose s
  have h2 : s.dropWhile isSpace
      = TrimSpace s ++ ((s.dropWhile isSpace).reverse.takeWhile isSpace).reverse := by
    unfold TrimSpace
    rw [← List.reverse_append, List.takeWhile_append_dropWhile, List.reverse_reverse]
  rw [h, List.cons_append] at h2
  exact dropWhile_head_not s c _ h2

/-- The trimmed string does not end with white space. -/
theorem TrimSpace_last (s : Str) (t : Str) (c : Char) (h : TrimSpace s = t ++ [c]) :
    isSpace c = false := by
  unfold TrimSpace at h
  have h2 := congrArg List.reverse h
  rw [List.reverse_reverse, List.reverse_append, List.reverse_singleton,
    List.singleton_append] at h2
  exact dropWhile_head_not _ c _ h2

/-! ## `strings.Split` -/

theorem stringsSplit_ne_nil (sep : Char) (s : Str) : stringsSplit sep s ≠ [] := by
  induction s with
  | nil => simp [stringsSplit]
  | cons c s ih =>
    unfold stringsSplit
    split
    · simp
    · split <;> simp

theorem stringsSplit_mem (sep : Char) (s : Str) :
    ∀ piece ∈ stringsSplit sep s, sep ∉ piece ∧ ∀ c ∈ piece, c ∈ s := by
  induction s with
  | nil =>
    intro piece hp
    simp only [stringsSplit, List.mem_singleton] at hp
    subst hp
    simp
  | cons c s ih =>
    intro piece hp
    unfold stringsSplit at hp
    split at hp
    · rcases List.mem_cons.mp hp with h | h
      · subst h; simp
      · obtain ⟨h1, h2⟩ := ih piece h
        exact ⟨h1, fun x hx => List.mem_cons_of_mem _ (h2 x hx)⟩
    · rename_i hne
      split at hp
      · rename_i hnil
        exact absurd hnil (stringsSplit_ne_nil sep s)
      · rename_i p ps hps
        rcases List.mem_cons.mp hp with h | h
        · subst h
          obtain ⟨h1, h2⟩ := ih p (by rw [hps]; exact List.mem_cons_self _ _)
          refine ⟨?_, ?_⟩
          · intro hmem
            rcases List.mem_cons.mp hmem with h3 | h3
            · exact hne h3.symm
            · exact h1 h3
          · intro x hx
            rcases List.mem_cons.mp hx with h3 | h3
            · exact h3 ▸ List.mem_cons_self _ _
            · exact List.mem_cons_of_mem _ (h2 x h3)
        · obtain ⟨h1, h2⟩ := ih piece (by rw [hps]; exact List.mem_cons_of_mem _ h)
          exact ⟨h1, fun x hx => List.mem_cons_of_mem _ (h2 x hx)⟩

/-- Joining the pieces with the separator gives the string back. -/
theorem stringsJoin_stringsSplit (sep : Char) (s : Str) :
    stringsJoin [sep] (stringsSplit sep s) = s := by
  induction s with
  | nil => rfl
  | cons c s ih =>
    unfold stringsSplit
    split
    · rename_i hc
      cases hs : stringsSplit sep s with
      | nil => exact absurd hs (stringsSplit_ne_nil sep s)
      | cons p ps =>
        rw [hs] at ih
        simp only [stringsJoin, List.nil_append, List.singleton_append, ih, hc]
    · cases hs : stringsSplit sep s with
      | nil => exact absurd hs (stringsSplit_ne_nil sep s)
      | cons p ps =>
        rw [hs] at ih
        simp only
        cases ps with
        | nil =>
          simp only [stringsJoin] at ih ⊢
          rw [ih]
        | cons q qs =>
          simp only [stringsJoin, List.cons_append] at ih ⊢
          rw [ih]

/-! ## Text, reference and definition do not depend on the splitter -/

theorem matchedLoop_header (ro1 ro2 : RangeOrder) (sp1 sp2 : WordSplitter) (m : RefMap)
    (defs : List Submatch) (seen : StrSet) :
    (matchedLoop ro1 m sp1 defs seen).map Term.header =
      (matchedLoop ro2 m sp2 defs seen).map Term.header := by
  induction defs generalizing seen with
  | nil => rfl
  | cons e rest ih =>
    cases hle : m.lookup e.m1 with
    | none =>
      rw [matchedLoop_cons_unresolved ro1 m sp1 e _ seen hle,
        matchedLoop_cons_unresolved ro2 m sp2 e _ seen hle]
      exact ih seen
    | some tx =>
      by_cases hse : e.m1 ∈ seen
      · rw [matchedLoop_cons_seen ro1 m sp1 e _ seen hse,
          matchedLoop_cons_seen ro2 m sp2 e _ seen hse]
        exact ih seen
      · rw [matchedLoop_cons_new ro1 m sp1 e _ seen tx hle hse,
          matchedLoop_cons_new ro2 m sp2 e _ seen tx hle hse, List.map_cons, List.map_cons,
          ih]
        rfl

theorem FindTerms_header (ro1 ro2 : RangeOrder) (sp1 sp2 : WordSplitter) (text : Str) :
    (FindTerms ro1 text sp1).1.map Term.header = (FindTerms ro2 text sp2).1.map Term.header :=
  matchedLoop_header ro1 ro2 sp1 sp2 _ _ _

/-! ## The matcher and its continuation -/

theorem repRun_map {α β : Type} (f : α → β) (p : Char → Bool) (k : Str → Nat → Option α)
    (s : Str) : ∀ (lo : Nat) (hi : Option Nat) (n : Nat),
    (repRun p k lo hi s n).map f = repRun p (fun s1 n1 => (k s1 n1).map f) lo hi s n := by
  induction s with
  | nil =>
    intro lo hi n
    unfold repRun
    split <;> rfl
  | cons ch t ih =>
    intro lo hi n
    unfold repRun
    split
    · rw [← ih]
      cases repRun p k (lo - 1) (Option.map (fun x => x - 1) hi) t (n + 1) with
      | some r => rfl
      | none =>
        simp only [Option.map_none']
        split <;> rfl
    · split <;> rfl

/-- Mapping the result of a run is mapping the result of its continuation. -/
theorem run_map {α β : Type} (f : α → β) (re : Regex) :
    ∀ (s : Str) (n : Nat) (c : Caps) (k : Str → Nat → Caps → Option α),
      (re.run s n c k).map f = re.run s n c (fun s1 n1 c1 => (k s1 n1 c1).map f) := by
  induction re with
  | eps => intro s n c k; rfl
  | cls p =>
    intro s n c k
    unfold Regex.run
    cases s with
    | nil => rfl
    | cons ch t =>
      simp only
      split <;> rfl
  | rep p lo hi =>
    intro s n c k
    unfold Regex.run
    exact repRun_map f p _ s lo hi n
  | seq a b iha ihb =>
    intro s n c k
    unfold Regex.run
    rw [iha]
    congr 1
    funext s1 n1 c1
    exact ihb s1 n1 c1 k
  | alt a b iha ihb =>
    intro s n c k
    unfold Regex.run
    rw [← iha, ← ihb]
    cases a.run s n c k <;> rfl
  | opt a iha =>
    intro s n c k
    unfold Regex.run
    rw [← iha]
    cases a.run s n c k <;> rfl
  | group i a iha =>
    intro s n c k
    unfold Regex.run
    rw [iha]

theorem run_capsFree {α : Type} (re : Regex) :
    ∀ (k : Str → Nat → Caps → Option α), CapsFree k →
      ∀ s n c1 c2, re.run s n c1 k = re.run s n c2 k := by
  induction re with
  | eps => intro k hk s n c1 c2; exact hk s n c1 c2
  | cls p =>
    intro k hk s n c1 c2
    unfold Regex.run
    cases s with
    | nil => rfl
    | cons ch t =>
      simp only
      split
      · exact hk _ _ _ _
      · rfl
  | rep p lo hi =>
    intro k hk s n c1 c2
    unfold Regex.run
    congr 1
    funext s1 n1
    exact hk _ _ _ _
  | seq a b iha ihb =>
    intro k hk s n c1 c2
    unfold Regex.run
    exact iha _ (fun s1 n1 d1 d2 => ihb k hk s1 n1 d1 d2) s n c1 c2
  | alt a b iha ihb =>
    intro k hk s n c1 c2
    unfold Regex.run
    rw [iha k hk s n c1 c2, ihb k hk s n c1 c2]
  | opt a iha =>
    intro k hk s n c1 c2
    unfold Regex.run
    rw [iha k hk s n c1 c2, hk s n c1 c2]
  | group i a iha =>
    intro k hk s n c1 c2
    unfold Regex.run
    exact iha (fun s1 n1 d1 => k s1 n1 ((i, n, n1) :: d1))
      (fun s1 n1 d1 d2 => hk s1 n1 _ _) s n c1 c2

theorem repRun_shift {α : Type} (p : Char → Bool) (k : Str → Nat → Option α) (d : Nat)
    (s : Str) : ∀ (lo : Nat) (hi : Option Nat) (n : Nat),
    repRun p k lo hi s (n + d) = repRun p (fun s1 n1 => k s1 (n1 + d)) lo hi s n := by
  induction s with
  | nil => intro lo hi n; unfold repRun; rfl
  | cons ch t ih =>
    intro lo hi n
    unfold repRun
    rw [Nat.add_right_comm n d 1, ih]

/-- Running at an offset moved by `d` is running with a continuation that adds `d`. -/
theorem run_shift {α : Type} (re : Regex) (d : Nat) :
    ∀ (k : Str → Nat → Caps → Option α), CapsFree k →
      ∀ s n c, re.run s (n + d) c k = re.run s n c (fun s1 n1 c1 => k s1 (n1 + d) c1) := by
  induction re with
  | eps => intro k hk s n c; rfl
  | cls p =>
    intro k hk s n c
    unfold Regex.run
    cases s with
    | nil => rfl
    | cons ch t =>
      simp only
      rw [Nat.add_right_comm n d 1]
  | rep p lo hi =>
    intro k hk s n c
    unfold Regex.run
    exact repRun_shift p _ d s lo hi n
  | seq a b iha ihb =>
    intro k hk s n c
    unfold Regex.run
    rw [iha _ (fun s1 n1 d1 d2 => run_capsFree b k hk s1 n1 d1 d2)]
    congr 1
    funext s1 n1 c1
    exact ihb k hk s1 n1 c1
  | alt a b iha ihb =>
    intro k hk s n c
    unfold Regex.run
    rw [iha k hk, ihb k hk]
  | opt a iha =>
    intro k hk s n c
    unfold Regex.run
    rw [iha k hk]
  | group i a iha =>
    intro k hk s n c
    unfold Regex.run
    rw [iha (fun s1 n1 d1 => k s1 n1 ((i, n + d, n1) :: d1))
      (fun s1 n1 d1 d2 => hk s1 n1 _ _)]
    congr 1
    funext s1 n1 c1
    exact hk _ _ _ _

/-- The end offset of the match found by a run at offset `pos` is `pos` plus the match
length. -/
theorem run_fst_eq_matchLen (re : Regex) (s : Str) (pos : Nat) :
    (re.run s pos [] (fun _ n c => some (n, c))).map Prod.fst =
      (matchLen re s).map (fun l => l + pos) := by
  rw [run_map]
  have h := run_shift re pos (fun (_ : Str) n (_ : Caps) => some n) (fun _ _ _ _ => rfl) s 0 []
  rw [Nat.zero_add] at h
  simp only [Option.map_some']
  rw [h]
  unfold matchLen
  rw [run_map]
  rfl

/-! ## Searching -/

theorem run_eq_none_iff (re : Regex) (s : Str) (pos : Nat) :
    re.run s pos [] (fun _ n c => some (n, c)) = none ↔ matchLen re s = none := by
  have h := run_fst_eq_matchLen re s pos
  constructor
  · intro h1
    rw [h1] at h
    cases hm : matchLen re s with
    | none => rfl
    | some l => rw [hm] at h; exact Option.noConfusion h
  · intro h1
    rw [h1] at h
    cases hr : re.run s pos [] (fun _ n c => some (n, c)) with
    | none => rfl
    | some r => rw [hr] at h; exact Option.noConfusion h

theorem run_eq_some (re : Regex) (s : Str) (pos e : Nat) (c : Caps)
    (h : re.run s pos [] (fun _ n c => some (n, c)) = some (e, c)) :
    ∃ l, matchLen re s = some l ∧ e = l + pos := by
  have h1 := run_fst_eq_matchLen re s pos
  rw [h] at h1
  cases hm : matchLen re s with
  | none => rw [hm] at h1; exact Option.noConfusion h1
  | some l =>
    rw [hm] at h1
    exact ⟨l, rfl, Option.some.inj h1⟩

theorem run_of_matchLen (re : Regex) (s : Str) (pos l : Nat) (h : matchLen re s = some l) :
    ∃ c, re.run s pos [] (fun _ n c => some (n, c)) = some (l + pos, c) := by
  have h1 := run_fst_eq_matchLen re s pos
  rw [h] at h1
  cases hr : re.run s pos [] (fun _ n c => some (n, c)) with
  | none => rw [hr] at h1; exact Option.noConfusion h1
  | some r =>
    rw [hr] at h1
    obtain ⟨e, c⟩ := r
    have he : e = l + pos := Option.some.inj h1
    exact ⟨c, by rw [he]⟩

/-- What `search` finds, in terms of `findFirst`. -/
theorem search_eq_none_iff (re : Regex) (s : Str) :
    ∀ pos, search re s pos = none ↔ findFirst re s = none := by
  induction s with
  | nil =>
    intro pos
    unfold search findFirst
    cases hm : matchLen re [] with
    | none => simp [(run_eq_none_iff re [] pos).mpr hm]
    | some l =>
      obtain ⟨c, hc⟩ := run_of_matchLen re [] pos l hm
      simp [hc]
  | cons ch t ih =>
    intro pos
    unfold search findFirst
    cases hm : matchLen re (ch :: t) with
    | none =>
      simp only [(run_eq_none_iff re (ch :: t) pos).mpr hm, ih (pos + 1), Option.map_eq_none']
    | some l =>
      obtain ⟨c, hc⟩ := run_of_matchLen re (ch :: t) pos l hm
      simp [hc]

theorem search_of_findFirst (re : Regex) (s : Str) :
    ∀ pos i l, findFirst re s = some (i, l) →
      ∃ c, search re s pos = some (pos + i, pos + i + l, c) := by
  induction s with
  | nil =>
    intro pos i l h
    unfold findFirst at h
    cases hm : matchLen re [] with
    | none => rw [hm] at h; exact Option.noConfusion h
    | some l1 =>
      rw [hm] at h
      simp only [Option.map_some', Option.some.injEq, Prod.mk.injEq] at h
      obtain ⟨hi, hl⟩ := h
      subst hi hl
      obtain ⟨c, hc⟩ := run_of_matchLen re [] pos l1 hm
      refine ⟨c, ?_⟩
      unfold search
      simp only [hc, Nat.add_zero, Nat.add_comm]
  | cons ch t ih =>
    intro pos i l h
    unfold findFirst at h
    cases hm : matchLen re (ch :: t) with
    | some l1 =>
      rw [hm] at h
      simp only [Option.some.injEq, Prod.mk.injEq] at h
      obtain ⟨hi, hl⟩ := h
      subst hi hl
      obtain ⟨c, hc⟩ := run_of_matchLen re (ch :: t) pos l1 hm
      refine ⟨c, ?_⟩
      unfold search
      simp only [hc, Nat.add_zero, Nat.add_comm]
    | none =>
      rw [hm] at h
      cases hf : findFirst re t with
      | none => rw [hf] at h; exact Option.noConfusion h
      | some p =>
        rw [hf] at h
        obtain ⟨i1, l1⟩ := p
        simp only [Option.map_some', Option.some.injEq, Prod.mk.injEq] at h
        obtain ⟨hi, hl⟩ := h
        subst hi hl
        obtain ⟨c, hc⟩ := ih (pos + 1) i1 l1 hf
        refine ⟨c, ?_⟩
        unfold search
        simp only [(run_eq_none_iff re (ch :: t) pos).mpr hm, hc]
        have e1 : pos + 1 + i1 = pos + (i1 + 1) := by omega
        rw [e1]

/-- The position found by `findFirst` is the first at which the pattern matches. -/
theorem findFirst_eq_some (re : Regex) (s : Str) :
    ∀ i l, findFirst re s = some (i, l) →
      i ≤ s.length ∧ matchLen re (s.drop i) = some l ∧
        ∀ j, j < i → matchLen re (s.drop j) = none := by
  induction s with
  | nil =>
    intro i l h
    unfold findFirst at h
    cases hm : matchLen re [] with
    | none => rw [hm] at h; exact Option.noConfusion h
    | some l1 =>
      rw [hm] at h
      simp only [Option.map_some', Option.some.injEq, Prod.mk.injEq] at h
      obtain ⟨hi, hl⟩ := h
      subst hi hl
      exact ⟨Nat.le_refl _, hm, fun j hj => absurd hj (Nat.not_lt_zero j)⟩
  | cons ch t ih =>
    intro i l h
    unfold findFirst at h
    cases hm : matchLen re (ch :: t) with
    | some l1 =>
      rw [hm] at h
      simp only [Option.some.injEq, Prod.mk.injEq] at h
      obtain ⟨hi, hl⟩ := h
      subst hi hl
      exact ⟨Nat.zero_le _, hm, fun j hj => absurd hj (Nat.not_lt_zero j)⟩
    | none =>
      rw [hm] at h
      cases hf : findFirst re t with
      | none => rw [hf] at h; exact Option.noConfusion h
      | some p =>
        rw [hf] at h
        obtain ⟨i1, l1⟩ := p
        simp only [Option.map_some', Option.some.injEq, Prod.mk.injEq] at h
        obtain ⟨hi, hl⟩ := h
        subst hi hl
        obtain ⟨h1, h2, h3⟩ := ih i1 l1 hf
        refine ⟨by simp only [List.length_cons]; omega, h2, ?_⟩
        intro j hj
        cases j with
        | zero => exact hm
        | succ j1 => exact h3 j1 (by omega)

theorem findFirst_eq_none (re : Regex) (s : Str) :
    findFirst re s = none ↔ ∀ j, j ≤ s.length → matchLen re (s.drop j) = none := by
  induction s with
  | nil =>
    unfold findFirst
    constructor
    · intro h j hj
      have hj0 : j = 0 := by simpa using hj
      subst hj0
      simpa using h
    · intro h
      have := h 0 (Nat.le_refl _)
      simp only [List.drop_zero] at this
      simp [this]
  | cons ch t ih =>
    unfold findFirst
    constructor
    · intro h j hj
      cases hm : matchLen re (ch :: t) with
      | some l => rw [hm] at h; exact Option.noConfusion h
      | none =>
        rw [hm] at h
        have hf : findFirst re t = none := by simpa using h
        cases j with
        | zero => exact hm
        | succ j1 => exact ih.mp hf j1 (by simpa using hj)
    · intro h
      have h0 := h 0 (Nat.zero_le _)
      simp only [List.drop_zero] at h0
      rw [h0]
      have hf : findFirst re t = none := ih.mpr (fun j hj => h (j + 1) (by simpa using hj))
      simp [hf]

/-! ## Unrolling `allMatches`, `FindAllString` and `Split` -/

theorem matchLen_le (re : Regex) (s : Str) (l : Nat) (h : matchLen re s = some l) :
    l ≤ s.length := by
  unfold matchLen at h
  obtain ⟨s1, n1, c1, _, hlen, hk⟩ := run_forward re s 0 [] _ l h
  have : n1 = l := Option.some.inj hk
  omega

theorem findFirst_pos (re : Regex) (hne : NoEmptyMatch re) (s : Str) (i l : Nat)
    (h : findFirst re s = some (i, l)) : 0 < l ∧ i + l ≤ s.length := by
  obtain ⟨h1, h2, _⟩ := findFirst_eq_some re s i l h
  have h3 := matchLen_le re _ l h2
  rw [List.length_drop] at h3
  refine ⟨Nat.pos_of_ne_zero ?_, by omega⟩
  intro h0
  exact hne (s.drop i) (h0 ▸ h2)

theorem spans_cons (m : Nat × Nat × Caps) (ms : List (Nat × Nat × Caps)) :
    spans (m :: ms) = (m.1, m.2.1) :: spans ms := rfl

theorem allMatchesLoop_shift (re : Regex) (hne : NoEmptyMatch re) :
    ∀ (fuel : Nat) (s : Str) (pos : Nat) (prev1 prev2 : Option Nat), pos ≤ s.length →
      spans (allMatchesLoop re s fuel pos prev1) =
        (spans (allMatchesLoop re (s.drop pos) fuel 0 prev2)).map
          (fun p => (p.1 + pos, p.2 + pos)) := by
  intro fuel
  induction fuel with
  | zero => intro s pos prev1 prev2 _; rfl
  | succ f ih =>
    intro s pos prev1 prev2 hpos
    unfold allMatchesLoop
    simp only [hpos, if_true, Nat.zero_le, List.drop_zero]
    cases hf : findFirst re (s.drop pos) with
    | none =>
      rw [(search_eq_none_iff re _ pos).mpr hf, (search_eq_none_iff re _ 0).mpr hf]
      rfl
    | some p =>
      obtain ⟨i, l⟩ := p
      obtain ⟨hl, hil⟩ := findFirst_pos re hne _ i l hf
      rw [List.length_drop] at hil
      obtain ⟨c1, hc1⟩ := search_of_findFirst re _ pos i l hf
      obtain ⟨c2, hc2⟩ := search_of_findFirst re _ 0 i l hf
      rw [hc1, hc2]
      simp only [Nat.zero_add]
      have e1 : ¬ (pos + i + l = pos) := by omega
      have e2 : ¬ (i + l = 0) := by omega
      simp only [e1, e2, if_false]
      have h1 := ih s (pos + i + l) (some (pos + i + l)) none (by omega)
      have h2 := ih (s.drop pos) (i + l) (some (i + l)) none
        (by rw [List.length_drop]; omega)
      rw [spans_cons, spans_cons, List.map_cons, h1, h2, List.drop_drop, List.map_map]
      have e3 : pos + (i + l) = pos + i + l := by omega
      rw [e3]
      refine congrArg₂ List.cons ?_ ?_
      · simp only [Prod.mk.injEq]
        omega
      · apply List.map_congr_left
        intro m _
        simp only [Function.comp, Prod.mk.injEq]
        omega

/-- The matches of a pattern that never matches the empty string: the first match, then the
matches of the text after it. -/
theorem spans_allMatches_cons (re : Regex) (hne : NoEmptyMatch re) (s : Str) (i l : Nat)
    (hf : findFirst re s = some (i, l)) :
    spans (allMatches re s) =
      (i, i + l) :: (spans (allMatches re (s.drop (i + l)))).map
        (fun p => (p.1 + (i + l), p.2 + (i + l))) := by
  obtain ⟨hl, hil⟩ := findFirst_pos re hne s i l hf
  obtain ⟨c, hc⟩ := search_of_findFirst re s 0 i l hf
  unfold allMatches
  have hstep : allMatchesLoop re s (s.length + 2) 0 none =
      (i, i + l, c) :: allMatchesLoop re s (s.length + 1) (i + l) (some (i + l)) := by
    rw [allMatchesLoop]
    simp only [Nat.zero_le, if_true, List.drop_zero, hc, Nat.zero_add]
    have e2 : ¬ (i + l = 0) := by omega
    simp only [e2, if_false]
  rw [hstep, spans_cons]
  have h1 := allMatchesLoop_shift re hne (s.length + 1) s (i + l) (some (i + l)) none hil
  rw [h1]
  have h2 := allMatchesLoop_fuel re (s.drop (i + l)) (s.length + 1)
    ((s.drop (i + l)).length + 2) 0 none (by rw [List.length_drop]; omega) (by omega)
  rw [h2]

theorem allMatches_eq_nil (re : Regex) (s : Str) (hf : findFirst re s = none) :
    allMatches re s = [] := by
  unfold allMatches
  rw [allMatchesLoop]
  simp only [Nat.zero_le, if_true, List.drop_zero, (search_eq_none_iff re s 0).mpr hf]

theorem slice_shift (s : Str) (a b e : Nat) :
    slice s (a + e) (b + e) = slice (s.drop e) a b := by
  unfold slice
  rw [List.drop_drop, Nat.add_comm e a]
  have : b + e - (a + e) = b - a := by omega
  rw [this]

theorem FindAllString_none (re : Regex) (s : Str) (hf : findFirst re s = none) :
    re.FindAllString s = [] := by
  unfold Regex.FindAllString
  rw [allMatches_eq_nil re s hf]
  rfl

theorem FindAllString_eq_spans (re : Regex) (s : Str) :
    re.FindAllString s = (spans (allMatches re s)).map (fun p => slice s p.1 p.2) := by
  unfold Regex.FindAllString spans
  rw [List.map_map]
  rfl

/-- `FindAllString`: the first match, then the matches of the text after it. -/
theorem FindAllString_some (re : Regex) (hne : NoEmptyMatch re) (s : Str) (i l : Nat)
    (hf : findFirst re s = some (i, l)) :
    re.FindAllString s = (s.drop i).take l :: re.FindAllString (s.drop (i + l)) := by
  rw [FindAllString_eq_spans, FindAllString_eq_spans, spans_allMatches_cons re hne s i l hf,
    List.map_cons, List.map_map]
  refine congrArg₂ List.cons ?_ ?_
  · unfold slice
    simp
  · apply List.map_congr_left
    intro m _
    simp only [Function.comp]
    exact slice_shift s m.1 m.2 (i + l)

theorem findFirst_of_matchLen (re : Regex) (s : Str) (l : Nat) (h : matchLen re s = some l) :
    findFirst re s = some (0, l) := by
  cases s with
  | nil => simp [findFirst, h]
  | cons c t => simp [findFirst, h]

theorem findFirst_cons_none (re : Regex) (c : Char) (t : Str)
    (h : matchLen re (c :: t) = none) :
    findFirst re (c :: t) = (findFirst re t).map (fun p => (p.1 + 1, p.2)) := by
  simp [findFirst, h]

theorem matchLen_nil (re : Regex) (hne : NoEmptyMatch re) : matchLen re [] = none := by
  cases h : matchLen re [] with
  | none => rfl
  | some l =>
    have hl := matchLen_le re [] l h
    have : l = 0 := by simpa using hl
    exact absurd (this ▸ h) (hne [])

/-- `FindAllString` when the pattern matches at the head of the text. -/
theorem FindAllString_head (re : Regex) (hne : NoEmptyMatch re) (s : Str) (l : Nat)
    (h : matchLen re s = some l) :
    re.FindAllString s = s.take l :: re.FindAllString (s.drop l) := by
  have := FindAllString_some re hne s 0 l (findFirst_of_matchLen re s l h)
  simpa using this

/-- `FindAllString` when the pattern does not match at the head of the text. -/
theorem FindAllString_skip (re : Regex) (hne : NoEmptyMatch re) (c : Char) (t : Str)
    (h : matchLen re (c :: t) = none) :
    re.FindAllString (c :: t) = re.FindAllString t := by
  cases hf : findFirst re t with
  | none =>
    rw [FindAllString_none re t hf, FindAllString_none re (c :: t)]
    rw [findFirst_cons_none re c t h, hf]
    rfl
  | some p =>
    obtain ⟨i, l⟩ := p
    have hf2 : findFirst re (c :: t) = some (i + 1, l) := by
      rw [findFirst_cons_none re c t h, hf]
      rfl
    rw [FindAllString_some re hne t i l hf, FindAllString_some re hne (c :: t) (i + 1) l hf2]
    have e : i + 1 + l = (i + l) + 1 := by omega
    rw [e]
    rfl

theorem allMatchesLoop_mem_search (re : Regex) (s : Str) :
    ∀ (fuel pos : Nat) (prev : Option Nat) (m : Nat × Nat × Caps),
      m ∈ allMatchesLoop re s fuel pos prev →
      ∃ pos1, search re (s.drop pos1) pos1 = some m := by
  intro fuel
  induction fuel with
  | zero => intro pos prev m hm; simp [allMatchesLoop] at hm
  | succ f ih =>
    intro pos prev m hm
    unfold allMatchesLoop at hm
    split at hm
    · cases hsr : search re (s.drop pos) pos with
      | none => rw [hsr] at hm; simp at hm
      | some r =>
        obtain ⟨b, e, c⟩ := r
        rw [hsr] at hm
        simp only at hm
        split at hm
        · split at hm
          · exact ih _ _ m hm
          · rcases List.mem_cons.mp hm with h | h
            · exact ⟨pos, h ▸ hsr⟩
            · exact ih _ _ m h
        · rcases List.mem_cons.mp hm with h | h
          · exact ⟨pos, h ▸ hsr⟩
          · exact ih _ _ m h
    · simp at hm

theorem search_end_pos (re : Regex) (hne : NoEmptyMatch re) (s : Str) (pos : Nat)
    (m : Nat × Nat × Caps) (h : search re s pos = some m) : m.2.1 ≠ 0 := by
  cases hf : findFirst re s with
  | none =>
    rw [(search_eq_none_iff re s pos).mpr hf] at h
    exact Option.noConfusion h
  | some p =>
    obtain ⟨i, l⟩ := p
    obtain ⟨hl, _⟩ := findFirst_pos re hne s i l hf
    obtain ⟨c, hc⟩ := search_of_findFirst re s pos i l hf
    rw [hc] at h
    have := Option.some.inj h
    subst this
    simp only
    omega

theorem allMatches_end_pos (re : Regex) (hne : NoEmptyMatch re) (s : Str) :
    ∀ m ∈ allMatches re s, m.2.1 ≠ 0 := by
  intro m hm
  obtain ⟨pos1, h⟩ := allMatchesLoop_mem_search re s _ _ _ m hm
  exact search_end_pos re hne _ pos1 m h

theorem splitLoop_shift (s : Str) (e : Nat) (he : e ≤ s.length) :
    ∀ (ms2 ms1 : List (Nat × Nat × Caps)) (beg en1 en2 : Nat),
      spans ms1 = (spans ms2).map (fun p => (p.1 + e, p.2 + e)) →
      (∀ m ∈ ms2, m.2.1 ≠ 0) →
      ((en1 ≠ s.length) ↔ (en2 ≠ (s.drop e).length)) →
      splitLoop s ms1 (beg + e) en1 = splitLoop (s.drop e) ms2 beg en2 := by
  intro ms2
  induction ms2 with
  | nil =>
    intro ms1 beg en1 en2 hsp _ hen
    have h1 : ms1 = [] := by
      cases ms1 with
      | nil => rfl
      | cons a r => simp [spans] at hsp
    subst h1
    unfold splitLoop
    by_cases h : en1 ≠ s.length
    · rw [if_pos h, if_pos (hen.mp h), List.drop_drop, Nat.add_comm]
    · have h2 : ¬ (en2 ≠ (s.drop e).length) := fun h3 => h (hen.mpr h3)
      rw [if_neg h, if_neg h2]
  | cons m2 r2 ih =>
    intro ms1 beg en1 en2 hsp hpos hen
    cases ms1 with
    | nil => simp [spans] at hsp
    | cons m1 r1 =>
      obtain ⟨b1, e1, c1⟩ := m1
      obtain ⟨b2, e2, c2⟩ := m2
      rw [spans_cons, spans_cons, List.map_cons] at hsp
      have hhead := (List.cons.inj hsp).1
      have htail := (List.cons.inj hsp).2
      simp only [Prod.mk.injEq] at hhead
      obtain ⟨hb, hee⟩ := hhead
      subst hb hee
      have h2 : e2 ≠ 0 := hpos (b2, e2, c2) (List.mem_cons_self _ _)
      have h1 : e2 + e ≠ 0 := by omega
      unfold splitLoop
      simp only [h1, h2, ne_eq, not_false_eq_true, if_true]
      rw [slice_shift]
      refine congrArg₂ List.cons rfl ?_
      apply ih r1 e2 (b2 + e) b2 htail
        (fun m hm => hpos m (List.mem_cons_of_mem _ hm))
      rw [List.length_drop]
      omega

/-- `Split` when the pattern matches nowhere in the text. -/
theorem Split_none (re : Regex) (s : Str) (hf : findFirst re s = none) :
    re.Split false s = [s] := by
  unfold Regex.Split
  rw [allMatches_eq_nil re s hf]
  by_cases h : s.length = 0
  · simp [h, List.length_eq_zero.mp h]
  · have h2 : ¬ (0 = s.length) := fun h0 => h h0.symm
    simp [h, h2, splitLoop]

/-- `Split`: the text before the first match, then the pieces of the text after it. -/
theorem Split_some (re : Regex) (hne : NoEmptyMatch re) (s : Str) (i l : Nat)
    (hf : findFirst re s = some (i, l)) :
    re.Split false s = s.take i :: re.Split false (s.drop (i + l)) := by
  obtain ⟨hl, hil⟩ := findFirst_pos re hne s i l hf
  have hsp := spans_allMatches_cons re hne s i l hf
  have hlen : ¬ (s.length = 0) := by omega
  cases hall : allMatches re s with
  | nil => rw [hall] at hsp; simp [spans] at hsp
  | cons m rest =>
    obtain ⟨b, e, c⟩ := m
    rw [hall, spans_cons] at hsp
    have hhead := (List.cons.inj hsp).1
    have htail := (List.cons.inj hsp).2
    simp only [Prod.mk.injEq] at hhead
    obtain ⟨hb, hee⟩ := hhead
    subst hb hee
    have hne0 : b + l ≠ 0 := by omega
    have hstep : re.Split false s = slice s 0 b :: splitLoop s rest (b + l) b := by
      unfold Regex.Split
      rw [hall]
      simp only [hlen, and_false, if_false]
      rw [splitLoop]
      simp only [hne0, ne_eq, not_false_eq_true, if_true]
    rw [hstep]
    refine congrArg₂ List.cons (by simp [slice]) ?_
    by_cases hrest : (s.drop (b + l)).length = 0
    · have hnil : s.drop (b + l) = [] := List.length_eq_zero.mp hrest
      have hm : allMatches re (s.drop (b + l)) = [] := by
        rw [hnil]
        apply allMatches_eq_nil
        simp [findFirst, matchLen_nil re hne]
      rw [hm] at htail
      have hr : rest = [] := by
        cases rest with
        | nil => rfl
        | cons a r => simp [spans] at htail
      subst hr
      have hb : b ≠ s.length := by omega
      unfold Regex.Split
      simp [splitLoop, hb, hnil]
    · have h := splitLoop_shift s (b + l) hil (allMatches re (s.drop (b + l))) rest 0 b 0
        htail (allMatches_end_pos re hne _) (by
          constructor
          · intro _ h0; exact hrest h0.symm
          · intro _; omega)
      rw [Nat.zero_add] at h
      rw [h]
      unfold Regex.Split
      simp only [hrest, and_false, if_false]

/-- `Split` when the pattern matches at the head of the text. -/
theorem Split_head (re : Regex) (hne : NoEmptyMatch re) (s : Str) (l : Nat)
    (h : matchLen re s = some l) :
    re.Split false s = [] :: re.Split false (s.drop l) := by
  have := Split_some re hne s 0 l (findFirst_of_matchLen re s l h)
  simpa using this

theorem Split_ne_nil (re : Regex) (hne : NoEmptyMatch re) (s : Str) :
    re.Split false s ≠ [] := by
  cases hf : findFirst re s with
  | none => rw [Split_none re s hf]; simp
  | some p =>
    obtain ⟨i, l⟩ := p
    rw [Split_some re hne s i l hf]
    simp

/-- `Split` when the pattern does not match at the head of the text: the first character
joins the first piece of the rest. -/
theorem Split_skip (re : Regex) (hne : NoEmptyMatch re) (c : Char) (t : Str)
    (h : matchLen re (c :: t) = none) :
    ∃ hd tl, re.Split false t = hd :: tl ∧ re.Split false (c :: t) = (c :: hd) :: tl := by
  cases hf : findFirst re t with
  | none =>
    refine ⟨t, [], Split_none re t hf, ?_⟩
    apply Split_none
    rw [findFirst_cons_none re c t h, hf]
    rfl
  | some p =>
    obtain ⟨i, l⟩ := p
    have hf2 : findFirst re (c :: t) = some (i + 1, l) := by
      rw [findFirst_cons_none re c t h, hf]
      rfl
    refine ⟨t.take i, re.Split false (t.drop (i + l)), Split_some re hne t i l hf, ?_⟩
    rw [Split_some re hne (c :: t) (i + 1) l hf2]
    have e : i + 1 + l = (i + l) + 1 := by omega
    rw [e]
    rfl

/-! ## The matcher against the language of a pattern -/

theorem repRun_sound {α : Type} (p : Char → Bool) (k : Str → Nat → Option α) (s : Str) :
    ∀ (lo : Nat) (hi : Option Nat) (n : Nat) (r : α), repRun p k lo hi s n = some r →
      ∃ m, m ≤ s.length ∧ (∀ x ∈ s.take m, p x = true) ∧ lo ≤ m ∧
        (∀ h, hi = some h → m ≤ h) ∧ k (s.drop m) (n + m) = some r := by
  induction s with
  | nil =>
    intro lo hi n r h
    unfold repRun at h
    split at h
    · rename_i hlo
      exact ⟨0, Nat.le_refl _, by simp, by omega, fun _ _ => Nat.zero_le _, h⟩
    · exact Option.noConfusion h
  | cons ch t ih =>
    intro lo hi n r h
    have hzero : ∀ (hlo : lo = 0) (hk : k (ch :: t) n = some r),
        ∃ m, m ≤ (ch :: t).length ∧ (∀ x ∈ (ch :: t).take m, p x = true) ∧ lo ≤ m ∧
          (∀ h, hi = some h → m ≤ h) ∧ k ((ch :: t).drop m) (n + m) = some r :=
      fun hlo hk => ⟨0, Nat.zero_le _, by simp, by omega, fun _ _ => Nat.zero_le _, hk⟩
    unfold repRun at h
    split at h
    · rename_i hp
      split at h
      · rename_i r1 h1
        have hr : r1 = r := Option.some.inj h
        subst hr
        obtain ⟨m, hm, hall, hlo, hhi, hk⟩ := ih _ _ _ _ h1
        refine ⟨m + 1, by simp only [List.length_cons]; omega, ?_, by omega, ?_, ?_⟩
        · intro x hx
          rw [List.take_succ_cons] at hx
          rcases List.mem_cons.mp hx with hx | hx
          · exact hx ▸ hp.1
          · exact hall x hx
        · intro h0 hh
          have hne : h0 ≠ 0 := fun h00 => hp.2 (h00 ▸ hh)
          have := hhi (h0 - 1) (by rw [hh]; rfl)
          omega
        · rw [List.drop_succ_cons]
          have e : n + (m + 1) = n + 1 + m := by omega
          rw [e]
          exact hk
      · split at h
        · rename_i hlo
          exact hzero hlo h
        · exact Option.noConfusion h
    · split at h
      · rename_i hlo
        exact hzero hlo h
      · exact Option.noConfusion h

/-- Soundness: a successful run has consumed a prefix that belongs to the language of the
pattern and has called its continuation on the rest. -/
theorem run_sound {α : Type} (re : Regex) :
    ∀ (s : Str) (n : Nat) (c : Caps) (k : Str → Nat → Caps → Option α) (r : α),
      re.run s n c k = some r →
      ∃ m, m ≤ s.length ∧ re.lang (s.take m) ∧ ∃ c1, k (s.drop m) (n + m) c1 = some r := by
  induction re with
  | eps =>
    intro s n c k r h
    exact ⟨0, Nat.zero_le _, by simp [Regex.lang], c, h⟩
  | cls p =>
    intro s n c k r h
    unfold Regex.run at h
    cases s with
    | nil => exact Option.noConfusion h
    | cons ch t =>
      simp only at h
      split at h
      · rename_i hp
        exact ⟨1, by simp, ⟨ch, by simp, hp⟩, c, h⟩
      · exact Option.noConfusion h
  | rep p lo hi =>
    intro s n c k r h
    unfold Regex.run at h
    obtain ⟨m, hm, hall, hlo, hhi, hk⟩ := repRun_sound p _ s lo hi n r h
    refine ⟨m, hm, ⟨hall, ?_, ?_⟩, c, hk⟩
    · rw [List.length_take]; omega
    · intro h0 hh
      rw [List.length_take]
      have := hhi h0 hh
      omega
  | seq a b iha ihb =>
    intro s n c k r h
    unfold Regex.run at h
    obtain ⟨m1, hm1, hl1, c1, hk1⟩ := iha s n c _ r h
    obtain ⟨m2, hm2, hl2, c2, hk2⟩ := ihb _ _ _ k r hk1
    rw [List.length_drop] at hm2
    refine ⟨m1 + m2, by omega, ⟨s.take m1, (s.drop m1).take m2, ?_, hl1, hl2⟩, c2, ?_⟩
    · exact List.take_add s m1 m2
    · rw [List.drop_drop, Nat.add_assoc] at hk2
      exact hk2
  | alt a b iha ihb =>
    intro s n c k r h
    unfold Regex.run at h
    split at h
    · rename_i r1 h1
      obtain ⟨m, hm, hl, hk⟩ := iha s n c k r (h1.trans h)
      exact ⟨m, hm, Or.inl hl, hk⟩
    · obtain ⟨m, hm, hl, hk⟩ := ihb s n c k r h
      exact ⟨m, hm, Or.inr hl, hk⟩
  | opt a iha =>
    intro s n c k r h
    unfold Regex.run at h
    split at h
    · rename_i r1 h1
      obtain ⟨m, hm, hl, hk⟩ := iha s n c k r (h1.trans h)
      exact ⟨m, hm, Or.inr hl, hk⟩
    · exact ⟨0, Nat.zero_le _, Or.inl (by simp), c, h⟩
  | group i a iha =>
    intro s n c k r h
    unfold Regex.run at h
    obtain ⟨m, hm, hl, c1, hk⟩ := iha s n c _ r h
    exact ⟨m, hm, hl, _, hk⟩

theorem repRun_complete {α : Type} (p : Char → Bool) (k : Str → Nat → Option α) (rest : Str)
    (u : Str) : ∀ (lo : Nat) (hi : Option Nat) (n : Nat),
      (∀ x ∈ u, p x = true) → lo ≤ u.length → (∀ h, hi = some h → u.length ≤ h) →
      (k rest (n + u.length)).isSome = true →
      (repRun p k lo hi (u ++ rest) n).isSome = true := by
  induction u with
  | nil =>
    intro lo hi n _ hlo _ hk
    have hlo0 : lo = 0 := by simpa using hlo
    simp only [List.length_nil, Nat.add_zero] at hk
    rw [List.nil_append]
    cases rest with
    | nil => unfold repRun; simp [hlo0, hk]
    | cons ch t =>
      unfold repRun
      split
      · split
        · rfl
        · simp [hlo0, hk]
      · simp [hlo0, hk]
  | cons x u ih =>
    intro lo hi n hall hlo hhi hk
    rw [List.cons_append]
    unfold repRun
    have hp : p x = true := hall x (List.mem_cons_self _ _)
    have hne : hi ≠ some 0 := by
      intro h0
      have := hhi 0 h0
      simp at this
    have hin := ih (lo - 1) (hi.map (· - 1)) (n + 1)
      (fun y hy => hall y (List.mem_cons_of_mem _ hy))
      (by simp only [List.length_cons] at hlo; omega)
      (by
        intro h0 hh
        cases hi with
        | none => simp at hh
        | some h1 =>
          simp only [Option.map_some', Option.some.injEq] at hh
          have := hhi h1 rfl
          simp only [List.length_cons] at this
          omega)
      (by
        have e : n + 1 + u.length = n + (x :: u).length := by
          simp only [List.length_cons]; omega
        rw [e]
        exact hk)
    simp only [hp, hne, ne_eq, not_false_eq_true, and_self, if_true]
    cases hr : repRun p k (lo - 1) (Option.map (fun x => x - 1) hi) (u ++ rest) (n + 1) with
    | none => rw [hr] at hin; simp at hin
    | some r => rfl

/-- Completeness: when the text begins with a string of the language of the pattern and the
continuation succeeds after it, the run succeeds. -/
theorem run_complete {α : Type} (re : Regex) :
    ∀ (u rest : Str) (n : Nat) (c : Caps) (k : Str → Nat → Caps → Option α),
      re.lang u → (∀ c1, (k rest (n + u.length) c1).isSome = true) →
      (re.run (u ++ rest) n c k).isSome = true := by
  induction re with
  | eps =>
    intro u rest n c k hl hk
    have hu : u = [] := hl
    subst hu
    exact hk c
  | cls p =>
    intro u rest n c k hl hk
    obtain ⟨ch, hu, hp⟩ := hl
    subst hu
    unfold Regex.run
    simp only [List.singleton_append, hp, if_true]
    exact hk c
  | rep p lo hi =>
    intro u rest n c k hl hk
    obtain ⟨hall, hlo, hhi⟩ := hl
    unfold Regex.run
    exact repRun_complete p _ rest u lo hi n hall hlo hhi (hk c)
  | seq a b iha ihb =>
    intro u rest n c k hl hk
    obtain ⟨u1, u2, hu, h1, h2⟩ := hl
    subst hu
    unfold Regex.run
    rw [List.append_assoc]
    apply iha u1 (u2 ++ rest) n c _ h1
    intro c1
    apply ihb u2 rest (n + u1.length) c1 k h2
    intro c2
    have := hk c2
    rw [List.length_append, ← Nat.add_assoc] at this
    exact this
  | alt a b iha ihb =>
    intro u rest n c k hl hk
    unfold Regex.run
    cases ha : a.run (u ++ rest) n c k with
    | some r => rfl
    | none =>
      rcases hl with hl | hl
      · have := iha u rest n c k hl hk
        rw [ha] at this
        simp at this
      · exact ihb u rest n c k hl hk
  | opt a iha =>
    intro u rest n c k hl hk
    unfold Regex.run
    cases ha : a.run (u ++ rest) n c k with
    | some r => rfl
    | none =>
      rcases hl with hl | hl
      · subst hl
        exact hk c
      · have := iha u rest n c k hl hk
        rw [ha] at this
        simp at this
  | group i a iha =>
    intro u rest n c k hl hk
    unfold Regex.run
    exact iha u rest n c _ hl (fun c1 => hk _)

theorem matchLen_sound (re : Regex) (s : Str) (l : Nat) (h : matchLen re s = some l) :
    l ≤ s.length ∧ re.lang (s.take l) := by
  unfold matchLen at h
  obtain ⟨m, hm, hl, c1, hk⟩ := run_sound re s 0 [] _ l h
  have : 0 + m = l := Option.some.inj hk
  rw [Nat.zero_add] at this
  subst this
  exact ⟨hm, hl⟩

theorem matchLen_complete (re : Regex) (u rest : Str) (h : re.lang u) :
    matchLen re (u ++ rest) ≠ none := by
  have := run_complete re u rest 0 [] (fun _ n _ => some n) h (fun _ => rfl)
  unfold matchLen
  intro h0
  rw [h0] at this
  simp at this

/-- A pattern whose language does not hold the empty string never matches it. -/
theorem noEmptyMatch_of_lang (re : Regex) (h : ¬ re.lang []) : NoEmptyMatch re := by
  intro s hs
  have := (matchLen_sound re s 0 hs).2
  rw [List.take_zero] at this
  exact h this

/-- When the pattern matches somewhere inside `s`, `findFirst` finds a match. -/
theorem findFirst_of_lang (re : Regex) (a u b : Str) (h : re.lang u) :
    findFirst re (a ++ u ++ b) ≠ none := by
  intro hf
  have h1 := (findFirst_eq_none re (a ++ u ++ b)).mp hf a.length (by simp)
  rw [List.append_assoc, List.drop_left] at h1
  exact matchLen_complete re u b h h1

/-- Every match found by `findFirst` is a string of the language at that position. -/
theorem findFirst_sound (re : Regex) (s : Str) (i l : Nat) (h : findFirst re s = some (i, l)) :
    s = s.take i ++ (s.drop i).take l ++ s.drop (i + l) ∧ re.lang ((s.drop i).take l) := by
  obtain ⟨_, h2, _⟩ := findFirst_eq_some re s i l h
  obtain ⟨_, hl⟩ := matchLen_sound re _ l h2
  refine ⟨?_, hl⟩
  rw [List.append_assoc, ← List.drop_drop, List.take_append_drop, List.take_append_drop]

/-! ## The pattern of `unsplitParts` -/

theorem lang_lit (q u : Str) : (Regex.lit q).lang u ↔ u = q := by
  induction q generalizing u with
  | nil => simp [Regex.lit, Regex.lang]
  | cons c q ih =>
    simp only [Regex.lit, Regex.lang, Regex.chr, ih]
    constructor
    · rintro ⟨u1, u2, hu, ⟨ch, h1, h2⟩, h3⟩
      have : ch = c := by simpa using h2
      subst this h1 h3 hu
      rfl
    · intro h
      exact ⟨[c], q, by simp [h], ⟨c, rfl, by simp⟩, rfl⟩

theorem lang_altOf (r : Regex) (rs : List Regex) (u : Str) :
    (Regex.altOf r rs).lang u ↔ r.lang u ∨ ∃ r1 ∈ rs, r1.lang u := by
  induction rs generalizing r with
  | nil => simp [Regex.altOf]
  | cons r1 rs ih =>
    simp only [Regex.altOf, Regex.lang, ih, List.mem_cons, exists_eq_or_imp]

theorem lang_alternation (q : Str) (qs : List Str) (u : Str) :
    (Regex.altOf (Regex.lit q) (qs.map Regex.lit)).lang u ↔ u ∈ q :: qs := by
  rw [lang_altOf, lang_lit, List.mem_cons]
  constructor
  · rintro (h | ⟨r1, hr1, h⟩)
    · exact Or.inl h
    · obtain ⟨x, hx, rfl⟩ := List.mem_map.mp hr1
      exact Or.inr ((lang_lit x u).mp h ▸ hx)
  · rintro (h | h)
    · exact Or.inl h
    · exact Or.inr ⟨Regex.lit u, List.mem_map.mpr ⟨u, h, rfl⟩, (lang_lit u u).mpr rfl⟩

theorem noEmptyMatch_alternation (q : Str) (qs : List Str) (h : ∀ m ∈ q :: qs, m ≠ []) :
    NoEmptyMatch (Regex.altOf (Regex.lit q) (qs.map Regex.lit)) := by
  apply noEmptyMatch_of_lang
  rw [lang_alternation]
  intro hmem
  exact h [] hmem rfl

/-- Splitting on an alternation of non-empty literals: the fragments interleave with
literals to give the text, and no fragment contains a literal. -/
theorem Split_alternation (q : Str) (qs : List Str) (h : ∀ m ∈ q :: qs, m ≠ []) :
    ∀ (n : Nat) (s : Str), s.length ≤ n →
      Interleaves (q :: qs) s
          ((Regex.altOf (Regex.lit q) (qs.map Regex.lit)).Split false s) ∧
        ∀ f ∈ (Regex.altOf (Regex.lit q) (qs.map Regex.lit)).Split false s,
          ∀ m ∈ q :: qs, ¬ m <:+: f := by
  have hne := noEmptyMatch_alternation q qs h
  intro n
  induction n with
  | zero =>
    intro s hs
    have hnil : s = [] := List.length_eq_zero.mp (Nat.le_zero.mp hs)
    subst hnil
    have hf : findFirst (Regex.altOf (Regex.lit q) (qs.map Regex.lit)) [] = none := by
      simp [findFirst, matchLen_nil _ hne]
    rw [Split_none _ _ hf]
    refine ⟨Interleaves.last [], ?_⟩
    intro f hf1 m hm hinf
    rw [List.mem_singleton] at hf1
    subst hf1
    exact h m hm (List.eq_nil_of_infix_nil hinf)
  | succ n ih =>
    intro s hs
    cases hf : findFirst (Regex.altOf (Regex.lit q) (qs.map Regex.lit)) s with
    | none =>
      rw [Split_none _ _ hf]
      refine ⟨Interleaves.last s, ?_⟩
      intro f hf1 m hm hinf
      rw [List.mem_singleton] at hf1
      subst hf1
      obtain ⟨a, b, hab⟩ := hinf
      have := findFirst_of_lang (Regex.altOf (Regex.lit q) (qs.map Regex.lit)) a m b
        ((lang_alternation q qs m).mpr hm)
      rw [hab] at this
      exact this hf
    | some p =>
      obtain ⟨i, l⟩ := p
      obtain ⟨hl, hil⟩ := findFirst_pos _ hne s i l hf
      obtain ⟨hdec, hlang⟩ := findFirst_sound _ s i l hf
      obtain ⟨_, _, hbefore⟩ := findFirst_eq_some _ s i l hf
      rw [Split_some _ hne s i l hf]
      obtain ⟨ih1, ih2⟩ := ih (s.drop (i + l)) (by rw [List.length_drop]; omega)
      refine ⟨?_, ?_⟩
      · have hI := Interleaves.cons (s.take i) ((s.drop i).take l) (s.drop (i + l)) _
          ((lang_alternation q qs _).mp hlang) ih1
        rw [← hdec] at hI
        exact hI
      · intro f hf1 m hm hinf
        rcases List.mem_cons.mp hf1 with hf1 | hf1
        · subst hf1
          obtain ⟨a, b, hab⟩ := hinf
          have hmne : m ≠ [] := h m hm
          have hlen : (a ++ m ++ b).length = (s.take i).length := by rw [hab]
          simp only [List.length_append, List.length_take] at hlen
          have hmpos : 0 < m.length := List.length_pos.mpr hmne
          have ha : a.length < i := by omega
          have hnone := hbefore a.length ha
          have hs2 : s = a ++ (m ++ (b ++ s.drop i)) := by
            conv_lhs => rw [← List.take_append_drop i s, ← hab]
            simp only [List.append_assoc]
          rw [hs2, List.drop_left] at hnone
          exact matchLen_complete _ m _ ((lang_alternation q qs m).mpr hm) hnone
        · exact ih2 f hf1 m hm hinf

theorem Interleaves.mono {M1 M2 : List Str} (h : ∀ m ∈ M1, m ∈ M2) {t : Str} {fs : List Str}
    (hI : Interleaves M1 t fs) : Interleaves M2 t fs := by
  induction hI with
  | last t => exact Interleaves.last t
  | cons f m rest fs hm _ ih => exact Interleaves.cons f m rest fs (h m hm) ih

theorem unsplitParts_cons (ro : RangeOrder) (t : Str) (M : StrSet) (q : Str) (qs : List Str)
    (h : ro.manualOrder M = q :: qs) (hq : q ≠ []) :
    unsplitParts ro t M = (Regex.altOf (Regex.lit q) (qs.map Regex.lit)).Split false t := by
  unfold unsplitParts
  rw [h]
  have hd : decide (q :: qs = [[]]) = false := by
    apply decide_eq_false
    intro h1
    exact hq (List.cons.inj h1).1
  simp only [hd]

/-! ## The definition pattern -/

theorem lang_termDefinitionPattern (u : Str) (h : termDefinitionPattern.lang u) :
    ∃ name ws rest, u = '[' :: name ++ ']' :: ':' :: ws ++ '/' :: rest ∧
      name ≠ [] ∧ (∀ c ∈ name, reSpace c = false) ∧ (∀ c ∈ ws, reSpace c = true) := by
  simp only [termDefinitionPattern, Regex.cat, Regex.lang, Regex.chr] at h
  obtain ⟨u1, r1, hu, ⟨c1, hc1, hb1⟩, name, r2, hr1, ⟨hname, hlen, _⟩, u3, r3, hr2,
    ⟨c3, hc3, hb3⟩, u4, r4, hr3, ⟨c4, hc4, hb4⟩, ws, r5, hr4, ⟨hws, _, _⟩, u6, r6, hr5,
    ⟨c6, hc6, hb6⟩, hrest⟩ := h
  have e1 : c1 = '[' := by simpa using hb1
  have e3 : c3 = ']' := by simpa using hb3
  have e4 : c4 = ':' := by simpa using hb4
  have e6 : c6 = '/' := by simpa using hb6
  subst e1 e3 e4 e6 hc1 hc3 hc4 hc6 hr5 hr4 hr3 hr2 hr1 hu
  refine ⟨name, ws, r6, by simp, ?_, ?_, hws⟩
  · intro h0
    rw [h0] at hlen
    simp at hlen
  · intro c hc
    simpa using hname c hc

theorem lang_definition_head (name ws : Str) (hne : name ≠ [])
    (hname : ∀ c ∈ name, reSpace c = false) (hws : ∀ c ∈ ws, reSpace c = true) :
    termDefinitionPattern.lang ('[' :: name ++ ']' :: ':' :: ws ++ ['/']) := by
  simp only [termDefinitionPattern, Regex.cat, Regex.lang, Regex.chr]
  refine ⟨['['], name ++ ']' :: ':' :: ws ++ ['/'], by simp, ⟨'[', rfl, by simp⟩,
    name, ']' :: ':' :: ws ++ ['/'], by simp, ⟨?_, ?_, by simp⟩,
    [']'], ':' :: ws ++ ['/'], by simp, ⟨']', rfl, by simp⟩,
    [':'], ws ++ ['/'], by simp, ⟨':', rfl, by simp⟩,
    ws, ['/'], rfl, ⟨hws, Nat.zero_le _, by simp⟩,
    ['/'], [], by simp, ⟨'/', rfl, by simp⟩,
    [], [], rfl, ⟨by simp, Nat.zero_le _, by simp⟩,
    [], [], rfl, ⟨by simp, Nat.zero_le _, by simp⟩,
    [], [], rfl, Or.inl rfl, by simp, Nat.zero_le _, by simp⟩
  · intro c hc
    simpa using hname c hc
  · exact List.length_pos.mpr hne

theorem FindStringSubmatch_isSome_iff (re : Regex) (p : Str) :
    (re.FindStringSubmatch p).isSome = true ↔ findFirst re p ≠ none := by
  unfold Regex.FindStringSubmatch
  rw [Option.isSome_map', Ne, ← search_eq_none_iff re p 0]
  cases search re p 0 <;> simp

/-- A paragraph is a definition paragraph exactly when it contains a definition head. -/
theorem definition_iff_head (p : Str) :
    (termDefinitionPattern.FindStringSubmatch p).isSome = true ↔ hasDefinitionHead p := by
  rw [FindStringSubmatch_isSome_iff]
  constructor
  · intro h
    cases hf : findFirst termDefinitionPattern p with
    | none => exact absurd hf h
    | some r =>
      obtain ⟨i, l⟩ := r
      obtain ⟨hdec, hlang⟩ := findFirst_sound _ p i l hf
      obtain ⟨name, ws, rest, hu, h1, h2, h3⟩ := lang_termDefinitionPattern _ hlang
      refine ⟨p.take i, name, ws, rest ++ p.drop (i + l), ?_, h1, h2, h3⟩
      conv_lhs => rw [hdec, hu]
      simp
  · rintro ⟨pre, name, ws, rest, hp, h1, h2, h3⟩
    have := findFirst_of_lang termDefinitionPattern pre _ rest
      (lang_definition_head name ws h1 h2 h3)
    have e : pre ++ ('[' :: name ++ ']' :: ':' :: ws ++ ['/']) ++ rest = p := by
      rw [hp]; simp
    rw [e] at this
    exact this

theorem mem_isInfix_stringsJoin (sep : Str) (L : List Str) (p : Str) (h : p ∈ L) :
    p <:+: stringsJoin sep L := by
  induction L with
  | nil => simp at h
  | cons a L ih =>
    cases L with
    | nil =>
      have : p = a := by simpa using h
      subst this
      exact List.infix_refl _
    | cons b L =>
      rw [stringsJoin]
      rcases List.mem_cons.mp h with h | h
      · subst h
        exact ⟨[], sep ++ stringsJoin sep (b :: L), by simp⟩
      · obtain ⟨x, y, hxy⟩ := ih h
        exact ⟨a ++ sep ++ x, y, by rw [← hxy]; simp⟩

/-! ## Greedy repetition with a continuation that never fails -/

theorem greedyLen_le_length (p : Char → Bool) (s : Str) :
    ∀ hi, greedyLen p hi s ≤ s.length := by
  induction s with
  | nil => intro hi; simp [greedyLen]
  | cons c t ih =>
    intro hi
    unfold greedyLen
    split
    · have := ih (hi.map (· - 1))
      simp only [List.length_cons]
      omega
    · exact Nat.zero_le _

theorem greedyLen_le_bound (p : Char → Bool) (s : Str) :
    ∀ hi h, hi = some h → greedyLen p hi s ≤ h := by
  induction s with
  | nil => intro hi h _; simp [greedyLen]
  | cons c t ih =>
    intro hi h hh
    unfold greedyLen
    split
    · rename_i hp
      have hne : h ≠ 0 := fun h0 => hp.2 (h0 ▸ hh)
      have := ih (hi.map (· - 1)) (h - 1) (by rw [hh]; rfl)
      omega
    · exact Nat.zero_le _

theorem greedyLen_all (p : Char → Bool) (s : Str) :
    ∀ hi, ∀ x ∈ s.take (greedyLen p hi s), p x = true := by
  induction s with
  | nil => intro hi x hx; simp at hx
  | cons c t ih =>
    intro hi x hx
    unfold greedyLen at hx
    split at hx
    · rename_i hp
      rw [List.take_succ_cons] at hx
      rcases List.mem_cons.mp hx with h | h
      · exact h ▸ hp.1
      · exact ih _ x h
    · simp at hx

/-- A greedy repetition stops only at its bound, at the end of the text or before a
character outside the class. -/
theorem greedyLen_maximal (p : Char → Bool) (s : Str) :
    ∀ hi, (∃ h, hi = some h ∧ greedyLen p hi s = h) ∨
      ∀ c r, s.drop (greedyLen p hi s) = c :: r → p c = false := by
  induction s with
  | nil => intro hi; right; intro c r h; simp at h
  | cons c t ih =>
    intro hi
    unfold greedyLen
    split
    · rename_i hp
      rcases ih (hi.map (· - 1)) with ⟨h, hh, hg⟩ | hmax
      · left
        cases hi with
        | none => simp at hh
        | some h1 =>
          simp only [Option.map_some', Option.some.injEq] at hh
          have hne : h1 ≠ 0 := fun h0 => hp.2 (by rw [h0])
          exact ⟨h1, rfl, by omega⟩
      · right
        intro c1 r h
        rw [List.drop_succ_cons] at h
        exact hmax c1 r h
    · rename_i hp
      by_cases hpc : p c = true
      · left
        have h0 : hi = some 0 := by
          by_contra hne
          exact hp ⟨hpc, hne⟩
        exact ⟨0, h0, rfl⟩
      · right
        intro c1 r h
        rw [List.drop_zero] at h
        have := (List.cons.inj h).1
        subst this
        simpa using hpc

theorem greedyLen_pos (p : Char → Bool) (c : Char) (t : Str) (hi : Option Nat)
    (hp : p c = true) (hne : hi ≠ some 0) : 0 < greedyLen p hi (c :: t) := by
  unfold greedyLen
  simp [hp, hne]

theorem greedyLen_zero (p : Char → Bool) (c : Char) (t : Str) (hi : Option Nat)
    (hp : p c = false) : greedyLen p hi (c :: t) = 0 := by
  unfold greedyLen
  simp [hp]

/-- With a continuation that never fails, a greedy repetition takes `greedyLen` characters. -/
theorem repRun_total {α : Type} (p : Char → Bool) (k : Str → Nat → Option α)
    (hk : ∀ s n, (k s n).isSome = true) (s : Str) :
    ∀ (lo : Nat) (hi : Option Nat) (n : Nat),
      repRun p k lo hi s n =
        if lo ≤ greedyLen p hi s then k (s.drop (greedyLen p hi s)) (n + greedyLen p hi s)
        else none := by
  induction s with
  | nil =>
    intro lo hi n
    unfold repRun greedyLen
    by_cases hlo : lo = 0
    · simp [hlo]
    · have : ¬ lo ≤ 0 := by omega
      simp [hlo, this]
  | cons c t ih =>
    intro lo hi n
    unfold repRun greedyLen
    by_cases hp : p c = true ∧ hi ≠ some 0
    · rw [if_pos hp, if_pos hp, ih]
      by_cases hlo : lo - 1 ≤ greedyLen p (hi.map (· - 1)) t
      · have hlo2 : lo ≤ greedyLen p (hi.map (· - 1)) t + 1 := by omega
        rw [if_pos hlo, if_pos hlo2, List.drop_succ_cons]
        have e : n + 1 + greedyLen p (hi.map (· - 1)) t
            = n + (greedyLen p (hi.map (· - 1)) t + 1) := by omega
        rw [e]
        cases hr : k (t.drop (greedyLen p (hi.map (· - 1)) t))
            (n + (greedyLen p (hi.map (· - 1)) t + 1)) with
        | some r => rfl
        | none =>
          have := hk (t.drop (greedyLen p (hi.map (· - 1)) t))
            (n + (greedyLen p (hi.map (· - 1)) t + 1))
          rw [hr] at this
          simp at this
      · have hlo2 : ¬ lo ≤ greedyLen p (hi.map (· - 1)) t + 1 := by omega
        have hlo3 : ¬ lo = 0 := by omega
        rw [if_neg hlo, if_neg hlo2]
        simp only [hlo3, if_false]
    · rw [if_neg hp, if_neg hp]
      by_cases hlo : lo = 0
      · simp [hlo]
      · have : ¬ lo ≤ 0 := by omega
        simp [hlo, this]

/-! ## The default pattern -/

theorem matchLen_japanesePattern_cons (c : Char) (t : Str) :
    matchLen japanesePattern (c :: t) =
      if isHan c = true then some 1
      else if isKana c = true then some (greedyLen isKana (some 2) (c :: t))
      else if isOther c = true then some (greedyLen isOther (some 5) (c :: t))
      else none := by
  unfold matchLen japanesePattern
  simp only [Regex.run]
  rw [repRun_total isKana (fun _ n1 => some n1) (fun _ _ => rfl),
    repRun_total isOther (fun _ n1 => some n1) (fun _ _ => rfl)]
  by_cases h1 : isHan c = true
  · simp [h1]
  · by_cases h2 : isKana c = true
    · have hpos := greedyLen_pos isKana c t (some 2) h2 (by simp)
      have hle : 1 ≤ greedyLen isKana (some 2) (c :: t) := hpos
      simp [h1, h2, hle]
    · have h2f : isKana c = false := by simpa using h2
      have hz := greedyLen_zero isKana c t (some 2) h2f
      by_cases h3 : isOther c = true
      · have hpos := greedyLen_pos isOther c t (some 5) h3 (by simp)
        have hle : 1 ≤ greedyLen isOther (some 5) (c :: t) := hpos
        simp [h1, h2, h3, hz, hle]
      · have h3f : isOther c = false := by simpa using h3
        have hz3 := greedyLen_zero isOther c t (some 5) h3f
        simp [h1, h2, h3, hz, hz3]

theorem noEmptyMatch_japanesePattern : NoEmptyMatch japanesePattern := by
  apply noEmptyMatch_of_lang
  simp [japanesePattern, Regex.lang]

theorem JapaneseWordSplitter_eq (word : Str) :
    JapaneseWordSplitter word = japanesePattern.FindAllString word := rfl

theorem isGreedyPiece_of_greedyLen (p : Char → Bool) (h : Nat) (c : Char) (t : Str)
    (hp : p c = true) (hh : h ≠ 0) :
    (c :: t).take (greedyLen p (some h) (c :: t)) ≠ [] ∧
    (∀ x ∈ (c :: t).take (greedyLen p (some h) (c :: t)), p x = true) ∧
    ((c :: t).take (greedyLen p (some h) (c :: t))).length ≤ h ∧
    (((c :: t).take (greedyLen p (some h) (c :: t))).length = h ∨
      ∀ x r, (c :: t).drop (greedyLen p (some h) (c :: t)) = x :: r → p x = false) ∧
    ∃ r, (c :: t).take (greedyLen p (some h) (c :: t)) = c :: r := by
  have hpos := greedyLen_pos p c t (some h) hp (by simpa using hh)
  have hle := greedyLen_le_length p (c :: t) (some h)
  have hb := greedyLen_le_bound p (c :: t) (some h) h rfl
  have hlen : ((c :: t).take (greedyLen p (some h) (c :: t))).length
      = greedyLen p (some h) (c :: t) := by
    rw [List.length_take]; omega
  refine ⟨?_, greedyLen_all p (c :: t) (some h), by omega, ?_, ?_⟩
  · intro h0
    rw [h0] at hlen
    simp at hlen
    omega
  · rcases greedyLen_maximal p (c :: t) (some h) with ⟨h1, hh1, hg⟩ | hmax
    · left
      have : h1 = h := (Option.some.inj hh1).symm
      omega
    · exact Or.inr hmax
  · obtain ⟨g, hg⟩ : ∃ g, greedyLen p (some h) (c :: t) = g + 1 := ⟨_, (Nat.succ_pred_eq_of_pos hpos).symm⟩
    rw [hg, List.take_succ_cons]
    exact ⟨_, rfl⟩

/-- The pieces returned by the default splitter are the left-to-right greedy tokenization of
the word. -/
theorem tokenizes_FindAllString :
    ∀ (n : Nat) (s : Str), s.length ≤ n → Tokenizes s (japanesePattern.FindAllString s) := by
  intro n
  induction n with
  | zero =>
    intro s hs
    have hnil : s = [] := List.length_eq_zero.mp (Nat.le_zero.mp hs)
    subst hnil
    rw [FindAllString_none]
    · exact Tokenizes.done
    · simp [findFirst, matchLen_nil _ noEmptyMatch_japanesePattern]
  | succ n ih =>
    intro s hs
    cases s with
    | nil =>
      rw [FindAllString_none]
      · exact Tokenizes.done
      · simp [findFirst, matchLen_nil _ noEmptyMatch_japanesePattern]
    | cons c t =>
      have hm := matchLen_japanesePattern_cons c t
      simp only [List.length_cons] at hs
      by_cases h1 : isHan c = true
      · rw [if_pos h1] at hm
        rw [FindAllString_head _ noEmptyMatch_japanesePattern _ 1 hm]
        have := Tokenizes.piece [c] t (japanesePattern.FindAllString t)
          (Or.inl ⟨c, rfl, h1⟩) (ih t (by omega))
        simpa using this
      · rw [if_neg h1] at hm
        by_cases h2 : isKana c = true
        · rw [if_pos h2] at hm
          obtain ⟨g1, g2, g3, g4, _⟩ := isGreedyPiece_of_greedyLen isKana 2 c t h2 (by simp)
          have hpos := greedyLen_pos isKana c t (some 2) h2 (by simp)
          rw [FindAllString_head _ noEmptyMatch_japanesePattern _ _ hm]
          have := Tokenizes.piece _ _ _
            (Or.inr (Or.inl ⟨g1, g2, g3, g4⟩))
            (ih ((c :: t).drop (greedyLen isKana (some 2) (c :: t)))
              (by rw [List.length_drop]; simp only [List.length_cons]; omega))
          rw [List.take_append_drop] at this
          exact this
        · rw [if_neg h2] at hm
          have h2f : isKana c = false := by simpa using h2
          by_cases h3 : isOther c = true
          · rw [if_pos h3] at hm
            obtain ⟨g1, g2, g3, g4, r, g5⟩ :=
              isGreedyPiece_of_greedyLen isOther 5 c t h3 (by simp)
            have hpos := greedyLen_pos isOther c t (some 5) h3 (by simp)
            rw [FindAllString_head _ noEmptyMatch_japanesePattern _ _ hm]
            have := Tokenizes.piece _ _ _
              (Or.inr (Or.inr ⟨g1, g2, by
                intro x r1 hx
                rw [g5] at hx
                exact (List.cons.inj hx).1 ▸ h2f, g3, g4⟩))
              (ih ((c :: t).drop (greedyLen isOther (some 5) (c :: t)))
                (by rw [List.length_drop]; simp only [List.length_cons]; omega))
            rw [List.take_append_drop] at this
            exact this
          · rw [if_neg h3] at hm
            rw [FindAllString_skip _ noEmptyMatch_japanesePattern c t hm]
            exact Tokenizes.skip c t _ (by simpa using h1) h2f (by simpa using h3)
              (ih t (by omega))

theorem tokenizes_JapaneseWordSplitter (word : Str) :
    Tokenizes word (JapaneseWordSplitter word) :=
  tokenizes_FindAllString word.length word (Nat.le_refl _)

theorem Tokenizes.pieces {s : Str} {ps : List Str} (h : Tokenizes s ps) :
    ∀ p ∈ ps, ∃ rest, IsGreedyPiece p rest := by
  induction h with
  | done => intro p hp; simp at hp
  | skip c t ps _ _ _ _ ih => exact ih
  | piece p rest ps hg _ ih =>
    intro q hq
    rcases List.mem_cons.mp hq with h | h
    · exact ⟨rest, h ▸ hg⟩
    · exact ih q h

theorem IsGreedyPiece.matched {p rest : Str} (h : IsGreedyPiece p rest) :
    ∀ c ∈ p, (isHan c || isKana c || isOther c) = true := by
  intro c hc
  rcases h with ⟨x, hx, hh⟩ | ⟨_, hall, _⟩ | ⟨_, hall, _⟩
  · subst hx
    have : c = x := by simpa using hc
    subst this
    simp [hh]
  · simp [hall c hc]
  · simp [hall c hc]

theorem IsGreedyPiece.ne_nil {p rest : Str} (h : IsGreedyPiece p rest) : p ≠ [] := by
  rcases h with ⟨x, hx, _⟩ | ⟨hne, _⟩ | ⟨hne, _⟩
  · subst hx; simp
  · exact hne
  · exact hne

theorem Tokenizes.join_eq {s : Str} {ps : List Str} (h : Tokenizes s ps) :
    ps.flatten = s.filter (fun c => isHan c || isKana c || isOther c) := by
  induction h with
  | done => rfl
  | skip c t ps h1 h2 h3 _ ih =>
    rw [ih]
    simp [List.filter_cons, h1, h2, h3]
  | piece p rest ps hg _ ih =>
    rw [List.flatten_cons, ih, List.filter_append]
    congr 1
    exact (List.filter_eq_self.mpr hg.matched).symm

theorem Tokenizes.eq_nil {s : Str} {ps : List Str} (h : Tokenizes s ps)
    (hall : ∀ c ∈ s, (isHan c || isKana c || isOther c) = false) : ps = [] := by
  induction h with
  | done => rfl
  | skip c t ps _ _ _ _ ih => exact ih (fun x hx => hall x (List.mem_cons_of_mem _ hx))
  | piece p rest ps hg _ _ =>
    exfalso
    cases hp : p with
    | nil => exact hg.ne_nil hp
    | cons x r =>
      have hx : x ∈ p := by rw [hp]; exact List.mem_cons_self _ _
      have h1 := hg.matched x hx
      have h2 := hall x (List.mem_append_left _ hx)
      rw [h1] at h2
      exact Bool.noConfusion h2

theorem unmatched_of_space (c : Char) (h : reSpace c = true ∨ c = '\u3000') :
    (isHan c || isKana c || isOther c) = false := by
  rcases h with h | h
  · simp only [reSpace, decide_eq_true_eq] at h
    rcases h with h | h | h | h | h <;> subst h <;> decide
  · subst h
    decide

/-! ## The paragraph separator -/

theorem reSpace_newline : reSpace '\n' = true := by decide

theorem lang_paragraphSplittingPattern (u : Str) :
    paragraphSplittingPattern.lang u ↔
      ∃ a b, u = a ++ '\n' :: b ++ ['\n'] ∧ (∀ c ∈ a, reSpace c = true) ∧
        (∀ c ∈ b, reSpace c = true) := by
  simp only [paragraphSplittingPattern, Regex.cat, Regex.lang, Regex.chr]
  constructor
  · rintro ⟨a, r1, hu, ⟨ha, _, _⟩, u2, r2, hr1, ⟨c2, hc2, hb2⟩, b, r3, hr2, ⟨hb, _, _⟩,
      c4, hc4, hb4⟩
    have e2 : c2 = '\n' := by simpa using hb2
    have e4 : c4 = '\n' := by simpa using hb4
    subst e2 e4 hc2 hc4 hr2 hr1 hu
    exact ⟨a, b, by simp, ha, hb⟩
  · rintro ⟨a, b, hu, ha, hb⟩
    exact ⟨a, '\n' :: b ++ ['\n'], by simp [hu], ⟨ha, Nat.zero_le _, by simp⟩,
      ['\n'], b ++ ['\n'], by simp, ⟨'\n', rfl, by simp⟩,
      b, ['\n'], rfl, ⟨hb, Nat.zero_le _, by simp⟩, '\n', rfl, by simp⟩

theorem noEmptyMatch_paragraphSplittingPattern : NoEmptyMatch paragraphSplittingPattern := by
  apply noEmptyMatch_of_lang
  rw [lang_paragraphSplittingPattern]
  rintro ⟨a, b, h, _⟩
  have := congrArg List.length h
  simp at this
  omega

/-- A separator match consists of white space only. -/
theorem lang_separator_space (u : Str) (h : paragraphSplittingPattern.lang u) :
    ∀ c ∈ u, reSpace c = true := by
  obtain ⟨a, b, hu, ha, hb⟩ := (lang_paragraphSplittingPattern u).mp h
  intro c hc
  rw [hu] at hc
  simp only [List.mem_append, List.mem_cons, List.mem_singleton, List.not_mem_nil,
    or_false] at hc
  rcases hc with (hc | hc | hc) | hc
  · exact ha c hc
  · exact hc ▸ reSpace_newline
  · exact hb c hc
  · exact hc ▸ reSpace_newline

/-- White space in front of a separator match is a separator match. -/
theorem lang_separator_cons (c : Char) (u : Str) (hc : reSpace c = true)
    (h : paragraphSplittingPattern.lang u) : paragraphSplittingPattern.lang (c :: u) := by
  obtain ⟨a, b, hu, ha, hb⟩ := (lang_paragraphSplittingPattern u).mp h
  refine (lang_paragraphSplittingPattern _).mpr ⟨c :: a, b, by simp [hu], ?_, hb⟩
  intro x hx
  rcases List.mem_cons.mp hx with hx | hx
  · exact hx ▸ hc
  · exact ha x hx

theorem lang_two_newlines : paragraphSplittingPattern.lang ['\n', '\n'] :=
  (lang_paragraphSplittingPattern _).mpr ⟨[], [], rfl, by simp, by simp⟩

/-- With no upper bound, a repetition ends at least as far as any point up to which the
class holds and after which the continuation succeeds. -/
theorem repRun_first {α : Type} (p : Char → Bool) (k : Str → Nat → Option α) (s : Str) :
    ∀ (lo n i : Nat), i ≤ s.length → (∀ x ∈ s.take i, p x = true) → lo ≤ i →
      (k (s.drop i) (n + i)).isSome = true →
      ∃ j, i ≤ j ∧ j ≤ s.length ∧ repRun p k lo none s n = k (s.drop j) (n + j) ∧
        (k (s.drop j) (n + j)).isSome = true := by
  induction s with
  | nil =>
    intro lo n i hi _ hlo hk
    have hi0 : i = 0 := by simpa using hi
    subst hi0
    have hlo0 : lo = 0 := by omega
    refine ⟨0, Nat.le_refl _, Nat.le_refl _, ?_, hk⟩
    unfold repRun
    simp [hlo0]
  | cons ch t ih =>
    intro lo n i hi hall hlo hk
    cases i with
    | zero =>
      have hlo0 : lo = 0 := by omega
      subst hlo0
      unfold repRun
      split
      · cases hr : repRun p k (0 - 1) (Option.map (fun x => x - 1) none) t (n + 1) with
        | some r =>
          obtain ⟨m, hm, _, _, _, hkm⟩ := repRun_sound p k t _ _ _ r hr
          refine ⟨m + 1, Nat.zero_le _, by simp only [List.length_cons]; omega, ?_, ?_⟩
          · simp only [List.drop_succ_cons]
            have e : n + (m + 1) = n + 1 + m := by omega
            rw [e, hkm]
          · simp only [List.drop_succ_cons]
            have e : n + (m + 1) = n + 1 + m := by omega
            rw [e, hkm]
            rfl
        | none =>
          refine ⟨0, Nat.le_refl _, Nat.zero_le _, ?_, hk⟩
          simp
      · refine ⟨0, Nat.le_refl _, Nat.zero_le _, ?_, hk⟩
        simp
    | succ i1 =>
      have hp : p ch = true := hall ch (by rw [List.take_succ_cons]; exact List.mem_cons_self _ _)
      simp only [List.length_cons] at hi
      obtain ⟨j, hj1, hj2, hrun, hsome⟩ := ih (lo - 1) (n + 1) i1 (by omega)
        (fun x hx => hall x (by rw [List.take_succ_cons]; exact List.mem_cons_of_mem _ hx))
        (by omega)
        (by
          rw [List.drop_succ_cons] at hk
          have e : n + 1 + i1 = n + (i1 + 1) := by omega
          rw [e]
          exact hk)
      refine ⟨j + 1, by omega, by simp only [List.length_cons]; omega, ?_, ?_⟩
      · unfold repRun
        have hcond : p ch = true ∧ (none : Option Nat) ≠ some 0 := ⟨hp, by simp⟩
        rw [if_pos hcond]
        simp only [Option.map_none'] at hrun ⊢
        rw [hrun, List.drop_succ_cons]
        have e : n + (j + 1) = n + 1 + j := by omega
        rw [e]
        cases hkj : k (t.drop j) (n + 1 + j) with
        | some r => rfl
        | none => rw [hkj] at hsome; simp at hsome
      · rw [List.drop_succ_cons]
        have e : n + (j + 1) = n + 1 + j := by omega
        rw [e]
        exact hsome

theorem newlineThen_some {α : Type} (k : Str → Nat → Option α) (s : Str) (n : Nat) (r : α)
    (h : newlineThen k s n = some r) : ∃ t, s = '\n' :: t ∧ k t (n + 1) = some r := by
  unfold newlineThen at h
  cases s with
  | nil => exact Option.noConfusion h
  | cons ch t =>
    simp only at h
    split at h
    · rename_i hc
      have : ch = '\n' := by simpa using hc
      exact ⟨t, by rw [this], h⟩
    · exact Option.noConfusion h

theorem newlineThen_cons {α : Type} (k : Str → Nat → Option α) (t : Str) (n : Nat) :
    newlineThen k ('\n' :: t) n = k t (n + 1) := by
  simp [newlineThen]

theorem matchLen_separator (s : Str) :
    matchLen paragraphSplittingPattern s =
      repRun reSpace
        (newlineThen (fun s2 n2 =>
          repRun reSpace (newlineThen (fun _ n => some n)) 0 none s2 n2))
        0 none s 0 := by
  unfold matchLen paragraphSplittingPattern
  simp only [Regex.cat, Regex.run, Regex.chr]
  rfl

theorem repRun_newline_decompose {α : Type} (k : Str → Nat → Option α) (s : Str) (n : Nat)
    (r : α) (h : repRun reSpace (newlineThen k) 0 none s n = some r) :
    ∃ pa t, s = pa ++ '\n' :: t ∧ (∀ x ∈ pa, reSpace x = true) ∧
      k t (n + pa.length + 1) = some r := by
  obtain ⟨a, ha, hall, _, _, hk⟩ := repRun_sound reSpace _ s 0 none n r h
  obtain ⟨t, hs1, hkt⟩ := newlineThen_some _ _ _ _ hk
  refine ⟨s.take a, t, ?_, hall, ?_⟩
  · conv_lhs => rw [← List.take_append_drop a s, hs1]
  · rw [List.length_take, Nat.min_eq_left ha]
    exact hkt

/-- After a separator match, no newline stands before the first visible character: the
match takes every newline of the white space it starts in. -/
theorem goodStart_after_separator (s : Str) (l : Nat)
    (h : matchLen paragraphSplittingPattern s = some l) : GoodStart (s.drop l) := by
  rw [matchLen_separator] at h
  obtain ⟨pa, t1, hs, _, hinner⟩ := repRun_newline_decompose _ s 0 l h
  obtain ⟨pb, t2, ht1, hpb, hl⟩ := repRun_newline_decompose _ t1 _ l hinner
  have hl2 : 0 + pa.length + 1 + pb.length + 1 = l := Option.some.inj hl
  subst hs
  have hdrop : (pa ++ '\n' :: t1).drop l = t2 := by
    have e : pa ++ '\n' :: t1 = (pa ++ '\n' :: pb ++ ['\n']) ++ t2 := by
      rw [ht1]
      simp
    have hlen : (pa ++ '\n' :: pb ++ ['\n']).length = l := by
      simp only [List.length_append, List.length_cons, List.length_nil]
      omega
    rw [e, ← hlen, List.drop_left]
  rw [hdrop]
  intro w r hw
  by_contra hcon
  have hallw : ∀ c ∈ w, reSpace c = true := by
    intro c hc
    by_contra hc2
    exact hcon ⟨c, hc, by simpa using hc2⟩
  have e2 : t1 = (pb ++ '\n' :: w) ++ '\n' :: r := by
    rw [ht1, hw]
    simp
  rw [e2] at hinner
  obtain ⟨j, hj1, _, hrun, _⟩ := repRun_first reSpace
    (newlineThen (fun (_ : Str) n => some n)) ((pb ++ '\n' :: w) ++ '\n' :: r) 0
    (0 + pa.length + 1) (pb ++ '\n' :: w).length (by simp)
    (by
      rw [List.take_left]
      intro x hx
      rcases List.mem_append.mp hx with hx | hx
      · exact hpb x hx
      · rcases List.mem_cons.mp hx with hx | hx
        · exact hx ▸ reSpace_newline
        · exact hallw x hx)
    (Nat.zero_le _)
    (by rw [List.drop_left, newlineThen_cons]; rfl)
  rw [hinner] at hrun
  obtain ⟨t3, _, hl3⟩ := newlineThen_some _ _ _ _ hrun.symm
  have hl4 : 0 + pa.length + 1 + j + 1 = l := Option.some.inj hl3
  simp only [List.length_append, List.length_cons] at hj1
  omega

/-! ## Paragraphs cut by the separator -/

theorem piecesOK_nil (f : Bool) : PiecesOK f [] ↔ True := by
  unfold PiecesOK
  exact Iff.rfl

theorem piecesOK_cons (f : Bool) (x : Str) (rest : List Str) :
    PiecesOK f (x :: rest) ↔
      NoSeparator x ∧ (f = false → GoodStart x) ∧
        (rest ≠ [] → Sealed x ∧ (f = false → x ≠ [])) ∧ PiecesOK false rest := by
  conv_lhs => unfold PiecesOK

/-- The first match is at `i` when the pattern matches there and nowhere before. -/
theorem findFirst_of_first (re : Regex) (s : Str) (i l : Nat) (hi : i ≤ s.length)
    (hm : matchLen re (s.drop i) = some l)
    (hnone : ∀ j, j < i → matchLen re (s.drop j) = none) :
    findFirst re s = some (i, l) := by
  cases hf : findFirst re s with
  | none =>
    have h0 := (findFirst_eq_none re s).mp hf i hi
    rw [hm] at h0
    exact absurd h0 (by simp)
  | some p =>
    obtain ⟨i2, l2⟩ := p
    obtain ⟨_, h2, h3⟩ := findFirst_eq_some re s i2 l2 hf
    rcases Nat.lt_trichotomy i2 i with h | h | h
    · have h0 := hnone i2 h
      rw [h2] at h0
      exact absurd h0 (by simp)
    · subst h
      rw [hm] at h2
      have hl : l = l2 := Option.some.inj h2
      rw [hl]
    · have h0 := h3 i h
      rw [hm] at h0
      exact absurd h0 (by simp)

theorem exists_concat_of_ne_nil (x : Str) (h : x ≠ []) : ∃ init c, x = init ++ [c] :=
  ⟨x.dropLast, x.getLast h, (List.dropLast_append_getLast h).symm⟩

/-- The text before the first separator holds no separator. -/
theorem noSeparator_take (s : Str) (i : Nat) (hi : i ≤ s.length)
    (hnone : ∀ j, j < i → matchLen paragraphSplittingPattern (s.drop j) = none) :
    NoSeparator (s.take i) := by
  unfold NoSeparator
  cases hf : findFirst paragraphSplittingPattern (s.take i) with
  | none => rfl
  | some p =>
    exfalso
    obtain ⟨j, l⟩ := p
    obtain ⟨hl, hjl⟩ := findFirst_pos _ noEmptyMatch_paragraphSplittingPattern _ j l hf
    obtain ⟨hdec, hlang⟩ := findFirst_sound _ _ j l hf
    rw [List.length_take] at hjl
    have hj : j < i := by omega
    have hA : ((s.take i).take j).length = j := by
      simp only [List.length_take]
      omega
    have hs := List.take_append_drop i s
    rw [hdec] at hs
    have e := congrArg (List.drop j) hs
    rw [List.append_assoc, List.append_assoc, List.drop_left' hA] at e
    apply matchLen_complete _ _ _ hlang
    rw [e]
    exact hnone j hj

/-- The text before the first separator does not end with white space. -/
theorem sealed_take (s : Str) (i l : Nat) (hi : i ≤ s.length)
    (hm : matchLen paragraphSplittingPattern (s.drop i) = some l)
    (hnone : ∀ j, j < i → matchLen paragraphSplittingPattern (s.drop j) = none) :
    Sealed (s.take i) := by
  intro init c hx
  by_contra hc
  have hc2 : reSpace c = true := by simpa using hc
  have hlen : init.length + 1 = i := by
    have h0 := congrArg List.length hx
    simp only [List.length_take, List.length_append, List.length_cons, List.length_nil] at h0
    omega
  have hs : init ++ c :: s.drop i = s := by
    have h0 := List.take_append_drop i s
    rw [hx] at h0
    simpa using h0
  have hd : s.drop init.length = c :: s.drop i := by
    have e := congrArg (List.drop init.length) hs
    rw [List.drop_left] at e
    exact e.symm
  obtain ⟨_, hlang⟩ := matchLen_sound _ _ l hm
  apply matchLen_complete _ _ ((s.drop i).drop l) (lang_separator_cons c _ hc2 hlang)
  have e2 : c :: List.take l (s.drop i) ++ (s.drop i).drop l = c :: s.drop i := by
    rw [List.cons_append, List.take_append_drop]
  rw [e2, ← hd]
  exact hnone _ (by omega)

theorem goodStart_take (s : Str) (i : Nat) (h : GoodStart s) : GoodStart (s.take i) := by
  intro w r hx
  apply h w (r ++ s.drop i)
  have h0 := List.take_append_drop i s
  rw [hx] at h0
  exact h0.symm.trans (by simp)

/-- A separator at the head of a text puts a newline before its first visible character. -/
theorem goodStart_no_head_match (s : Str) (l : Nat) (h : GoodStart s)
    (hm : matchLen paragraphSplittingPattern s = some l) : False := by
  obtain ⟨_, hlang⟩ := matchLen_sound _ _ l hm
  obtain ⟨a, b, hu, ha, _⟩ := (lang_paragraphSplittingPattern _).mp hlang
  obtain ⟨c, hc, hcs⟩ := h a (b ++ ['\n'] ++ s.drop l) (by
    have h0 := List.take_append_drop l s
    rw [hu] at h0
    exact h0.symm.trans (by simp))
  rw [ha c hc] at hcs
  exact absurd hcs (by simp)

/-- The paragraphs of every text satisfy `PiecesOK`. -/
theorem piecesOK_Split : ∀ (n : Nat) (s : Str), s.length ≤ n → ∀ f : Bool,
    (f = false → GoodStart s) → PiecesOK f (paragraphSplittingPattern.Split false s) := by
  intro n
  induction n with
  | zero =>
    intro s hs f hg
    cases hf : findFirst paragraphSplittingPattern s with
    | none =>
      rw [Split_none _ _ hf]
      exact (piecesOK_cons f s []).mpr ⟨hf, hg, fun h => absurd rfl h, (piecesOK_nil _).mpr trivial⟩
    | some p =>
      obtain ⟨i, l⟩ := p
      obtain ⟨hl, hil⟩ := findFirst_pos _ noEmptyMatch_paragraphSplittingPattern _ i l hf
      omega
  | succ n ih =>
    intro s hs f hg
    cases hf : findFirst paragraphSplittingPattern s with
    | none =>
      rw [Split_none _ _ hf]
      exact (piecesOK_cons f s []).mpr ⟨hf, hg, fun h => absurd rfl h, (piecesOK_nil _).mpr trivial⟩
    | some p =>
      obtain ⟨i, l⟩ := p
      obtain ⟨hi, hm, hnone⟩ := findFirst_eq_some _ _ i l hf
      obtain ⟨hl, hil⟩ := findFirst_pos _ noEmptyMatch_paragraphSplittingPattern _ i l hf
      rw [Split_some _ noEmptyMatch_paragraphSplittingPattern s i l hf]
      refine (piecesOK_cons _ _ _).mpr ⟨noSeparator_take s i hi hnone,
        fun h => goodStart_take s i (hg h),
        fun _ => ⟨sealed_take s i l hi hm hnone, fun h hnil => ?_⟩, ?_⟩
      · have hi0 : i = 0 := by
          have h0 := congrArg List.length hnil
          simp only [List.length_take, List.length_nil] at h0
          omega
        subst hi0
        exact goodStart_no_head_match s l (hg h) (by simpa using hm)
      · apply ih _ (by rw [List.length_drop]; omega) false
        intro _
        rw [← List.drop_drop]
        exact goodStart_after_separator _ l hm

theorem piecesOK_weaken (f : Bool) (L : List Str) (h : PiecesOK false L) : PiecesOK f L := by
  cases L with
  | nil => exact (piecesOK_nil f).mpr trivial
  | cons x rest =>
    obtain ⟨h1, h2, h3, h4⟩ := (piecesOK_cons false x rest).mp h
    exact (piecesOK_cons f x rest).mpr
      ⟨h1, fun _ => h2 rfl, fun hr => ⟨(h3 hr).1, fun _ => (h3 hr).2 rfl⟩, h4⟩

/-- Leaving paragraphs out keeps `PiecesOK`. -/
theorem piecesOK_filter (q : Str → Bool) :
    ∀ (L : List Str) (f : Bool), PiecesOK f L → PiecesOK f (L.filter q) := by
  intro L
  induction L with
  | nil =>
    intro f h
    exact h
  | cons x rest ih =>
    intro f h
    obtain ⟨h1, h2, h3, h4⟩ := (piecesOK_cons f x rest).mp h
    have ih2 := ih false h4
    by_cases hq : q x = true
    · rw [List.filter_cons_of_pos hq]
      refine (piecesOK_cons _ _ _).mpr ⟨h1, h2, fun hr => h3 ?_, ih2⟩
      intro hnil
      apply hr
      rw [hnil]
      rfl
    · rw [List.filter_cons_of_neg hq]
      exact piecesOK_weaken f _ ih2

theorem stringsJoin_cons_cons (sep a b : Str) (l : List Str) :
    stringsJoin sep (a :: b :: l) = a ++ sep ++ stringsJoin sep (b :: l) := rfl

/-- The joined text of paragraphs that are not first has no newline before its first
visible character. -/
theorem goodStart_join (L : List Str) (hne : L ≠ []) (h : PiecesOK false L) :
    GoodStart (stringsJoin ['\n', '\n'] L) := by
  cases L with
  | nil => exact absurd rfl hne
  | cons x rest =>
    obtain ⟨_, h2, h3, _⟩ := (piecesOK_cons false x rest).mp h
    cases rest with
    | nil => exact h2 rfl
    | cons y r2 =>
      obtain ⟨hs, hx⟩ := h3 (by simp)
      obtain ⟨init, c, hxc⟩ := exists_concat_of_ne_nil x (hx rfl)
      have hc := hs init c hxc
      rw [stringsJoin_cons_cons]
      intro w r hw
      rw [List.append_assoc] at hw
      rcases List.append_eq_append_iff.mp hw with ⟨a1, hw1, _⟩ | ⟨c1, hx1, hr1⟩
      · exact ⟨c, by rw [hw1, hxc]; simp, hc⟩
      · cases c1 with
        | nil =>
          refine ⟨c, ?_, hc⟩
          rw [List.append_nil] at hx1
          rw [← hx1, hxc]
          simp
        | cons ch c2 =>
          have hch : '\n' = ch := by
            have h0 := congrArg List.head? hr1
            simpa using h0
          subst hch
          exact h2 rfl w c2 hx1

/-- Before a text with no newline ahead of its first visible character, two newlines are
the whole separator. -/
theorem matchLen_two_newlines (J : Str) (h : GoodStart J) :
    matchLen paragraphSplittingPattern ('\n' :: '\n' :: J) = some 2 := by
  cases hm : matchLen paragraphSplittingPattern ('\n' :: '\n' :: J) with
  | none => exact absurd hm (matchLen_complete _ ['\n', '\n'] J lang_two_newlines)
  | some l =>
    obtain ⟨hle, hlang⟩ := matchLen_sound _ _ l hm
    obtain ⟨a, b, hu, _, _⟩ := (lang_paragraphSplittingPattern _).mp hlang
    simp only [List.length_cons] at hle
    have hlen : l = a.length + b.length + 2 := by
      have h0 := congrArg List.length hu
      simp only [List.length_take, List.length_append, List.length_cons, List.length_nil] at h0
      omega
    by_contra hne
    have hl3 : 3 ≤ l := by
      have h2 : l ≠ 2 := fun h2 => hne (by rw [h2])
      omega
    obtain ⟨m, rfl⟩ : ∃ m, l = m + 3 := ⟨l - 3, by omega⟩
    have hJ : m + 1 ≤ J.length := by omega
    have hne2 : J.take (m + 1) ≠ [] := by
      intro h0
      have h1 := congrArg List.length h0
      simp only [List.length_take, List.length_nil] at h1
      omega
    obtain ⟨init, c, hic⟩ := exists_concat_of_ne_nil _ hne2
    have ht : List.take (m + 3) ('\n' :: '\n' :: J) = ('\n' :: '\n' :: init) ++ [c] := by
      rw [List.take_succ_cons, List.take_succ_cons, hic]
      rfl
    have hc : c = '\n' := by
      rw [ht] at hu
      have h0 : ('\n' :: '\n' :: init) ++ [c] = (a ++ '\n' :: b) ++ ['\n'] := by
        rw [hu]
      exact List.singleton_inj.mp (List.append_inj_right' h0 rfl)
    subst hc
    have hall := lang_separator_space _ hlang
    obtain ⟨d, hd, hds⟩ := h init (J.drop (m + 1)) (by
      have h0 := List.take_append_drop (m + 1) J
      rw [hic] at h0
      exact h0.symm.trans (by simp))
    rw [hall d (by rw [ht]; simp [hd])] at hds
    exact absurd hds (by simp)

/-- No separator starts inside a paragraph that holds none and does not end with white
space, whatever follows the paragraph. -/
theorem no_separator_before (x R : Str) (hs : Sealed x) (hn : NoSeparator x) :
    ∀ j, j < x.length → matchLen paragraphSplittingPattern ((x ++ R).drop j) = none := by
  intro j hj
  cases hm : matchLen paragraphSplittingPattern ((x ++ R).drop j) with
  | none => rfl
  | some l =>
    exfalso
    obtain ⟨hle, hlang⟩ := matchLen_sound _ _ l hm
    have hd : (x ++ R).drop j = x.drop j ++ R := List.drop_append_of_le_length (by omega)
    by_cases hjl : j + l ≤ x.length
    · have e1 : ((x ++ R).drop j).take l = (x.drop j).take l := by
        rw [hd, List.take_append_of_le_length]
        rw [List.length_drop]
        omega
      rw [e1] at hlang
      apply findFirst_of_lang paragraphSplittingPattern (x.take j) _ (x.drop (j + l)) hlang
      have e : x.take j ++ (x.drop j).take l ++ x.drop (j + l) = x := by
        rw [List.append_assoc, ← List.drop_drop, List.take_append_drop, List.take_append_drop]
      rw [e]
      exact hn
    · obtain ⟨init, c, hx⟩ := exists_concat_of_ne_nil x (by
        intro h0
        rw [h0] at hj
        simp at hj)
      have hc := hs init c hx
      have hil : j ≤ init.length := by
        have h0 := congrArg List.length hx
        simp only [List.length_append, List.length_cons, List.length_nil] at h0
        omega
      have hmem : c ∈ ((x ++ R).drop j).take l := by
        rw [hd, List.take_append_eq_append_take,
          List.take_of_length_le (by rw [List.length_drop]; omega)]
        apply List.mem_append_left
        rw [hx, List.drop_append_of_le_length hil]
        simp
      rw [lang_separator_space _ hlang c hmem] at hc
      exact absurd hc (by simp)

/-- Paragraphs that satisfy `PiecesOK`, joined by two newlines, split back into
themselves. -/
theorem Split_join : ∀ (L : List Str) (f : Bool), L ≠ [] → PiecesOK f L →
    paragraphSplittingPattern.Split false (stringsJoin ['\n', '\n'] L) = L := by
  intro L
  induction L with
  | nil =>
    intro f hne _
    exact absurd rfl hne
  | cons x rest ih =>
    intro f _ h
    obtain ⟨h1, _, h3, h4⟩ := (piecesOK_cons f x rest).mp h
    cases rest with
    | nil => exact Split_none _ _ h1
    | cons y r2 =>
      obtain ⟨hs, _⟩ := h3 (by simp)
      have hJ := goodStart_join (y :: r2) (by simp) h4
      have hf : findFirst paragraphSplittingPattern
          (x ++ ('\n' :: '\n' :: stringsJoin ['\n', '\n'] (y :: r2))) = some (x.length, 2) := by
        apply findFirst_of_first
        · simp
        · rw [List.drop_left]
          exact matchLen_two_newlines _ hJ
        · exact no_separator_before x _ hs h1
      rw [stringsJoin_cons_cons, List.append_assoc]
      have e : (['\n', '\n'] : Str) ++ stringsJoin ['\n', '\n'] (y :: r2) =
          '\n' :: '\n' :: stringsJoin ['\n', '\n'] (y :: r2) := rfl
      rw [e, Split_some _ noEmptyMatch_paragraphSplittingPattern _ _ _ hf, List.take_left]
      have e2 : (x ++ '\n' :: '\n' :: stringsJoin ['\n', '\n'] (y :: r2)).drop (x.length + 2) =
          stringsJoin ['\n', '\n'] (y :: r2) := by
        rw [← List.drop_drop, List.drop_left]
        rfl
      rw [e2, ih false (by simp) h4]

/-! ## The properties C11 to C20 -/

set_option maxRecDepth 100000 in
/-- C11: the non-definition text returned by `FindTerms` is the paragraphs of the input (the
pieces between the blank-line separators) that are not definition paragraphs, in their
order, joined by "\n\n"; an orphan definition yields no Term and is still left out; when no
paragraph is a definition the text is the joined paragraphs of the input and there is no
Term. -/
theorem C11_non_definition_text (ro : RangeOrder) (text : Str) (splitter : WordSplitter) :
    (FindTerms ro text splitter).2 =
      stringsJoin ['\n', '\n']
        ((paragraphSplittingPattern.Split false text).filter
          (fun p => (termDefinitionPattern.FindStringSubmatch p).isNone)) ∧
    ((∀ p ∈ paragraphSplittingPattern.Split false text,
        termDefinitionPattern.FindStringSubmatch p = none) →
      FindTerms ro text splitter =
        ([], stringsJoin ['\n', '\n'] (paragraphSplittingPattern.Split false text))) ∧
    FindTerms ro orphanText splitter = ([], "Some prose.".toList) := by
  refine ⟨?_, ?_, ?_⟩
  · rw [FindTerms_snd, classify_snd]
  · intro h
    apply Prod.ext
    · rw [FindTerms_fst, classify_fst_nil _ h]
      rfl
    · rw [FindTerms_snd, classify_snd_all _ h]
  · have h2 : (FindTerms ro orphanText splitter).2 = "Some prose.".toList := by
      rw [FindTerms_snd]; decide
    have h1 : (FindTerms ro orphanText splitter).1 = [] := by
      rw [FindTerms_fst, h2]
      have hm : termTexts "Some prose.".toList = [] := by decide
      rw [hm]
      exact matchedLoop_empty_map ro splitter _ _
    exact Prod.ext h1 h2

set_option maxRecDepth 100000 in
/-- C12 as stated fails: the first paragraph of `midLineText`, "see [x]: /a here", has no
line that begins with `[name]:` (not even after blanks), yet it is classified as a
definition paragraph and is missing from the non-definition text. -/
theorem C12_counterexample :
    ¬ ∀ (ro : RangeOrder) (text : Str) (splitter : WordSplitter),
      ∀ p ∈ paragraphSplittingPattern.Split false text,
        (∀ line ∈ stringsSplit '\n' p, ¬ lineBeginsDefinition line) →
        termDefinitionPattern.FindStringSubmatch p = none ∧
          p <:+: (FindTerms ro text splitter).2 := by
  intro h
  have hp : "see [x]: /a here".toList ∈ paragraphSplittingPattern.Split false midLineText := by
    decide
  have hlines : stringsSplit '\n' "see [x]: /a here".toList = ["see [x]: /a here".toList] := by
    decide
  have hno : ∀ line ∈ stringsSplit '\n' "see [x]: /a here".toList,
      ¬ lineBeginsDefinition line := by
    intro line hl
    rw [hlines, List.mem_singleton] at hl
    subst hl
    rintro ⟨blanks, name, rest, heq, hb⟩
    cases blanks with
    | nil =>
      have := (List.cons.inj heq).1
      exact absurd this (by decide)
    | cons b bs =>
      have hb1 : 's' = b := (List.cons.inj heq).1
      have := hb b (List.mem_cons_self _ _)
      rw [← hb1] at this
      exact absurd this (by decide)
  have := (h RangeOrder.insertion midLineText wholeWord _ hp hno).1
  exact absurd this (by decide)

/-- C12, amended: a paragraph is classified as a definition exactly when it contains, at any
position, `[name]:` (a non-empty name without white space), optional white space and `/`;
every paragraph without such an occurrence is treated as prose and appears unchanged in the
non-definition text returned by `FindTerms`. -/
theorem C12_definition_needs_head_anywhere (ro : RangeOrder) (text : Str)
    (splitter : WordSplitter) (p : Str)
    (hp : p ∈ paragraphSplittingPattern.Split false text) :
    ((termDefinitionPattern.FindStringSubmatch p).isSome = true ↔ hasDefinitionHead p) ∧
    (¬ hasDefinitionHead p →
      p ∈ (classify (paragraphSplittingPattern.Split false text)).2 ∧
        p <:+: (FindTerms ro text splitter).2) := by
  refine ⟨definition_iff_head p, ?_⟩
  intro hno
  have hnone : (termDefinitionPattern.FindStringSubmatch p).isNone = true := by
    cases hf : termDefinitionPattern.FindStringSubmatch p with
    | none => rfl
    | some m =>
      exact absurd ((definition_iff_head p).mp (by rw [hf]; rfl)) hno
  have hmem : p ∈ (classify (paragraphSplittingPattern.Split false text)).2 := by
    rw [classify_snd]
    exact List.mem_filter.mpr ⟨hp, hnone⟩
  exact ⟨hmem, by rw [FindTerms_snd]; exact mem_isInfix_stringsJoin _ _ p hmem⟩

set_option maxRecDepth 100000 in
/-- Witness of C12 (amended): the second paragraph of `midLineText`. -/
theorem C12_witness :
    "Use [y][x].".toList ∈ paragraphSplittingPattern.Split false midLineText ∧
    ((termDefinitionPattern.FindStringSubmatch "Use [y][x].".toList).isSome = true ↔
      hasDefinitionHead "Use [y][x].".toList) :=
  ⟨by decide,
    (C12_definition_needs_head_anywhere RangeOrder.insertion midLineText wholeWord
      "Use [y][x].".toList (by decide)).1⟩

set_option maxRecDepth 100000 in
/-- C13: the Term produced by the first definition record for a resolvable reference has as
its Definition the record's body with the leading and trailing white space removed and
nothing else changed, so an empty or all-blank body gives a Term with the empty Definition;
every returned Term has the trimmed body of a record with its Reference. A two-line body
keeps its inner newline, and a definition paragraph without body still gives a Term. -/
theorem C13_definition_is_trimmed_body (ro : RangeOrder) (termTexts : RefMap)
    (splitter : WordSplitter) (pre post : List Submatch) (d : Submatch) (text : Str)
    (hfirst : ∀ e ∈ pre, e.m1 ≠ d.m1) (hmap : termTexts.lookup d.m1 = some text) :
    (∃ t ∈ matchedTermDefinitions ro termTexts (pre ++ d :: post) splitter,
      t.Reference = d.m1 ∧ t.Definition = TrimSpace d.m3 ∧
      ((∀ c ∈ d.m3, isSpace c = true) → t.Definition = [])) ∧
    (∃ l r, d.m3 = l ++ TrimSpace d.m3 ++ r ∧ (∀ c ∈ l, isSpace c = true) ∧
      (∀ c ∈ r, isSpace c = true)) ∧
    (∀ c r, TrimSpace d.m3 = c :: r → isSpace c = false) ∧
    (∀ r c, TrimSpace d.m3 = r ++ [c] → isSpace c = false) ∧
    (∀ t ∈ matchedTermDefinitions ro termTexts (pre ++ d :: post) splitter,
      ∃ e ∈ pre ++ d :: post, e.m1 = t.Reference ∧ t.Definition = TrimSpace e.m3) ∧
    (FindTerms ro emptyBodyText splitter).1.map Term.header =
      [("foo".toList, "r".toList, [])] ∧
    (FindTerms ro twoLineBodyText splitter).1.map Term.header =
      [("foo".toList, "r".toList, "line one\n  line two".toList)] := by
  refine ⟨⟨termOf ro splitter text d, ?_, rfl, rfl, ?_⟩, TrimSpace_decompose d.m3,
    fun c r h => TrimSpace_head d.m3 c r h, fun r c h => TrimSpace_last d.m3 r c h, ?_, ?_, ?_⟩
  · exact matchedLoop_first_mem ro termTexts splitter pre post d text [] hfirst hmap
      (List.not_mem_nil _)
  · intro h
    exact TrimSpace_eq_nil d.m3 h
  · intro t ht
    obtain ⟨e, he, tx, _, _, h3⟩ := matchedLoop_mem ro termTexts splitter _ [] t ht
    exact ⟨e, he, by rw [h3]; rfl, by rw [h3]; rfl⟩
  · rw [FindTerms_header ro RangeOrder.insertion splitter wholeWord]
    decide
  · rw [FindTerms_header ro RangeOrder.insertion splitter wholeWord]
    decide

/-- Witness of C13: a record for `w` whose body is blank. -/
theorem C13_witness :
    (∀ e ∈ ([] : List Submatch), e.m1 ≠ (recordOf "w" "" " \n ").m1) ∧
    List.lookup (recordOf "w" "" " \n ").m1 [("w".toList, "abcdxy".toList)]
      = some "abcdxy".toList ∧
    ∃ t ∈ matchedTermDefinitions RangeOrder.insertion [("w".toList, "abcdxy".toList)]
        ([] ++ recordOf "w" "" " \n " :: []) wholeWord,
      t.Reference = (recordOf "w" "" " \n ").m1 ∧
      t.Definition = TrimSpace (recordOf "w" "" " \n ").m3 ∧
      ((∀ c ∈ (recordOf "w" "" " \n ").m3, isSpace c = true) → t.Definition = []) :=
  ⟨by simp, by decide,
    (C13_definition_is_trimmed_body RangeOrder.insertion [("w".toList, "abcdxy".toList)]
      wholeWord [] [] (recordOf "w" "" " \n ") "abcdxy".toList (by simp) (by decide)).1⟩

set_option maxRecDepth 100000 in
/-- C14 fails on the code: every piece returned by `JapaneseWordSplitter.SplitWord` is
non-empty, at most 5 code points long and is one Han character, one or two kana characters
or a run of characters of the catch-all class; but the catch-all class
`[^\s一-龥ぁ-ヾ　]` does not exclude the half-width kana U+FF65 to U+FF9D that the kana class
holds, so for the word "a" followed by U+FF71 the one piece returned mixes a catch-all
character and a kana character. -/
theorem C14_piece_shapes_and_mixed_piece :
    (∀ word piece, piece ∈ JapaneseWordSplitter word →
      piece ≠ [] ∧ piece.length ≤ 5 ∧
        ((∃ c, piece = [c] ∧ isHan c = true) ∨
          (piece.length ≤ 2 ∧ ∀ c ∈ piece, isKana c = true) ∨
          (∀ c ∈ piece, isOther c = true))) ∧
    JapaneseWordSplitter "a\uff71".toList = ["a\uff71".toList] ∧
    isKana '\uff71' = true ∧ isOther '\uff71' = true ∧
    isKana 'a' = false ∧ isHan 'a' = false ∧ isOther 'a' = true := by
  refine ⟨?_, by decide, by decide, by decide, by decide, by decide, by decide⟩
  intro word piece hp
  obtain ⟨rest, hg⟩ := (tokenizes_JapaneseWordSplitter word).pieces piece hp
  refine ⟨hg.ne_nil, ?_, ?_⟩
  · rcases hg with ⟨x, hx, _⟩ | ⟨_, _, hlen, _⟩ | ⟨_, _, _, hlen, _⟩
    · subst hx; simp
    · omega
    · exact hlen
  · rcases hg with h | ⟨_, hall, hlen, _⟩ | ⟨_, hall, _⟩
    · exact Or.inl h
    · exact Or.inr (Or.inl ⟨hlen, hall⟩)
    · exact Or.inr (Or.inr hall)

set_option maxRecDepth 100000 in
/-- C15: the pieces returned by `JapaneseWordSplitter.SplitWord` are the left-to-right greedy
tokenization of the word: consecutive, non-overlapping, each the longest its rule allows at
its position; their concatenation is the word without the characters of no class, hence the
word itself when every character is Han, kana or of the catch-all class. The word
"マヘンドラパルバタ" gives "マヘ", "ンド", "ラパ", "ルバ", "タ". -/
theorem C15_greedy_left_to_right_tokenization (word : Str) :
    Tokenizes word (JapaneseWordSplitter word) ∧
    (JapaneseWordSplitter word).flatten =
      word.filter (fun c => isHan c || isKana c || isOther c) ∧
    ((∀ c ∈ word, (isHan c || isKana c || isOther c) = true) →
      (JapaneseWordSplitter word).flatten = word) ∧
    JapaneseWordSplitter "マヘンドラパルバタ".toList =
      ["マヘ".toList, "ンド".toList, "ラパ".toList, "ルバ".toList, "タ".toList] ∧
    JapaneseWordSplitter "密林 abcdefg".toList =
      ["密".toList, "林".toList, "abcde".toList, "fg".toList] := by
  have h := tokenizes_JapaneseWordSplitter word
  refine ⟨h, h.join_eq, ?_, by decide, by decide⟩
  intro hall
  rw [h.join_eq]
  exact List.filter_eq_self.mpr hall

set_option maxRecDepth 100000 in
/-- C16 as stated fails: the word "," consists only of punctuation and
`JapaneseWordSplitter.SplitWord` returns the piece ","; the no-break space U+00A0 is white
space and is returned as a piece too. -/
theorem C16_counterexample :
    (¬ ∀ word : Str,
      ((∀ c ∈ word, isSpace c = true) ∨ (∀ c ∈ word, c ∈ asciiPunctuation)) →
      JapaneseWordSplitter word = []) ∧
    JapaneseWordSplitter ",".toList = [",".toList] ∧
    JapaneseWordSplitter "\u00a0".toList = ["\u00a0".toList] ∧ isSpace '\u00a0' = true := by
  refine ⟨?_, by decide, by decide, by decide⟩
  intro h
  have := h ",".toList (Or.inr (by decide))
  exact absurd this (by decide)

/-- C16, amended: for every word that consists only of characters of the class `\s` (tab,
newline, form feed, carriage return, space) or ideographic spaces U+3000, and more generally
only of characters that belong to none of the three classes,
`JapaneseWordSplitter.SplitWord` returns no pieces. -/
theorem C16_blank_word_gives_no_pieces (word : Str)
    (h : ∀ c ∈ word, (isHan c || isKana c || isOther c) = false) :
    JapaneseWordSplitter word = [] ∧
    ∀ blanks : Str, (∀ c ∈ blanks, reSpace c = true ∨ c = '\u3000') →
      JapaneseWordSplitter blanks = [] :=
  ⟨(tokenizes_JapaneseWordSplitter word).eq_nil h,
    fun blanks hb => (tokenizes_JapaneseWordSplitter blanks).eq_nil
      (fun c hc => unmatched_of_space c (hb c hc))⟩

set_option maxRecDepth 100000 in
/-- Witness of C16 (amended): a word of a space, a tab, a newline and an ideographic space. -/
theorem C16_witness :
    (∀ c ∈ " \t\n\u3000".toList, (isHan c || isKana c || isOther c) = false) ∧
    JapaneseWordSplitter " \t\n\u3000".toList = [] :=
  ⟨by decide,
    (C16_blank_word_gives_no_pieces " \t\n\u3000".toList (by decide)).1⟩

set_option maxRecDepth 100000 in
/-- C17 fails on the code: for `otherTestText`, `[completely](abc)` is read as the inline
reference `[completely]` with the name "completely", so the definition of `abc` resolves to
nothing; `FindTerms` with `JapaneseWordSplitter` returns the one Term for `else` (Text
"else", Definition "For testing, yo.", Splits "else"), not two zero-value Terms. -/
theorem C17_other_test_text_gives_one_term (ro : RangeOrder) :
    (FindTerms ro otherTestText JapaneseWordSplitter).1 = [elseTerm] ∧
    (FindTerms ro otherTestText JapaneseWordSplitter).1 ≠ [zeroTerm, zeroTerm] ∧
    (termTexts (FindTerms ro otherTestText JapaneseWordSplitter).2).lookup "abc".toList
      = none ∧
    (termTexts (FindTerms ro otherTestText JapaneseWordSplitter).2).lookup
      "completely".toList = some "completely".toList := by
  have h2 : (FindTerms ro otherTestText JapaneseWordSplitter).2
      = (FindTerms RangeOrder.insertion otherTestText wholeWord).2 := rfl
  have hmap : termTexts (FindTerms RangeOrder.insertion otherTestText wholeWord).2
      = [("else".toList, "else".toList), ("completely".toList, "completely".toList)] := by
    decide
  have hdefs : (classify (paragraphSplittingPattern.Split false otherTestText)).1
      = otherDefinitions := by decide
  have hmanual : ro.manualOrder ["else".toList] = ["else".toList] :=
    List.perm_singleton.mp (ro.manualOrder_perm _)
  have hout : ro.splitsOrder ["else".toList] = ["else".toList] :=
    List.perm_singleton.mp (ro.splitsOrder_perm _)
  have hsplit : splitBySeparator "else".toList = ["else".toList] := by decide
  have hparts : unsplitParts ro "else".toList ["else".toList] = [[], []] := by
    unfold unsplitParts
    rw [hmanual]
    decide
  have h1 : (FindTerms ro otherTestText JapaneseWordSplitter).1 = [elseTerm] := by
    rw [FindTerms_fst, h2, hmap, hdefs]
    unfold otherDefinitions
    rw [matchedLoop_cons_unresolved _ _ _ _ _ _ (by decide),
      matchedLoop_cons_new _ _ _ _ _ _ "else".toList (by decide) (by decide)]
    simp only [matchedLoop, termOf, termSplits, hsplit, hparts, elseTerm]
    have hadd : addUnsplit JapaneseWordSplitter ["else".toList] [[], []]
        = ["else".toList] := by decide
    have htrim : TrimSpace "For testing, yo.\n ".toList = "For testing, yo.".toList := by
      decide
    rw [hadd, hout, htrim]
  refine ⟨h1, ?_, ?_, ?_⟩
  · rw [h1]
    decide
  · rw [h2, hmap]
    decide
  · rw [h2, hmap]
    decide

set_option maxRecDepth 100000 in
/-- C18: for a set `M` of non-empty manual splits, `unsplitParts(t, M)` is `[t]` when `M` is
empty; otherwise its fragments `f0..fk` satisfy `t = f0 m1 f1 ... mk fk` with every `mi` in
`M`, and no fragment contains an element of `M`. A manual split is matched literally: "."
cuts "axb.c" only at its dot. -/
theorem C18_unsplitParts_fragments (ro : RangeOrder) (t : Str) (M : StrSet)
    (hM : ∀ m ∈ M, m ≠ []) :
    (M = [] → unsplitParts ro t M = [t]) ∧
    (M ≠ [] →
      Interleaves M t (unsplitParts ro t M) ∧
        ∀ f ∈ unsplitParts ro t M, ∀ m ∈ M, ¬ m <:+: f) ∧
    unsplitParts ro "axb.c".toList [".".toList] = ["axb".toList, "c".toList] := by
  have hperm := ro.manualOrder_perm M
  refine ⟨?_, ?_, ?_⟩
  · intro hnil
    subst hnil
    have h0 : ro.manualOrder [] = [] := List.Perm.eq_nil hperm
    simp [unsplitParts, h0]
  · intro hne
    cases h : ro.manualOrder M with
    | nil =>
      rw [h] at hperm
      exact absurd (List.Perm.eq_nil hperm.symm) hne
    | cons q qs =>
      rw [h] at hperm
      have hall : ∀ m ∈ q :: qs, m ≠ [] := fun m hm => hM m (hperm.subset hm)
      rw [unsplitParts_cons ro t M q qs h (hall q (List.mem_cons_self _ _))]
      obtain ⟨h1, h2⟩ := Split_alternation q qs hall t.length t (Nat.le_refl _)
      exact ⟨Interleaves.mono (fun m hm => hperm.subset hm) h1,
        fun f hf m hm => h2 f hf m (hperm.symm.subset hm)⟩
  · have h1 : ro.manualOrder [".".toList] = [".".toList] :=
      List.perm_singleton.mp (ro.manualOrder_perm _)
    unfold unsplitParts
    rw [h1]
    decide

set_option maxRecDepth 100000 in
/-- Witness of C18: the text "xaybz" with the manual splits a and b. -/
theorem C18_witness :
    (∀ m ∈ ["a".toList, "b".toList], m ≠ []) ∧
    (["a".toList, "b".toList] ≠ [] →
      Interleaves ["a".toList, "b".toList] "xaybz".toList
          (unsplitParts RangeOrder.insertion "xaybz".toList ["a".toList, "b".toList]) ∧
        ∀ f ∈ unsplitParts RangeOrder.insertion "xaybz".toList ["a".toList, "b".toList],
          ∀ m ∈ ["a".toList, "b".toList], ¬ m <:+: f) :=
  ⟨by decide,
    (C18_unsplitParts_fragments RangeOrder.insertion "xaybz".toList
      ["a".toList, "b".toList] (by decide)).2.1⟩

set_option maxRecDepth 100000 in
/-- C19: `splitBySeparator(t)` holds exactly the white-space-trimmed pieces of `t` split on
"/" that are non-empty after trimming, each once: no element is empty, contains "/" or
begins or ends with white space, and a token made only of separators and white space gives
the empty set. The pieces joined by "/" are `t`. -/
theorem C19_splitBySeparator_trimmed_pieces (t : Str) :
    (∀ x, x ∈ splitBySeparator t ↔
      x ≠ [] ∧ ∃ piece ∈ stringsSplit '/' t, x = TrimSpace piece) ∧
    stringsJoin ['/'] (stringsSplit '/' t) = t ∧
    (∀ piece ∈ stringsSplit '/' t, '/' ∉ piece) ∧
    (splitBySeparator t).Nodup ∧
    (∀ x ∈ splitBySeparator t,
      x ≠ [] ∧ '/' ∉ x ∧ (∀ c r, x = c :: r → isSpace c = false) ∧
        (∀ r c, x = r ++ [c] → isSpace c = false)) ∧
    ((∀ c ∈ t, c = '/' ∨ isSpace c = true) → splitBySeparator t = []) ∧
    splitBySeparator [] = [] ∧ splitBySeparator "/".toList = [] ∧
    splitBySeparator "//".toList = [] ∧
    splitBySeparator " ab / cd//ab".toList = ["ab".toList, "cd".toList] := by
  refine ⟨mem_splitBySeparator t, stringsJoin_stringsSplit '/' t,
    fun piece hp => (stringsSplit_mem '/' t piece hp).1, nodup_splitBySeparator t, ?_, ?_,
    by decide, by decide, by decide, by decide⟩
  · intro x hx
    obtain ⟨hne, piece, hp, hxp⟩ := (mem_splitBySeparator t x).mp hx
    refine ⟨hne, ?_, ?_, ?_⟩
    · intro hmem
      have hsub : x <:+: piece := hxp ▸ TrimSpace_isInfix piece
      exact (stringsSplit_mem '/' t piece hp).1 (hsub.subset hmem)
    · intro c r h
      exact TrimSpace_head piece c r (hxp ▸ h)
    · intro r c h
      exact TrimSpace_last piece r c (hxp ▸ h)
  · intro hall
    apply List.eq_nil_iff_forall_not_mem.mpr
    intro x hx
    obtain ⟨hne, piece, hp, hxp⟩ := (mem_splitBySeparator t x).mp hx
    obtain ⟨hsep, hsub⟩ := stringsSplit_mem '/' t piece hp
    have hsp : ∀ c ∈ piece, isSpace c = true := by
      intro c hc
      rcases hall c (hsub c hc) with h | h
      · exact absurd (h ▸ hc) hsep
      · exact h
    exact hne (hxp.trans (TrimSpace_eq_nil piece hsp))

/-- C20: for every text and every splitter (and every enumeration order of the maps),
applying `FindTerms` to the non-definition text that `FindTerms` returned gives no Term and
the same text again. The reassembled prose splits back into the paragraphs that were kept
(into the one empty paragraph when none was kept), and none of them is a definition
paragraph. -/
theorem C20_stripping_definitions_is_idempotent (ro1 ro2 : RangeOrder) (text : Str)
    (splitter1 splitter2 : WordSplitter) :
    FindTerms ro2 (FindTerms ro1 text splitter1).2 splitter2 =
      ([], (FindTerms ro1 text splitter1).2) ∧
    ((classify (paragraphSplittingPattern.Split false text)).2 ≠ [] →
      paragraphSplittingPattern.Split false (FindTerms ro1 text splitter1).2 =
        (classify (paragraphSplittingPattern.Split false text)).2) ∧
    ((classify (paragraphSplittingPattern.Split false text)).2 = [] →
      paragraphSplittingPattern.Split false (FindTerms ro1 text splitter1).2 = [[]]) ∧
    ∀ p ∈ paragraphSplittingPattern.Split false (FindTerms ro1 text splitter1).2,
      termDefinitionPattern.FindStringSubmatch p = none := by
  have hok : PiecesOK true (classify (paragraphSplittingPattern.Split false text)).2 := by
    rw [classify_snd]
    exact piecesOK_filter _ _ true
      (piecesOK_Split text.length text (Nat.le_refl _) true (fun h => absurd h (by simp)))
  have hkept : ∀ p ∈ (classify (paragraphSplittingPattern.Split false text)).2,
      termDefinitionPattern.FindStringSubmatch p = none := by
    intro p hp
    rw [classify_snd] at hp
    simpa using (List.mem_filter.mp hp).2
  have hnil : paragraphSplittingPattern.Split false [] = [[]] := rfl
  have hempty : termDefinitionPattern.FindStringSubmatch [] = none := by decide
  have hsplit1 : (classify (paragraphSplittingPattern.Split false text)).2 ≠ [] →
      paragraphSplittingPattern.Split false (FindTerms ro1 text splitter1).2 =
        (classify (paragraphSplittingPattern.Split false text)).2 := by
    intro hne
    rw [FindTerms_snd]
    exact Split_join _ true hne hok
  have hsplit2 : (classify (paragraphSplittingPattern.Split false text)).2 = [] →
      paragraphSplittingPattern.Split false (FindTerms ro1 text splitter1).2 = [[]] := by
    intro he
    rw [FindTerms_snd, he]
    exact hnil
  have hnone : ∀ p ∈ paragraphSplittingPattern.Split false (FindTerms ro1 text splitter1).2,
      termDefinitionPattern.FindStringSubmatch p = none := by
    intro p hp
    by_cases he : (classify (paragraphSplittingPattern.Split false text)).2 = []
    · rw [hsplit2 he] at hp
      rw [List.mem_singleton.mp hp]
      exact hempty
    · rw [hsplit1 he] at hp
      exact hkept p hp
  refine ⟨?_, hsplit1, hsplit2, hnone⟩
  apply Prod.ext
  · rw [FindTerms_fst, classify_fst_nil _ hnone]
    rfl
  · show (FindTerms ro2 (FindTerms ro1 text splitter1).2 splitter2).2 =
      (FindTerms ro1 text splitter1).2
    rw [FindTerms_snd ro2, classify_snd_all _ hnone]
    by_cases he : (classify (paragraphSplittingPattern.Split false text)).2 = []
    · rw [hsplit2 he, FindTerms_snd, he]
      rfl
    · rw [hsplit1 he, FindTerms_snd]

end Mcdef
